import Mathlib

/-!
Formal model of `distributed_embeddings/python/layers/dist_model_parallel.py`.

The Python source is shallowly embedded: each function of the source is
translated into an executable Lean definition over `Nat`, `Int`, lists and
`Except` (for raised exceptions).  Python's arbitrary-precision integers are
`Nat`/`Int`; numpy / TF tensors of indices or weights are (nested) lists;
`hvd` collectives are modelled by their documented synchronous semantics.
-/

namespace DistEmb

open List

/-- Embedding-layer config.  In the source a config is the dict returned by
`Embedding.get_config()`; the planner only ever reads and copies the
`input_dim` / `output_dim` entries, so the model keeps exactly those. -/
structure TableConfig where
  input_dim : Nat
  output_dim : Nat
deriving DecidableEq

/-- Python exceptions that the modelled code can raise. -/
inductive PyError where
  | valueError (msg : String)
  | nameError (name : String)
  | zeroDivisionError
deriving DecidableEq

/-- Model of the loop in `maybe_slice_table_column` (lines 115-118):
`num_slices = 1; while table_size > column_slice_threshold: num_slices *= 2;
table_size /= 2`.  After `k` halvings the comparison `table_size/2^k > thr`
is `table_size > thr * num_slices` in exact arithmetic (the source halves a
Python float, which is exact for the sizes where slicing matters).  The
`fuel` argument only forces termination: it is instantiated with `tableSize`,
which is enough iterations for every threshold `≥ 1`, and for threshold `0`
the loop's observable result is capped anyway by the `min` on line 121. -/
def sliceLoop : Nat → Nat → Nat → Nat → Nat
  | 0, _, _, num => num
  | fuel + 1, tableSize, thr, num =>
    if thr * num < tableSize then sliceLoop fuel tableSize thr (2 * num) else num

/-- Model of `DistEmbeddingStrategy.maybe_slice_table_column` (lines 100-131).
`column_slice_threshold = None` is `float('inf')`, so the while loop never
runs and `num_slices` stays `1`. -/
def maybe_slice_table_column (orig_config : TableConfig)
    (column_slice_threshold : Option Nat) (world_size : Nat) : List TableConfig :=
  let table_size := orig_config.input_dim * orig_config.output_dim
  let num_slices :=
    match column_slice_threshold with
    | none => 1
    | some t => sliceLoop table_size table_size t 1
  if num_slices = 1 then [orig_config]
  else
    let n := min (min num_slices world_size) orig_config.output_dim
    let column_per_slice := orig_config.output_dim / n
    let remainder := orig_config.output_dim % n
    (List.range n).map (fun i =>
      { orig_config with
          output_dim := column_per_slice + if i < remainder then 1 else 0 })

/-- Model of `DistEmbeddingStrategy.create_sliced_configs` (lines 133-157). -/
def create_sliced_configs (global_configs : List TableConfig) (world_size : Nat)
    (column_slice_threshold : Option Nat) (input_table_map : List Nat) :
    List (List TableConfig) × List (Nat × Nat) :=
  let sliced_configs := global_configs.map
    (fun c => maybe_slice_table_column c column_slice_threshold world_size)
  let sliced_out_ranges := input_table_map.enum.filterMap (fun p =>
    if 1 < (sliced_configs.getD p.2 []).length then
      some (p.1, p.1 + (sliced_configs.getD p.2 []).length)
    else none)
  (sliced_configs, sliced_out_ranges)

/-- Pairs `(table_size, global_id)` in the order the two parallel lists
`global_ids` and `table_sizes` are built by the loop on lines 166-171;
`zip(table_sizes, global_ids)` is exactly this list. -/
def strategyPairs (sliced_configs : List (List TableConfig)) : List (Nat × Nat) :=
  (sliced_configs.enum.map
    (fun p => p.2.map (fun c => (c.input_dim * c.output_dim, p.1)))).flatten

/-- Stride selection: `strideTake k l c` skips the first `c` elements of `l`,
takes the next one, then repeats with a skip of `k - 1`.  This realises the
semantics of Python's extended slice `l[c::k]` for `k ≥ 1`. -/
def strideTake (k : Nat) : List α → Nat → List α
  | [], _ => []
  | x :: t, 0 => x :: strideTake k t (k - 1)
  | _ :: t, c + 1 => strideTake k t c

/-- Python slice `l[start::stride]` for `stride ≥ 1`. -/
def pySlice (l : List α) (start stride : Nat) : List α :=
  strideTake stride l start

/-- Python's `list.__le__` on `List Nat`: lexicographic with a proper prefix
comparing smaller. -/
def listLeB : List Nat → List Nat → Bool
  | [], _ => true
  | _ :: _, [] => false
  | a :: as, b :: bs => decide (a < b) || (decide (a = b) && listLeB as bs)

/-- Python tuple comparison `(s₁, i₁) <= (s₂, i₂)` on pairs of ints. -/
def pairLe (x y : Nat × Nat) : Prop :=
  x.1 < y.1 ∨ (x.1 = y.1 ∧ x.2 ≤ y.2)

instance : DecidableRel pairLe := fun x y => by unfold pairLe; infer_instance

/-- Comparison used by `sorted(..., reverse=True)` on pairs (line 178). -/
def pairDesc (x y : Nat × Nat) : Prop := pairLe y x

instance : DecidableRel pairDesc := fun x y => by
  unfold pairDesc; infer_instance

/-- Python comparison of the `[load, ids]` records sorted on line 192:
lexicographic on the load, then on the id list. -/
def resLe (x y : Nat × List Nat) : Prop :=
  x.1 < y.1 ∨ (x.1 = y.1 ∧ listLeB x.2 y.2 = true)

instance : DecidableRel resLe := fun x y => by unfold resLe; infer_instance

instance : IsTotal (Nat × Nat) pairLe :=
  ⟨fun x y => by unfold pairLe; omega⟩

instance : IsTrans (Nat × Nat) pairLe :=
  ⟨fun x y z hxy hyz => by unfold pairLe at *; omega⟩

instance : IsAntisymm (Nat × Nat) pairLe :=
  ⟨fun x y hxy hyx => by
    unfold pairLe at *
    have h1 : x.1 = y.1 := by omega
    have h2 : x.2 = y.2 := by omega
    exact Prod.ext h1 h2⟩

instance : IsTotal (Nat × Nat) pairDesc :=
  ⟨fun x y => by unfold pairDesc; exact IsTotal.total (r := pairLe) y x⟩

instance : IsTrans (Nat × Nat) pairDesc :=
  ⟨fun x y z hxy hyz => by
    unfold pairDesc at *; exact IsTrans.trans (r := pairLe) z y x hyz hxy⟩

instance : IsTotal (List Nat) (fun a b => listLeB a b = true) := by
  constructor
  intro a
  induction a with
  | nil => intro b; left; rfl
  | cons x xs ih =>
    intro b
    cases b with
    | nil => right; rfl
    | cons y ys =>
      rcases Nat.lt_trichotomy x y with h | h | h
      · left; simp [listLeB, h]
      · subst h
        rcases ih ys with h2 | h2
        · left; simp [listLeB, h2]
        · right; simp [listLeB, h2]
      · right; simp [listLeB, h]

instance : IsTrans (List Nat) (fun a b => listLeB a b = true) := by
  constructor
  intro a
  induction a with
  | nil => intro b c _ _; rfl
  | cons x xs ih =>
    intro b c hab hbc
    cases b with
    | nil => simp [listLeB] at hab
    | cons y ys =>
      cases c with
      | nil => simp [listLeB] at hbc
      | cons z zs =>
        simp only [listLeB, Bool.or_eq_true, Bool.and_eq_true, decide_eq_true_eq] at *
        rcases hab with h1 | ⟨h1, h1r⟩ <;> rcases hbc with h2 | ⟨h2, h2r⟩
        · left; omega
        · left; omega
        · left; omega
        · right; exact ⟨by omega, ih ys zs h1r h2r⟩

instance : IsTotal (Nat × List Nat) resLe := by
  constructor
  intro x y
  rcases Nat.lt_trichotomy x.1 y.1 with h | h | h
  · left; exact Or.inl h
  · rcases IsTotal.total (r := fun a b => listLeB a b = true) x.2 y.2 with h2 | h2
    · left; exact Or.inr ⟨h, h2⟩
    · right; exact Or.inr ⟨h.symm, h2⟩
  · right; exact Or.inl h

instance : IsTrans (Nat × List Nat) resLe := by
  constructor
  intro x y z hxy hyz
  rcases hxy with h1 | ⟨h1, h1r⟩ <;> rcases hyz with h2 | ⟨h2, h2r⟩
  · exact Or.inl (by omega)
  · exact Or.inl (by omega)
  · exact Or.inl (by omega)
  · exact Or.inr ⟨h1.trans h2,
      IsTrans.trans (r := fun a b => listLeB a b = true) _ _ _ h1r h2r⟩

/-- Model of one iteration of the `while sorted_pairs:` loop (lines 188-192):
pop the largest remaining `(size, id)` pair, add it to the least-loaded
worker `res[0]`, and re-sort `res`.  `sorted` on the `[load, ids]` records is
Python's stable sort under the total lexicographic order `resLe`; since
`resLe` is antisymmetric the sorted list is unique, and
`List.insertionSort` computes it. -/
def greedyStep (res : List (Nat × List Nat)) (cur : Nat × Nat) :
    List (Nat × List Nat) :=
  match res with
  | [] => []
  | (load, ids) :: t =>
    List.insertionSort resLe ((load + cur.1, ids ++ [cur.2]) :: t)

/-- Final `res` state of the `memory_optimized` greedy loop (lines 186-192):
`sorted_pairs` ascending, popped from the end, each pair added to the
currently least-loaded worker. -/
def memoryOptimizedRes (world_size : Nat)
    (sliced_configs : List (List TableConfig)) : List (Nat × List Nat) :=
  (List.insertionSort pairLe (strategyPairs sliced_configs)).reverse.foldl
    greedyStep (List.replicate world_size (0, []))

/-- Model of `DistEmbeddingStrategy.apply_stragety` (lines 160-196).  The
unknown-mode branch models line 195: the `raise` statement's f-string reads
the name `strategy`, which is not defined in the function's scope (the
parameter is `mode`), so evaluating the statement raises `NameError` rather
than the intended `ValueError`. -/
def apply_stragety (mode : String) (world_size : Nat)
    (sliced_configs : List (List TableConfig)) :
    Except PyError (List (List Nat)) :=
  let pairs := strategyPairs sliced_configs
  let global_ids := pairs.map Prod.snd
  if mode = "basic" then
    .ok ((List.range world_size).map (fun i => pySlice global_ids i world_size))
  else if mode = "memory_balanced" then
    let sorted_ids := (List.insertionSort pairDesc pairs).map Prod.snd
    .ok ((List.range world_size).map (fun i =>
      pySlice sorted_ids i (2 * world_size) ++
        pySlice sorted_ids (2 * world_size - 1 - i) (2 * world_size)))
  else if mode = "memory_optimized" then
    .ok ((memoryOptimizedRes world_size sliced_configs).map Prod.snd)
  else
    .error (.nameError "strategy")

/-- Planning state of `DistEmbeddingStrategy` after `__init__`.  Fields the
source leaves unset on the `world_size == 1` fast path (lines 48-53) are
modelled as `[]`. -/
structure DistStrategy where
  global_configs : List TableConfig
  table_ids_list : List (List Nat)
  input_ids_list : List (List Nat)
  local_map_list : List (List Nat)
  local_configs_list : List (List TableConfig)
  widths_list_flat : List Nat
  rev_global_input_ids : List Nat
  sliced_out_ranges : List (Nat × Nat)
  local_configs : List TableConfig
  local_input_table_map : List Nat

/-- Model of the inner per-rank loop of `__init__` (lines 72-79): walk one
rank's `rank_table_ids`, popping the front slice config of
`sliced_configs[table_idx]` (line 74, a destructive `pop(0)`, threaded here
as the `rem` state) and collecting, per enumerated `(m, table_idx)`, the
widths, global input ids and local map entries of all inputs mapped to that
table. -/
def buildRank (input_table_map : List Nat) :
    List Nat → Nat → List (List TableConfig) →
    List TableConfig × List Nat × List Nat × List Nat × List (List TableConfig)
  | [], _, rem => ([], [], [], [], rem)
  | table_idx :: rest, m, rem =>
    let cfg := (rem.getD table_idx []).headD ⟨0, 0⟩
    let rem1 := rem.set table_idx (rem.getD table_idx []).tail
    let hits := input_table_map.enum.filter (fun p => p.2 = table_idx)
    let r := buildRank input_table_map rest (m + 1) rem1
    (cfg :: r.1, hits.map (fun _ => cfg.output_dim) ++ r.2.1,
      hits.map Prod.fst ++ r.2.2.1, hits.map (fun _ => m) ++ r.2.2.2.1,
      r.2.2.2.2)

/-- Model of the outer loop of `__init__` (lines 70-83): iterate `buildRank`
over all ranks' table id lists, threading the popped slice-config state and
accumulating `local_configs_list`, `widths_list_flat`, `input_ids_list` and
`local_map_list`. -/
def buildPlanLoop (input_table_map : List Nat) :
    List (List Nat) → List (List TableConfig) →
    List (List TableConfig) × List Nat × List (List Nat) × List (List Nat)
  | [], _ => ([], [], [], [])
  | rank_table_ids :: rest, rem =>
    let r := buildRank input_table_map rank_table_ids 0 rem
    let rec2 := buildPlanLoop input_table_map rest r.2.2.2.2
    (r.1 :: rec2.1, r.2.1 ++ rec2.2.1, r.2.2.1 :: rec2.2.2.1,
      r.2.2.2.1 :: rec2.2.2.2)

/-- Model of `DistEmbeddingStrategy.__init__` (lines 37-98).  `rank` is only
read on lines 86 and 98, to project the per-rank local fields out of the
globally computed lists; all other fields are functions of the global inputs
alone.  `rev_global_input_ids` (lines 88-95) sorts the pairs
`zip(worker_order_input_ids, range(n))` with Python's stable sort; the
comparison `pairLe` is total and antisymmetric on those pairs, so
`List.insertionSort` computes the same list. -/
def mkStrategy (embeddings : List TableConfig) (world_size rank : Nat)
    (mode : String) (input_table_map : Option (List Nat))
    (column_slice_threshold : Option Nat) : Except PyError DistStrategy :=
  let global_configs := embeddings
  let itm := input_table_map.getD (List.range embeddings.length)
  if world_size = 1 then
    .ok { global_configs := global_configs
          table_ids_list := [List.range embeddings.length]
          input_ids_list := [List.range itm.length]
          local_map_list := [], local_configs_list := []
          widths_list_flat := [], rev_global_input_ids := []
          sliced_out_ranges := []
          local_configs := global_configs
          local_input_table_map := itm }
  else
    let sc := create_sliced_configs global_configs world_size
      column_slice_threshold itm
    (apply_stragety mode world_size sc.1).map (fun table_ids_list =>
      let bp := buildPlanLoop itm table_ids_list sc.1
      let worker_order_input_ids := bp.2.2.1.flatten
      let rev := (List.insertionSort pairLe
        (worker_order_input_ids.zip
          (List.range worker_order_input_ids.length))).map Prod.snd
      { global_configs := global_configs
        table_ids_list := table_ids_list
        input_ids_list := bp.2.2.1
        local_map_list := bp.2.2.2
        local_configs_list := bp.1
        widths_list_flat := bp.2.1
        rev_global_input_ids := rev
        sliced_out_ranges := sc.2
        local_configs := bp.1.getD rank []
        local_input_table_map := bp.2.2.2.getD rank [] })

/-- Global planning fields of a strategy: everything `__init__` computes
from the global inputs, identically on every rank. -/
def globalPlanFields (s : DistStrategy) :
    List (List Nat) × List (List Nat) × List (List TableConfig) ×
      List Nat × List Nat × List (Nat × Nat) :=
  (s.table_ids_list, s.input_ids_list, s.local_configs_list,
    s.widths_list_flat, s.rev_global_input_ids, s.sliced_out_ranges)

/-- Model of the check on lines 231-232 of `DistributedEmbedding.__init__`:
an unknown strategy name raises `ValueError` before anything else runs. -/
def distributedEmbeddingStrategyCheck (strategy : String) :
    Except PyError Unit :=
  if strategy = "basic" ∨ strategy = "memory_balanced" ∨
      strategy = "memory_optimized" then .ok ()
  else .error (.valueError ("Unsupported shard strategy " ++ strategy))

/-- A TensorFlow gradient: either a dense tensor or `tf.IndexedSlices`.
The numeric payload is modelled as a rational (the routing performs only
exact copies and one division by the world size). -/
inductive TFGrad where
  | dense (v : ℚ)
  | indexedSlices (values : ℚ) (indices dense_shape : Nat)
deriving DecidableEq

/-- Division of a gradient by the world size, as done on lines 542-546:
`IndexedSlices` divide their `values` and keep indices and shape; dense
gradients are divided directly. -/
def gradDivWorld (g : TFGrad) (world_size : Nat) : TFGrad :=
  match g with
  | .dense v => .dense (v / world_size)
  | .indexedSlices v i d => .indexedSlices (v / world_size) i d

/-- State threaded by the classification loop of `gradient`
(lines 538-551): `dp_grads`, `mp_grads` and `split_infos`. -/
structure GradSplitState where
  dp_grads : List TFGrad
  mp_grads : List TFGrad
  split_infos : List (Bool × Nat)

/-- One iteration of the `for grad, var in zip(gradients, sources)` loop
(lines 540-551).  The boolean of a pair is
`var.synchronization == tf.VariableSynchronization.NONE`, i.e. `true` for a
model-parallel variable. -/
def gradClassifyStep (world_size : Nat) (st : GradSplitState)
    (p : TFGrad × Bool) : GradSplitState :=
  if p.2 then
    { st with mp_grads := st.mp_grads ++ [gradDivWorld p.1 world_size]
              split_infos := st.split_infos ++ [(true, st.mp_grads.length)] }
  else
    { st with dp_grads := st.dp_grads ++ [p.1]
              split_infos := st.split_infos ++ [(false, st.dp_grads.length)] }

/-- Reduction and re-interleaving after the classification loop: all-reduce
every data-parallel gradient (lines 553-555) and put all gradients back in
original order through `split_infos` (lines 557-562). -/
def gradReassemble (allreduceAvg : TFGrad → TFGrad) (st : GradSplitState) :
    List TFGrad :=
  let dp_reduced := st.dp_grads.map allreduceAvg
  st.split_infos.map (fun info =>
    if info.1 then st.mp_grads.getD info.2 (.dense 0)
    else dp_reduced.getD info.2 (.dense 0))

/-- Model of the `gradient` method installed by `DistributedGradientTape`
(lines 534-563).  `allreduceAvg` is the external `hvd.allreduce(_, op=Average)`
collective applied to every data-parallel gradient; model-parallel gradients
are divided by the world size and never exchanged. -/
def tapeGradient (world_size : Nat) (allreduceAvg : TFGrad → TFGrad)
    (grad_vars : List (TFGrad × Bool)) : List TFGrad :=
  gradReassemble allreduceAvg
    (grad_vars.foldl (gradClassifyStep world_size) ⟨[], [], []⟩)

/-- A weight matrix: a list of rows. -/
abbrev Matrix : Type := List (List Int)

/-- Python slice `row[start:end]`. -/
def pyRange (l : List α) (s e : Nat) : List α := (l.take e).drop s

/-- Model of `_slice_weight_for_rank` (lines 346-356): select this worker's
column sub-range of one global weight, from the per-table slice counts
`info` and the offset among this worker's own slices of the same table. -/
def slice_weight_for_rank (weight : Matrix) (info : List Nat)
    (global_rank offset : Nat) : Matrix :=
  let num_columns := (weight.headD []).length
  let num_slices := info.sum
  let column_per_slice := num_columns / num_slices
  let remainder := num_columns % num_slices
  let rk := (info.take global_rank).sum + offset
  let start := column_per_slice * rk + min rk remainder
  let stop := column_per_slice * (rk + 1) + min (rk + 1) remainder
  weight.map (fun row => pyRange row start stop)

/-- Row blocks written by the chunked scatter loop of `set_weights`
(lines 373-380): block `i` holds rows `[i * chunk_size_dim0, ...)` of `arr`
with the given size. -/
def scatterRows (arr : Matrix) (chunk_size_dim0 : Nat) :
    List Nat → Nat → List Matrix
  | [], _ => []
  | s :: rest, i =>
    pyRange arr (i * chunk_size_dim0) (i * chunk_size_dim0 + s) ::
      scatterRows arr chunk_size_dim0 rest (i + 1)

/-- Model of the per-variable assignment in `set_weights` (lines 365-380):
small arrays are assigned directly; larger ones are written in row chunks of
at most `chunk` elements.  `chunk // weight.shape[1]` with more columns than
`chunk` makes `chunk_size_dim0` zero and `math.ceil(rows / 0)` raises
`ZeroDivisionError`. -/
def assign_chunked (weight_rows weight_cols : Nat) (arr : Matrix)
    (chunk : Nat) : Except PyError Matrix :=
  if arr.length * (arr.headD []).length ≤ chunk then .ok arr
  else
    let chunk_size_dim0 := chunk / weight_cols
    if chunk_size_dim0 = 0 then .error .zeroDivisionError
    else
      let num_chunks := (weight_rows + chunk_size_dim0 - 1) / chunk_size_dim0
      let last_size := weight_rows - chunk_size_dim0 * (num_chunks - 1)
      let chunk_sizes := List.replicate (num_chunks - 1) chunk_size_dim0 ++
        [last_size]
      .ok (scatterRows arr chunk_size_dim0 chunk_sizes 0).flatten

/-- The assignment loop `for weight, arr in zip(self.weights, weights)`
of `set_weights`, over the local weight shapes. -/
def assignAll (chunk : Nat) :
    List ((Nat × Nat) × Matrix) → Except PyError (List Matrix)
  | [] => .ok []
  | (shape, arr) :: rest => do
    let w ← assign_chunked shape.1 shape.2 arr chunk
    let ws ← assignAll chunk rest
    .ok (w :: ws)

/-- Model of `DistributedEmbedding.set_weights` (lines 319-385) on one rank:
returns the arrays stored into this rank's local embedding variables.  The
`use_lock` broadcasts only serialise ranks and move no data, and weights are
given as arrays (not file paths), so both are dropped.  `local_shapes` are
the shapes of `self.weights`, i.e. of the local slice configs. -/
def set_weights (table_ids_list : List (List Nat)) (world_size rank : Nat)
    (local_shapes : List (Nat × Nat)) (weights : List Matrix)
    (chunk : Nat) : Except PyError (List Matrix) :=
  let localArrays :=
    if 1 < world_size then
      let slice_info := (List.range weights.length).map (fun tid =>
        table_ids_list.map (fun rank_tids => rank_tids.count tid))
      let rank_ids := table_ids_list.getD rank []
      let picked := rank_ids.map (fun index => weights.getD index [])
      let local_info := rank_ids.map (fun index => slice_info.getD index [])
      let index_offset := (List.range rank_ids.length).map (fun i =>
        (rank_ids.take i).count (rank_ids.getD i 0))
      (List.range rank_ids.length).map (fun i =>
        slice_weight_for_rank (picked.getD i []) (local_info.getD i [])
          rank (index_offset.getD i 0))
    else weights
  assignAll chunk (local_shapes.zip localArrays)

/-- Semantics of `tf.split` on a flat tensor: consecutive pieces of the
given lengths. -/
def split_canonical : List Int → List Nat → List (List Int)
  | _, [] => []
  | tensor, len :: rest => tensor.take len :: split_canonical (tensor.drop len) rest

/-- One iteration of the inner `while length > 0` loop of `_split_1d`
(lines 400-407): consume whole leading chunks while the requested length
exceeds them, then split the first chunk.  An exhausted chunk list with
demand left is a Python `IndexError`; the model returns what it has, and is
never called that way. -/
def consumeChunks : Nat → List (List Int) → List Int × List (List Int)
  | 0, tensor_list => ([], tensor_list)
  | _ + 1, [] => ([], [])
  | len + 1, t0 :: rest =>
    if t0.length < len + 1 then
      let r := consumeChunks (len + 1 - t0.length) rest
      (t0 ++ r.1, r.2)
    else
      (t0.take (len + 1), t0.drop (len + 1) :: rest)

/-- The outer `for length in lengths` loop of `_split_1d`. -/
def split1dGo : List Nat → List (List Int) → List (List Int)
  | [], _ => []
  | len :: rest, tensor_list =>
    let r := consumeChunks len tensor_list
    r.1 :: split1dGo rest r.2

/-- Model of `DistributedEmbedding._split_1d` (lines 387-409): ordinary
`tf.split` below the 32-bit chunking threshold, otherwise pad to a multiple
of the chunk count, cut into equal rows, and greedily consume rows across
chunk boundaries.  `math.ceil` on the exact ratio replaces the float
division of the source. -/
def split_1d (tensor : List Int) (lengths : List Nat) : List (List Int) :=
  let chunking_threshold := 2147483646
  if tensor.length ≤ chunking_threshold then split_canonical tensor lengths
  else
    let num_chunks := (tensor.length + chunking_threshold - 1) /
      chunking_threshold
    let padding_len := ((tensor.length + num_chunks - 1) / num_chunks) *
      num_chunks - tensor.length
    let padded := tensor ++ List.replicate padding_len 0
    let row := padded.length / num_chunks
    split1dGo lengths ((List.range num_chunks).map (fun i =>
      pyRange padded (i * row) ((i + 1) * row)))

/-- Reshape a flat tensor into a `rows × cols` matrix (`tf.reshape` on
line 464). -/
def reshape2d (flat : List α) (rows cols : Nat) : List (List α) :=
  (List.range rows).map (fun i => pyRange flat (i * cols) ((i + 1) * cols))

/-- Concatenation of matrices along the column axis
(`tf.concat(..., axis=1)`). -/
def hconcat : List Matrix → Matrix
  | [] => []
  | [m] => m
  | m :: rest => List.zipWith (fun r1 r2 => r1 ++ r2) m (hconcat rest)

/-- Key-only comparison used by `sorted(..., key=lambda x: x[0])` on
line 471; Python's sort is stable, which `List.insertionSort` realises for
this total preorder. -/
def keyLe {β : Type} (x y : Nat × β) : Prop := x.1 ≤ y.1

instance {β : Type} : DecidableRel (keyLe (β := β)) := fun x y => by
  unfold keyLe; infer_instance

instance {β : Type} : IsTotal (Nat × β) keyLe :=
  ⟨fun x y => by unfold keyLe; omega⟩

instance {β : Type} : IsTrans (Nat × β) keyLe :=
  ⟨fun x y z hxy hyz => by unfold keyLe at *; omega⟩

/-- The `while ids_and_weights` loop of `get_weights` (lines 473-484):
group consecutive same-id weights, concatenating each group along the
column axis. -/
def groupConcat : List (Nat × Matrix) → Nat → List Matrix → List Matrix
  | [], _, cur_list => [hconcat cur_list]
  | (tid, w) :: rest, cur_id, cur_list =>
    if tid = cur_id then groupConcat rest cur_id (cur_list ++ [w])
    else hconcat cur_list :: groupConcat rest tid [w]

/-- Per-rank flat weight buffer: local weights reshaped to `[-1]` and
concatenated (line 435). -/
def flatWeights (stored : List Matrix) : List Int :=
  (stored.map (fun w => w.flatten)).flatten

/-- Chunk sizes one rank reports (lines 436-438). -/
def rankChunkSizes (flatLen num_chunks : Nat) : List Nat :=
  let chunk_size := flatLen / num_chunks
  List.replicate (num_chunks - 1) chunk_size ++
    [flatLen - chunk_size * (num_chunks - 1)]

/-- Model of `DistributedEmbedding.get_weights` (lines 411-485).  The
collectives are modelled globally: `storedWeights` holds every rank's local
weight list, `hvd.allgather` of chunk `i` concatenates that chunk over all
ranks, and every rank executes the same code on its own `rank` value. -/
def get_weights (world_size rank : Nat) (all_ranks : Bool)
    (local_configs_list : List (List TableConfig))
    (table_ids_list : List (List Nat))
    (storedWeights : List (List Matrix)) : List Matrix :=
  if world_size = 1 then storedWeights.getD rank []
  else
    let chunking_threshold := 2000000000
    let num_chunks := local_configs_list.foldl (fun acc local_configs =>
      max acc ((world_size * (local_configs.map (fun c =>
        c.input_dim * c.output_dim)).sum + chunking_threshold - 1) /
        chunking_threshold)) 1
    let flats := (List.range world_size).map (fun s =>
      flatWeights (storedWeights.getD s []))
    let all_sizes := (flats.map (fun f =>
      rankChunkSizes f.length num_chunks)).flatten
    let ownChunks := (List.range world_size).map (fun s =>
      split_1d (flats.getD s []) (rankChunkSizes (flats.getD s []).length
        num_chunks))
    let chunks := if all_ranks || rank = 0 then
      ((List.range num_chunks).map (fun i =>
        split_1d (((List.range world_size).map (fun s =>
          (ownChunks.getD s []).getD i [])).flatten)
          (pySlice all_sizes i num_chunks))).flatten
      else []
    if chunks = [] then []
    else
      let local_weights := (List.range world_size).map (fun j =>
        (pySlice chunks j world_size).flatten)
      let weights := ((List.range world_size).map (fun j =>
        let local_configs := local_configs_list.getD j []
        let flat_pieces := split_1d (local_weights.getD j [])
          (local_configs.map (fun c => c.input_dim * c.output_dim))
        (List.range local_configs.length).map (fun i =>
          reshape2d (flat_pieces.getD i [])
            ((local_configs.getD i ⟨0, 0⟩).input_dim)
            ((local_configs.getD i ⟨0, 0⟩).output_dim)))).flatten
      let worker_order_table_ids := table_ids_list.flatten
      let ids_and_weights := List.insertionSort keyLe
        (worker_order_table_ids.zip weights)
      groupConcat ids_and_weights 0 []


/-- Enumerate a table-id list worker-major, tagging every id with its
occurrence index: how many equal ids (counted by `cnt` plus the prefix)
came before it. -/
def occEnum : List Nat → (Nat → Nat) → List (Nat × Nat)
  | [], _ => []
  | tid :: rest, cnt =>
    (tid, cnt tid) :: occEnum rest (fun t => if t = tid then cnt t + 1 else cnt t)

/-- The sequence of slice configs popped by the `__init__` loop (line 74)
when walking a worker-major table-id list, threading the per-table
remaining-slices state. -/
def popSeq : List Nat → List (List TableConfig) → List TableConfig
  | [], _ => []
  | tid :: rest, rem =>
    (rem.getD tid []).headD ⟨0, 0⟩ ::
      popSeq rest (rem.set tid (rem.getD tid []).tail)

/-- The remaining-slices state after popping a worker-major table-id list. -/
def popRem : List Nat → List (List TableConfig) → List (List TableConfig)
  | [], rem => rem
  | tid :: rest, rem => popRem rest (rem.set tid (rem.getD tid []).tail)

/-- First column of slice `j` when a table of `out` columns is cut into `S`
even slices, remainder to the earliest slices — the start/end formula shared
by `maybe_slice_table_column` and `_slice_weight_for_rank`. -/
def colStart (out S j : Nat) : Nat := out / S * j + min j (out % S)

/-- Column block `j` of a global weight matrix cut into `S` slices. -/
def tableSlice (Wt : Matrix) (out S j : Nat) : Matrix :=
  Wt.map (fun row => pyRange row (colStart out S j) (colStart out S (j + 1)))

/-- Shapes of the embedding variables created from a config list (the
`self.weights` that `set_weights` zips against). -/
def shapesOf (cfgs : List TableConfig) : List (Nat × Nat) :=
  cfgs.map (fun c => (c.input_dim, c.output_dim))

/-- Per-rank local config lists produced by walking the worker buckets in
order while popping the shared sliced-config state — the value of
`local_configs_list` computed by the `__init__` loop. -/
def configsOfBuckets : List (List Nat) → List (List TableConfig) →
    List (List TableConfig)
  | [], _ => []
  | b :: rest, rem => popSeq b rem :: configsOfBuckets rest (popRem b rem)

/-- The column block of the global weight `W[p.1]` that the slice with
occurrence index `p.2` of table `p.1` carries. -/
def sliceFor (W : List Matrix) (sliced : List (List TableConfig))
    (p : Nat × Nat) : Matrix :=
  tableSlice (W.getD p.1 []) ((W.getD p.1 []).headD []).length
    ((sliced.getD p.1 []).length) p.2


/-- Embedding lookup (`layer(inp)` with 1-D integer input): one weight row
per index. -/
def gatherRows (table : Matrix) (ids : List Nat) : Matrix :=
  ids.map (fun x => table.getD x [])

/-- Inputs mapped to table `t` by `input_table_map`, in input order — the
`hits` of the `__init__` loop (lines 75-79). -/
def hitsOf (itm : List Nat) (t : Nat) : List Nat :=
  (itm.enum.filter (fun p => p.2 = t)).map Prod.fst

/-- `hitsOf` generalised to an enumeration starting at `k`. -/
def hitsOfFrom (k : Nat) (itm : List Nat) (t : Nat) : List Nat :=
  ((itm.enumFrom k).filter (fun p => p.2 = t)).map Prod.fst

/-- The dp-to-mp input resharding of `_call_base` (lines 267-288) as run by
worker `ρ`: every worker flattens and concatenates its inputs in the
worker-major order of `input_ids_list`; `hvd.alltoall` with `global_splits`
hands worker `ρ` the `ρ`-th segment of every worker's buffer; the received
buffer is reshaped to `[world_size, -1]`, split along axis 1 at this rank's
`local_splits`, and each piece reshaped back to one flat index tensor.
`X w i` is worker `w`'s data-parallel index batch for global input `i`. -/
def reshard (ws : Nat) (input_ids_list : List (List Nat))
    (X : Nat → Nat → List Nat) (ρ : Nat) : List (List Nat) :=
  let splits := (input_ids_list.getD ρ []).map (fun index => (X ρ index).length)
  let recv := ((List.range ws).map (fun w =>
    ((input_ids_list.getD ρ []).map (fun index => X w index)).flatten)).flatten
  let mat := reshape2d recv ws (recv.length / ws)
  (List.range splits.length).map (fun m =>
    (mat.map (fun row => pyRange row ((splits.take m).sum)
      ((splits.take m).sum + splits.getD m 0))).flatten)

/-- The per-local-table lookups of `_call_base` (lines 291-294). -/
def mpOuts (local_map : List Nat) (localW : List Matrix)
    (inputs : List (List Nat)) : List Matrix :=
  (List.zip local_map inputs).map (fun p =>
    gatherRows (localW.getD p.1 []) p.2)

/-- Lines 297-299: each lookup output reshaped to `[world_size, -1]`, all
concatenated along axis 1, then flattened into one worker's send buffer for
the output `alltoall`. -/
def sendBuf (ws : Nat) (outs : List Matrix) : List Int :=
  (hconcat (outs.map (fun mo =>
    reshape2d mo.flatten ws (mo.flatten.length / ws)))).flatten

/-- Model of `DistributedEmbedding._call_base` (lines 261-311) on one rank,
with the collectives given their global semantics: the even output
`alltoall` (line 300) hands this rank chunk `rank` of every worker's send
buffer.  Integer casts are identities in this model.  `localW ρ` is worker
`ρ`'s list of local embedding weights. -/
def call_base (ws rank : Nat) (input_ids_list local_map_list : List (List Nat))
    (widths_list_flat rev_global_input_ids : List Nat)
    (localW : Nat → List Matrix) (X : Nat → Nat → List Nat) : List Matrix :=
  let dp_outs := ((List.range ws).map (fun ρ =>
    let s := sendBuf ws (mpOuts (local_map_list.getD ρ []) (localW ρ)
      (reshard ws input_ids_list X ρ))
    pyRange s (rank * (s.length / ws)) ((rank + 1) * (s.length / ws)))).flatten
  let local_bs := ((reshard ws input_ids_list X rank).getD 0 []).length / ws
  let num_elements := widths_list_flat.map (fun width => local_bs * width)
  let split_outs := split_canonical dp_outs num_elements
  let worker_order_res := split_outs.map (fun split_out =>
    reshape2d split_out local_bs (split_out.length / local_bs))
  rev_global_input_ids.map (fun index => worker_order_res.getD index [])

/-- Model of `DistributedEmbedding._concat_column_slice_outputs`
(lines 313-317): for each recorded range, splice the column-concatenation
of that span back into the output list. -/
def concat_column_slice_outputs : List (Nat × Nat) → List Matrix → List Matrix
  | [], outs => outs
  | (start, stop) :: rest, outs =>
    concat_column_slice_outputs rest
      (outs.take start ++ [hconcat (pyRange outs start stop)] ++
        outs.drop stop)

/-- Model of the `world_size == 1` branch of `DistributedEmbedding.call`
(lines 494-499): plain per-input lookups through `local_input_table_map`. -/
def single_worker_call (local_input_table_map : List Nat)
    (localW : List Matrix) (inputs : List (List Nat)) : List Matrix :=
  (List.zip local_input_table_map inputs).map (fun p =>
    gatherRows (localW.getD p.1 []) p.2)

theorem pySlice_nil (i k : Nat) : pySlice ([] : List α) i k = [] := rfl

theorem pySlice_cons_zero (x : α) (t : List α) (k : Nat) :
    pySlice (x :: t) 0 k = x :: pySlice t (k - 1) k := rfl

theorem pySlice_cons_succ (x : α) (t : List α) (i k : Nat) :
    pySlice (x :: t) (i + 1) k = pySlice t i k := rfl

/-- Taking the Python slices `l[0::k], l[1::k], ..., l[k-1::k]` decomposes
`l`: their concatenation is a permutation of `l`. -/
theorem pySlice_flatten_perm (l : List α) :
    ∀ m : Nat, ((List.range (m + 1)).map (fun i => pySlice l i (m + 1))).flatten ~ l := by
  induction l with
  | nil =>
    intro m
    rw [List.perm_nil, List.flatten_eq_nil_iff]
    simp [pySlice_nil]
  | cons x t ih =>
    intro m
    rw [List.range_succ_eq_map, List.map_cons, List.map_map]
    have hmap : (List.range m).map
        ((fun i => pySlice (x :: t) i (m + 1)) ∘ Nat.succ) =
        (List.range m).map (fun i => pySlice t i (m + 1)) :=
      List.map_congr_left (fun i _ => pySlice_cons_succ x t i (m + 1))
    rw [hmap, List.flatten_cons, pySlice_cons_zero]
    simp only [Nat.add_sub_cancel, List.cons_append]
    refine List.Perm.cons x ?_
    have h1 : pySlice t m (m + 1) ++
        ((List.range m).map (fun i => pySlice t i (m + 1))).flatten ~
        ((List.range (m + 1)).map (fun i => pySlice t i (m + 1))).flatten := by
      rw [List.range_succ, List.map_append, List.flatten_append]
      simpa using List.perm_append_comm
    exact h1.trans (ih m)

/-- Length of a Python slice `l[c::k]`: the ceiling of `(len(l) - c) / k`. -/
theorem strideTake_length (k : Nat) (hk : 1 ≤ k) :
    ∀ (l : List α) (c : Nat),
      (strideTake k l c).length = (l.length - c + (k - 1)) / k := by
  intro l
  induction l with
  | nil =>
    intro c
    simp [strideTake, Nat.div_eq_of_lt (by omega : k - 1 < k)]
  | cons x t ih =>
    intro c
    match c with
    | 0 =>
      rw [show strideTake k (x :: t) 0 = x :: strideTake k t (k - 1) from rfl,
        List.length_cons, List.length_cons, ih (k - 1),
        show t.length + 1 - 0 + (k - 1) = t.length + k by omega,
        Nat.add_div_right _ (by omega : 0 < k)]
      rcases Nat.lt_or_ge t.length (k - 1) with h | h
      · rw [Nat.sub_eq_zero_of_le (le_of_lt h), Nat.zero_add,
          Nat.div_eq_of_lt (by omega : k - 1 < k),
          Nat.div_eq_of_lt (by omega : t.length < k)]
      · rw [show t.length - (k - 1) + (k - 1) = t.length by omega]
    | c + 1 =>
      rw [show strideTake k (x :: t) (c + 1) = strideTake k t c from rfl,
        ih c, List.length_cons,
        show t.length + 1 - (c + 1) = t.length - c by omega]

theorem pySlice_length (l : List α) (c k : Nat) (hk : 1 ≤ k) :
    (pySlice l c k).length = (l.length - c + (k - 1)) / k :=
  strideTake_length k hk l c

theorem sliceLoop_pos (fuel tableSize thr num : Nat) (h : 1 ≤ num) :
    1 ≤ sliceLoop fuel tableSize thr num := by
  induction fuel generalizing num with
  | zero => simpa [sliceLoop] using h
  | succ n ih =>
    rw [sliceLoop]
    split
    · exact ih _ (by omega)
    · exact h

theorem sliceLoop_of_le (fuel tableSize thr : Nat) (h : tableSize ≤ thr) :
    sliceLoop fuel tableSize thr 1 = 1 := by
  cases fuel with
  | zero => rfl
  | succ n => rw [sliceLoop, if_neg (by omega)]

theorem widths_ite_sum (cps rem : Nat) :
    ∀ n : Nat,
      ((List.range n).map (fun i => cps + if i < rem then 1 else 0)).sum =
        n * cps + min rem n := by
  intro n
  induction n with
  | zero => simp
  | succ n ih =>
    rw [List.range_succ, List.map_append, List.sum_append, ih, Nat.succ_mul]
    simp only [List.map_cons, List.map_nil, List.sum_cons, List.sum_nil]
    rcases Nat.lt_or_ge n rem with h | h
    · rw [if_pos h]; omega
    · rw [if_neg (by omega)]; omega

/-- C4: for every table config with positive dimensions, every threshold and
every positive world size, `maybe_slice_table_column` returns slices whose
widths sum to `output_dim`, has no zero-width slice, produces at most
`min world_size output_dim` slices, and returns the single unchanged config
whenever the table size is at most the threshold or the threshold is unset. -/
theorem c4_column_slicer (cfg : TableConfig) (thr : Option Nat) (ws : Nat)
    (hin : 1 ≤ cfg.input_dim) (hout : 1 ≤ cfg.output_dim) (hws : 1 ≤ ws) :
    ((maybe_slice_table_column cfg thr ws).map TableConfig.output_dim).sum
        = cfg.output_dim ∧
      (∀ c ∈ maybe_slice_table_column cfg thr ws, 0 < c.output_dim) ∧
      (maybe_slice_table_column cfg thr ws).length ≤ min ws cfg.output_dim ∧
      ((∀ t, thr = some t → cfg.input_dim * cfg.output_dim ≤ t) →
        maybe_slice_table_column cfg thr ws = [cfg]) := by
  have hsingleton :
      ((([cfg]).map TableConfig.output_dim).sum = cfg.output_dim ∧
        (∀ c ∈ [cfg], 0 < c.output_dim) ∧
        ([cfg] : List TableConfig).length ≤ min ws cfg.output_dim) := by
    refine ⟨by simp, ?_, ?_⟩
    · intro c hc
      rw [List.mem_singleton] at hc
      subst hc
      omega
    · rw [List.length_singleton]
      omega
  rcases thr with _ | t
  · have h : maybe_slice_table_column cfg none ws = [cfg] := rfl
    rw [h]
    exact ⟨hsingleton.1, hsingleton.2.1, hsingleton.2.2, fun _ => rfl⟩
  · by_cases h1 : sliceLoop (cfg.input_dim * cfg.output_dim)
      (cfg.input_dim * cfg.output_dim) t 1 = 1
    · have h : maybe_slice_table_column cfg (some t) ws = [cfg] := by
        simp only [maybe_slice_table_column]
        rw [if_pos h1]
      rw [h]
      exact ⟨hsingleton.1, hsingleton.2.1, hsingleton.2.2, fun _ => rfl⟩
    · have hn0 : 1 ≤ sliceLoop (cfg.input_dim * cfg.output_dim)
        (cfg.input_dim * cfg.output_dim) t 1 := sliceLoop_pos _ _ _ _ le_rfl
      have h : maybe_slice_table_column cfg (some t) ws =
          (List.range (min (min (sliceLoop (cfg.input_dim * cfg.output_dim)
              (cfg.input_dim * cfg.output_dim) t 1) ws) cfg.output_dim)).map
            (fun i =>
              { cfg with output_dim :=
                  cfg.output_dim / (min (min (sliceLoop
                    (cfg.input_dim * cfg.output_dim)
                    (cfg.input_dim * cfg.output_dim) t 1) ws) cfg.output_dim) +
                  if i < cfg.output_dim % (min (min (sliceLoop
                    (cfg.input_dim * cfg.output_dim)
                    (cfg.input_dim * cfg.output_dim) t 1) ws) cfg.output_dim)
                  then 1 else 0 }) := by
        simp only [maybe_slice_table_column]
        rw [if_neg h1]
      rw [h]
      set n0 := sliceLoop (cfg.input_dim * cfg.output_dim)
        (cfg.input_dim * cfg.output_dim) t 1 with hn0def
      set n := min (min n0 ws) cfg.output_dim with hndef
      have hnpos : 0 < n := by omega
      have hnle : n ≤ cfg.output_dim := by omega
      have hrem : cfg.output_dim % n < n := Nat.mod_lt _ hnpos
      refine ⟨?_, ?_, ?_, ?_⟩
      · rw [List.map_map]
        have hcomp : (TableConfig.output_dim ∘ fun i =>
            { cfg with output_dim :=
                cfg.output_dim / n + if i < cfg.output_dim % n then 1 else 0 }) =
            (fun i =>
              cfg.output_dim / n + if i < cfg.output_dim % n then 1 else 0) := rfl
        rw [hcomp, widths_ite_sum, Nat.min_eq_left (le_of_lt hrem),
          Nat.mul_comm, Nat.div_add_mod']
      · intro c hc
        rw [List.mem_map] at hc
        obtain ⟨i, _, rfl⟩ := hc
        have hdivpos : 1 ≤ cfg.output_dim / n := (Nat.one_le_div_iff hnpos).mpr hnle
        show 0 < cfg.output_dim / n + if i < cfg.output_dim % n then 1 else 0
        split <;> omega
      · rw [List.length_map, List.length_range]
        omega
      · intro hle
        exact absurd (sliceLoop_of_le _ _ _ (hle t rfl)) h1

/-- Closed instance of `c4_column_slicer` at a concrete input. -/
theorem c4_column_slicer_witness :
    ((maybe_slice_table_column ⟨4, 7⟩ (some 10) 4).map
        TableConfig.output_dim).sum = 7 ∧
      (∀ c ∈ maybe_slice_table_column ⟨4, 7⟩ (some 10) 4, 0 < c.output_dim) ∧
      (maybe_slice_table_column ⟨4, 7⟩ (some 10) 4).length ≤ min 4 7 ∧
      ((∀ t, (some 10 : Option Nat) = some t → 4 * 7 ≤ t) →
        maybe_slice_table_column ⟨4, 7⟩ (some 10) 4 = [⟨4, 7⟩]) :=
  c4_column_slicer ⟨4, 7⟩ (some 10) 4 (by decide) (by decide) (by decide)

/-- C2: the global planning fields of `DistEmbeddingStrategy` — the table
assignment, input routing, local configs, widths, reverse permutation and
sliced output ranges — are a pure function of the global inputs and do not
depend on the constructing rank. -/
theorem c2_plan_rank_independent (embeddings : List TableConfig) (ws : Nat)
    (mode : String) (itm : Option (List Nat)) (thr : Option Nat)
    (r1 r2 : Nat) :
    (mkStrategy embeddings ws r1 mode itm thr).map globalPlanFields =
      (mkStrategy embeddings ws r2 mode itm thr).map globalPlanFields := by
  unfold mkStrategy
  by_cases h : ws = 1
  · simp [h]
  · simp only [if_neg h]
    rcases happ : apply_stragety mode ws
        (create_sliced_configs embeddings ws thr
          (itm.getD (List.range embeddings.length))).1 with e | v <;>
      simp [happ, Except.map, globalPlanFields]

/-- C9 evidence: constructing `DistributedEmbedding` with an unknown
strategy name raises `ValueError` (lines 231-232), but calling
`DistEmbeddingStrategy.apply_stragety` with an unknown mode raises
`NameError`, because the `raise ValueError(F"Unsupported strategy
{strategy}")` statement on line 195 reads the undefined name `strategy`
(the parameter is `mode`), so the intended `ValueError` is never built. -/
theorem c9_unknown_strategy_eval :
    distributedEmbeddingStrategyCheck "weird" =
        Except.error (.valueError "Unsupported shard strategy weird") ∧
      apply_stragety "weird" 2 [[⟨3, 4⟩]] =
        Except.error (.nameError "strategy") := by
  constructor
  · rfl
  · rfl

theorem getD_concat_self (l : List α) (a d : α) :
    (l ++ [a]).getD l.length d = a := by
  rw [List.getD_append_right _ _ _ _ le_rfl, Nat.sub_self]
  rfl

/-- Appending one classified pair to the split state appends exactly its
routed gradient to the reassembled list, provided every previously recorded
split info points inside its list. -/
theorem gradReassemble_step (world_size : Nat) (A : TFGrad → TFGrad)
    (st : GradSplitState) (p : TFGrad × Bool)
    (hvalid : ∀ q ∈ st.split_infos,
      (q.1 = true → q.2 < st.mp_grads.length) ∧
      (q.1 = false → q.2 < st.dp_grads.length)) :
    gradReassemble A (gradClassifyStep world_size st p) =
      gradReassemble A st ++
        [if p.2 then gradDivWorld p.1 world_size else A p.1] := by
  by_cases hp : p.2
  · unfold gradClassifyStep
    rw [if_pos hp]
    unfold gradReassemble
    simp only [List.map_append, List.map_cons, List.map_nil]
    rw [if_pos hp]
    congr 1
    · refine List.map_congr_left ?_
      intro q hq
      have hv := hvalid q hq
      rcases hqb : q.1 with _ | _
      · rfl
      · rw [if_pos rfl, if_pos rfl]
        exact List.getD_append st.mp_grads [gradDivWorld p.1 world_size]
          (TFGrad.dense 0) q.2 (hv.1 hqb)
    · rw [if_true, getD_concat_self]
  · unfold gradClassifyStep
    rw [if_neg hp]
    unfold gradReassemble
    simp only [List.map_append, List.map_cons, List.map_nil]
    rw [if_neg hp]
    congr 1
    · refine List.map_congr_left ?_
      intro q hq
      have hv := hvalid q hq
      rcases hqb : q.1 with _ | _
      · rw [if_neg (by simp), if_neg (by simp)]
        exact List.getD_append (st.dp_grads.map A) [A p.1]
          (TFGrad.dense 0) q.2 (by rw [List.length_map]; exact hv.2 hqb)
      · rfl
    · have hlen : st.dp_grads.length = (st.dp_grads.map A).length :=
        (List.length_map _ _).symm
      rw [if_neg (by simp), hlen, getD_concat_self]

/-- Classified split infos always point inside their lists. -/
theorem gradClassify_valid (world_size : Nat) :
    ∀ (gvs : List (TFGrad × Bool)) (st : GradSplitState),
      (∀ q ∈ st.split_infos,
        (q.1 = true → q.2 < st.mp_grads.length) ∧
        (q.1 = false → q.2 < st.dp_grads.length)) →
      ∀ q ∈ (gvs.foldl (gradClassifyStep world_size) st).split_infos,
        (q.1 = true →
          q.2 < (gvs.foldl (gradClassifyStep world_size) st).mp_grads.length) ∧
        (q.1 = false →
          q.2 < (gvs.foldl (gradClassifyStep world_size) st).dp_grads.length)
  | [], st, hvalid => hvalid
  | p :: rest, st, hvalid => by
    rw [List.foldl_cons]
    refine gradClassify_valid world_size rest _ ?_
    intro q hq
    unfold gradClassifyStep at hq ⊢
    by_cases hp : p.2
    · rw [if_pos hp] at hq ⊢
      simp only [List.mem_append, List.mem_singleton] at hq
      rcases hq with hq | hq
      · have := hvalid q hq
        refine ⟨fun h => ?_, this.2⟩
        rw [List.length_append]
        have := this.1 h
        omega
      · subst hq
        constructor
        · intro _
          rw [List.length_append]
          simp
        · intro h
          cases h
    · rw [if_neg hp] at hq ⊢
      simp only [List.mem_append, List.mem_singleton] at hq
      rcases hq with hq | hq
      · have := hvalid q hq
        refine ⟨this.1, fun h => ?_⟩
        rw [List.length_append]
        have := this.2 h
        omega
      · subst hq
        constructor
        · intro h
          cases h
        · intro _
          rw [List.length_append]
          simp

/-- Reassembling after folding the classification loop over further
`(gradient, variable)` pairs appends exactly the per-pair routed gradients. -/
theorem gradReassemble_foldl (world_size : Nat) (A : TFGrad → TFGrad) :
    ∀ (gvs : List (TFGrad × Bool)) (st : GradSplitState),
      (∀ q ∈ st.split_infos,
        (q.1 = true → q.2 < st.mp_grads.length) ∧
        (q.1 = false → q.2 < st.dp_grads.length)) →
      gradReassemble A (gvs.foldl (gradClassifyStep world_size) st) =
        gradReassemble A st ++
          gvs.map (fun p =>
            if p.2 then gradDivWorld p.1 world_size else A p.1)
  | [], st, hvalid => by simp
  | p :: rest, st, hvalid => by
    rw [List.foldl_cons, List.map_cons]
    have hv2 : ∀ q ∈ (gradClassifyStep world_size st p).split_infos,
        (q.1 = true → q.2 < (gradClassifyStep world_size st p).mp_grads.length) ∧
        (q.1 = false →
          q.2 < (gradClassifyStep world_size st p).dp_grads.length) := by
      have h := gradClassify_valid world_size [p] st hvalid
      simpa using h
    rw [gradReassemble_foldl world_size A rest
        (gradClassifyStep world_size st p) hv2,
      gradReassemble_step world_size A st p hvalid,
      List.append_assoc, List.singleton_append]


/-- C8: the gradient method installed by `DistributedGradientTape` returns
gradients in exactly the original variable order: every model-parallel
variable (synchronization `NONE`) receives its local gradient divided by the
world size, every data-parallel variable receives the all-reduce average of
its gradient; in particular, the variable order `[dp, mp, dp]` yields
`[reduced(dp), mp / world_size, reduced(dp)]`. -/
theorem c8_gradient_routing (world_size : Nat) (A : TFGrad → TFGrad)
    (grad_vars : List (TFGrad × Bool)) (g1 g2 g3 : TFGrad) :
    tapeGradient world_size A grad_vars =
        grad_vars.map (fun p =>
          if p.2 then gradDivWorld p.1 world_size else A p.1) ∧
      tapeGradient world_size A [(g1, false), (g2, true), (g3, false)] =
        [A g1, gradDivWorld g2 world_size, A g3] := by
  have hgen : ∀ gvs : List (TFGrad × Bool),
      tapeGradient world_size A gvs =
        gvs.map (fun p =>
          if p.2 then gradDivWorld p.1 world_size else A p.1) := by
    intro gvs
    have h := gradReassemble_foldl world_size A gvs ⟨[], [], []⟩ (by
      intro p hp
      cases hp)
    unfold tapeGradient
    rw [h]
    rfl
  refine ⟨hgen grad_vars, ?_⟩
  rw [hgen [(g1, false), (g2, true), (g3, false)]]
  rfl

theorem flatten_map_append_perm (f g : Nat → List α) :
    ∀ r : List Nat,
      (r.map (fun i => f i ++ g i)).flatten ~
        (r.map f).flatten ++ (r.map g).flatten := by
  intro r
  induction r with
  | nil => simp
  | cons i r ih =>
    simp only [List.map_cons, List.flatten_cons]
    refine (List.Perm.append_left (f i ++ g i) ih).trans ?_
    rw [List.append_assoc, List.append_assoc]
    refine List.Perm.append_left (f i) ?_
    rw [← List.append_assoc, ← List.append_assoc]
    exact List.Perm.append_right _ List.perm_append_comm

/-- The interleaved slice starts of the `memory_balanced` strategy,
`i` and `2 * W - 1 - i` for `i < W`, cover `0, ..., 2 * W - 1` exactly once. -/
theorem balanced_starts_perm (W : Nat) :
    List.range W ++ (List.range W).map (fun i => 2 * W - 1 - i) ~
      List.range (2 * W) := by
  have h1 : (List.range W).map (fun i => 2 * W - 1 - i) =
      (List.range' W W).reverse := by
    rw [List.reverse_range']
    refine (List.map_congr_left ?_).symm
    intro i _
    omega
  rw [h1]
  refine (List.Perm.append_left _ (List.reverse_perm _)).trans ?_
  rw [List.range_eq_range' (2 * W), List.range_eq_range' W]
  have h2 : List.range' 0 W ++ List.range' W W = List.range' 0 (W + W) := by
    have := List.range'_append_1 0 W W
    simpa using this
  rw [show 2 * W = W + W by omega, ← h2]

/-- One `memory_balanced` bucket, as built on lines 179-182. -/
theorem balanced_buckets_flatten_perm (l : List α) (W : Nat) (hW : 1 ≤ W) :
    ((List.range W).map (fun i =>
        pySlice l i (2 * W) ++ pySlice l (2 * W - 1 - i) (2 * W))).flatten ~
      l := by
  refine (flatten_map_append_perm _ _ (List.range W)).trans ?_
  have hmapmap : (List.range W).map (fun i => pySlice l (2 * W - 1 - i) (2 * W)) =
      ((List.range W).map (fun i => 2 * W - 1 - i)).map
        (fun j => pySlice l j (2 * W)) := by
    rw [List.map_map]
    rfl
  rw [hmapmap, ← List.flatten_append, ← List.map_append]
  refine (((balanced_starts_perm W).map
    (fun j => pySlice l j (2 * W))).flatten).trans ?_
  have h3 := pySlice_flatten_perm l (2 * W - 1)
  rw [show 2 * W - 1 + 1 = 2 * W from by omega] at h3
  exact h3

/-- Multiset effect of the greedy loop: folding `greedyStep` over any item
list distributes every popped id into exactly one bucket. -/
theorem greedyFold_partition :
    ∀ (items : List (Nat × Nat)) (res : List (Nat × List Nat)),
      res ≠ [] →
      ((items.foldl greedyStep res).map Prod.snd).flatten ~
          ((res.map Prod.snd).flatten ++ items.map Prod.snd) ∧
        (items.foldl greedyStep res).length = res.length ∧
        items.foldl greedyStep res ≠ []
  | [], res, hne => by
    refine ⟨by simp, rfl, hne⟩
  | cur :: rest, res, hne => by
    match res, hne with
    | (load, ids) :: t, _ =>
      rw [List.foldl_cons]
      have hstep : greedyStep ((load, ids) :: t) cur =
          List.insertionSort resLe ((load + cur.1, ids ++ [cur.2]) :: t) := rfl
      have hne2 : greedyStep ((load, ids) :: t) cur ≠ [] := by
        rw [hstep]
        intro h
        have := congrArg List.length h
        rw [List.length_insertionSort] at this
        simp at this
      obtain ⟨hperm, hlen, hne3⟩ := greedyFold_partition rest _ hne2
      refine ⟨hperm.trans ?_, ?_, hne3⟩
      · rw [List.map_cons (f := Prod.snd) (l := rest)]
        have hx : ((greedyStep ((load, ids) :: t) cur).map Prod.snd).flatten ~
            (((load, ids) :: t).map Prod.snd).flatten ++ [cur.2] := by
          rw [hstep]
          refine (((List.perm_insertionSort resLe _).map Prod.snd).flatten).trans ?_
          simp only [List.map_cons, List.flatten_cons]
          rw [List.append_assoc, List.append_assoc]
          exact List.Perm.append_left ids List.perm_append_comm
        refine (List.Perm.append_right _ hx).trans ?_
        rw [List.append_assoc, List.singleton_append]
      · rw [hlen, hstep, List.length_insertionSort]
        rfl

/-- C5: for each of the three supported strategies and any positive world
size, `apply_stragety` succeeds with exactly `world_size` buckets whose
lengths sum to the total slice count and whose concatenation is a
permutation of the slice table-id list — every slice lands on exactly one
worker. -/
theorem c5_assignment_partition (mode : String) (ws : Nat)
    (sliced_configs : List (List TableConfig))
    (hmode : mode = "basic" ∨ mode = "memory_balanced" ∨
      mode = "memory_optimized")
    (hws : 1 ≤ ws) :
    ∃ buckets, apply_stragety mode ws sliced_configs = .ok buckets ∧
      buckets.length = ws ∧
      (buckets.map List.length).sum = (strategyPairs sliced_configs).length ∧
      buckets.flatten ~ (strategyPairs sliced_configs).map Prod.snd := by
  have hlensum : ∀ buckets : List (List Nat),
      buckets.flatten ~ (strategyPairs sliced_configs).map Prod.snd →
      (buckets.map List.length).sum = (strategyPairs sliced_configs).length := by
    intro buckets hperm
    rw [← List.length_flatten, hperm.length_eq, List.length_map]
  rcases hmode with h | h | h <;> subst h
  · obtain ⟨m, rfl⟩ : ∃ m, ws = m + 1 := ⟨ws - 1, by omega⟩
    have hperm : ((List.range (m + 1)).map (fun i =>
        pySlice ((strategyPairs sliced_configs).map Prod.snd) i (m + 1))).flatten ~
        (strategyPairs sliced_configs).map Prod.snd :=
      pySlice_flatten_perm _ m
    refine ⟨_, ?_, ?_, hlensum _ hperm, hperm⟩
    · rfl
    · rw [List.length_map, List.length_range]
  · have hperm : ((List.range ws).map (fun i =>
        pySlice ((List.insertionSort pairDesc
          (strategyPairs sliced_configs)).map Prod.snd) i (2 * ws) ++
        pySlice ((List.insertionSort pairDesc
          (strategyPairs sliced_configs)).map Prod.snd)
          (2 * ws - 1 - i) (2 * ws))).flatten ~
        (strategyPairs sliced_configs).map Prod.snd := by
      refine (balanced_buckets_flatten_perm _ ws hws).trans ?_
      exact (List.perm_insertionSort pairDesc _).map Prod.snd
    refine ⟨_, ?_, ?_, hlensum _ hperm, hperm⟩
    · rfl
    · rw [List.length_map, List.length_range]
  · have hrepl : (List.replicate ws ((0 : Nat), ([] : List Nat))) ≠ [] := by
      intro h
      have h2 := congrArg List.length h
      rw [List.length_replicate, List.length_nil] at h2
      omega
    obtain ⟨hperm, hlen, _⟩ := greedyFold_partition
      (List.insertionSort pairLe (strategyPairs sliced_configs)).reverse
      (List.replicate ws (0, [])) hrepl
    have hinit : ∀ n : Nat, ((List.replicate n ((0 : Nat), ([] : List Nat))).map
        Prod.snd).flatten = [] := by
      intro n
      induction n with
      | zero => rfl
      | succ k ih =>
        rw [List.replicate_succ, List.map_cons, List.flatten_cons, ih]
        rfl
    have hperm2 : ((memoryOptimizedRes ws sliced_configs).map Prod.snd).flatten ~
        (strategyPairs sliced_configs).map Prod.snd := by
      unfold memoryOptimizedRes
      refine hperm.trans ?_
      rw [hinit ws, List.nil_append, List.map_reverse]
      refine (List.reverse_perm _).trans ?_
      exact (List.perm_insertionSort pairLe _).map Prod.snd
    refine ⟨_, ?_, ?_, hlensum _ hperm2, hperm2⟩
    · rfl
    · rw [List.length_map]
      unfold memoryOptimizedRes
      rw [hlen, List.length_replicate]

/-- Closed instance of `c5_assignment_partition` at a concrete input. -/
theorem c5_assignment_partition_witness :
    ∃ buckets,
      apply_stragety "memory_balanced" 2
          [[⟨100, 8⟩], [⟨50, 16⟩], [⟨200, 4⟩]] = .ok buckets ∧
        buckets.length = 2 ∧
        (buckets.map List.length).sum =
          (strategyPairs [[⟨100, 8⟩], [⟨50, 16⟩], [⟨200, 4⟩]]).length ∧
        buckets.flatten ~
          (strategyPairs [[⟨100, 8⟩], [⟨50, 16⟩], [⟨200, 4⟩]]).map Prod.snd :=
  c5_assignment_partition "memory_balanced" 2
    [[⟨100, 8⟩], [⟨50, 16⟩], [⟨200, 4⟩]] (Or.inr (Or.inl rfl)) (by decide)

/-- C6 counterexample: three equal one-element slices on two workers give
the `memory_balanced` buckets `[[2], [1, 0]]`, one slice on worker 0 and two
on worker 1, so the strategy does not assign the same number of slices to
every worker. -/
theorem c6_memory_balanced_counterexample :
    ∃ buckets,
      apply_stragety "memory_balanced" 2 [[⟨1, 1⟩], [⟨1, 1⟩], [⟨1, 1⟩]] =
          .ok buckets ∧
        ¬ ∀ b1 ∈ buckets, ∀ b2 ∈ buckets, b1.length = b2.length :=
  ⟨[[2], [1, 0]], rfl, by decide⟩

theorem mul_add_div_left (a x K : Nat) (hK : 0 < K) :
    (a * K + x) / K = a + x / K := by
  rw [Nat.add_comm, Nat.add_mul_div_right _ _ hK, Nat.add_comm]

/-- Count of slices a worker receives from the two interleaved
`memory_balanced` stride slices when the slice count is `q * W`. -/
theorem balanced_bucket_count (W q i S : Nat) (hW : 1 ≤ W) (hi : i < W)
    (hS : S = q * W) :
    (S - i + (2 * W - 1)) / (2 * W) +
      (S - (2 * W - 1 - i) + (2 * W - 1)) / (2 * W) = q := by
  rcases Nat.even_or_odd q with ⟨a, ha⟩ | ⟨a, ha⟩
  · have hSa : S = a * (2 * W) := by rw [hS, ha]; ring
    by_cases ha0 : a = 0
    · subst ha0
      rw [Nat.zero_mul] at hSa
      subst hSa
      rw [Nat.zero_sub, Nat.zero_add, Nat.div_eq_of_lt (by omega),
        Nat.zero_sub, Nat.zero_add, Nat.div_eq_of_lt (by omega)]
      omega
    · have hP : 2 * W ≤ a * (2 * W) :=
        Nat.le_mul_of_pos_left (2 * W) (by omega)
      rw [show S - i + (2 * W - 1) = a * (2 * W) + (2 * W - 1 - i) by omega,
        mul_add_div_left _ _ _ (by omega), Nat.div_eq_of_lt (by omega),
        show S - (2 * W - 1 - i) + (2 * W - 1) = a * (2 * W) + i by omega,
        mul_add_div_left _ _ _ (by omega), Nat.div_eq_of_lt (by omega)]
      omega
  · have hSa : S = a * (2 * W) + W := by rw [hS, ha]; ring
    have hP2 : (a + 1) * (2 * W) = a * (2 * W) + 2 * W := by ring
    rw [show S - i + (2 * W - 1) = (a + 1) * (2 * W) + (W - 1 - i) by omega,
      mul_add_div_left _ _ _ (by omega), Nat.div_eq_of_lt (by omega)]
    by_cases ha0 : a = 0
    · subst ha0
      rw [Nat.zero_mul, Nat.zero_add] at hSa
      rw [show S - (2 * W - 1 - i) + (2 * W - 1) = 0 * (2 * W) + (2 * W - 1)
          by omega,
        mul_add_div_left _ _ _ (by omega), Nat.div_eq_of_lt (by omega)]
      omega
    · have hP : 2 * W ≤ a * (2 * W) :=
        Nat.le_mul_of_pos_left (2 * W) (by omega)
      rw [show S - (2 * W - 1 - i) + (2 * W - 1) = a * (2 * W) + (W + i)
          by omega,
        mul_add_div_left _ _ _ (by omega), Nat.div_eq_of_lt (by omega)]
      omega

/-- C6 amended: the `memory_balanced` strategy gives every worker the same
number of slices exactly when possible, i.e. whenever the world size divides
the slice count each worker receives `slice_count / world_size` slices;
`c6_memory_balanced_counterexample` shows the unrestricted claim fails. -/
theorem c6_memory_balanced_equal_when_divides (ws : Nat)
    (sliced_configs : List (List TableConfig)) (hws : 1 ≤ ws)
    (hdvd : ws ∣ (strategyPairs sliced_configs).length) :
    ∀ buckets,
      apply_stragety "memory_balanced" ws sliced_configs = .ok buckets →
      ∀ b ∈ buckets,
        b.length = (strategyPairs sliced_configs).length / ws := by
  intro buckets hok b hb
  have hexp : apply_stragety "memory_balanced" ws sliced_configs =
      .ok ((List.range ws).map (fun i =>
        pySlice ((List.insertionSort pairDesc
          (strategyPairs sliced_configs)).map Prod.snd) i (2 * ws) ++
        pySlice ((List.insertionSort pairDesc
          (strategyPairs sliced_configs)).map Prod.snd)
          (2 * ws - 1 - i) (2 * ws))) := rfl
  rw [hexp] at hok
  injection hok with hok
  subst hok
  rw [List.mem_map] at hb
  obtain ⟨i, hi, rfl⟩ := hb
  rw [List.mem_range] at hi
  have hslen : ((List.insertionSort pairDesc
      (strategyPairs sliced_configs)).map Prod.snd).length =
      (strategyPairs sliced_configs).length := by
    rw [List.length_map, List.length_insertionSort]
  rw [List.length_append, pySlice_length _ _ _ (by omega),
    pySlice_length _ _ _ (by omega), hslen]
  obtain ⟨q, hq⟩ := hdvd
  rw [hq, Nat.mul_div_cancel_left q (by omega)]
  exact balanced_bucket_count ws q i _ hws hi (Nat.mul_comm ws q)

/-- Closed instance of `c6_memory_balanced_equal_when_divides` at a
concrete input. -/
theorem c6_memory_balanced_equal_when_divides_witness :
    ([3, 0] : List Nat).length =
      (strategyPairs [[⟨1, 1⟩], [⟨1, 1⟩], [⟨1, 1⟩], [⟨1, 1⟩]]).length / 2 :=
  c6_memory_balanced_equal_when_divides 2
    [[⟨1, 1⟩], [⟨1, 1⟩], [⟨1, 1⟩], [⟨1, 1⟩]] (by decide) (by decide)
    [[3, 0], [2, 1]] rfl [3, 0] (by decide)

theorem resLe_fst {p q : Nat × List Nat} (h : resLe p q) : p.1 ≤ q.1 := by
  rcases h with h | ⟨h, _⟩ <;> omega

theorem le_foldr_max (l : List Nat) (x : Nat) (h : x ∈ l) :
    x ≤ l.foldr max 0 := by
  induction l with
  | nil => cases h
  | cons y t ih =>
    rcases List.mem_cons.mp h with h | h
    · subst h
      exact Nat.le_max_left _ _
    · exact le_trans (ih h) (Nat.le_max_right _ _)

theorem le_sum_of_all_ge (v C : Nat) :
    ∀ l : List (Nat × List Nat),
      (∀ q ∈ l, v ≤ q.1 + C) →
      l.length * v ≤ (l.map Prod.fst).sum + l.length * C := by
  intro l
  induction l with
  | nil => simp
  | cons q t ih =>
    intro h
    simp only [List.map_cons, List.sum_cons, List.length_cons]
    have h1 := h q (List.mem_cons_self q t)
    have h2 := ih (fun r hr => h r (List.mem_cons_of_mem q hr))
    rw [Nat.succ_mul, Nat.succ_mul]
    omega

/-- Invariants of the greedy `memory_optimized` loop: the bucket list stays
sorted by load, loads never spread further apart than the largest item, and
the total assigned load is the sum of the processed item sizes. -/
theorem greedyFold_bound (C : Nat) :
    ∀ (items : List (Nat × Nat)) (res : List (Nat × List Nat)),
      res ≠ [] →
      (∀ it ∈ items, it.1 ≤ C) →
      List.Sorted resLe res →
      (∀ p ∈ res, ∀ q ∈ res, p.1 ≤ q.1 + C) →
      (∀ p ∈ items.foldl greedyStep res, ∀ q ∈ items.foldl greedyStep res,
          p.1 ≤ q.1 + C) ∧
        ((items.foldl greedyStep res).map Prod.fst).sum =
          (res.map Prod.fst).sum + (items.map Prod.fst).sum ∧
        (items.foldl greedyStep res).length = res.length
  | [], res, hne, hC, hsort, hbound => ⟨hbound, by simp, rfl⟩
  | cur :: rest, res, hne, hC, hsort, hbound => by
    rw [List.foldl_cons]
    match res, hne, hsort, hbound with
    | (l0, i0) :: t, _, hsort, hbound =>
      have hstep : greedyStep ((l0, i0) :: t) cur =
          List.insertionSort resLe ((l0 + cur.1, i0 ++ [cur.2]) :: t) := rfl
      have hsort1 : List.Sorted resLe
          (List.insertionSort resLe ((l0 + cur.1, i0 ++ [cur.2]) :: t)) :=
        List.sorted_insertionSort resLe _
      have hmem : ∀ p : Nat × List Nat,
          p ∈ List.insertionSort resLe ((l0 + cur.1, i0 ++ [cur.2]) :: t) ↔
          p ∈ (l0 + cur.1, i0 ++ [cur.2]) :: t := fun p =>
        (List.perm_insertionSort resLe _).mem_iff
      have hheadmin : ∀ q ∈ t, l0 ≤ q.1 := fun q hq =>
        resLe_fst (List.rel_of_sorted_cons hsort q hq)
      have hcur : cur.1 ≤ C := hC cur (List.mem_cons_self _ _)
      have hbound1 : ∀ p ∈ List.insertionSort resLe
          ((l0 + cur.1, i0 ++ [cur.2]) :: t),
          ∀ q ∈ List.insertionSort resLe ((l0 + cur.1, i0 ++ [cur.2]) :: t),
          p.1 ≤ q.1 + C := by
        intro p hp q hq
        rw [hmem] at hp hq
        rcases List.mem_cons.mp hp with hp | hp <;>
          rcases List.mem_cons.mp hq with hq | hq
        · subst hp; subst hq; omega
        · subst hp
          have := hheadmin q hq
          show l0 + cur.1 ≤ q.1 + C
          omega
        · subst hq
          have := hbound p (List.mem_cons_of_mem _ hp) (l0, i0)
            (List.mem_cons_self _ _)
          show p.1 ≤ l0 + cur.1 + C
          omega
        · exact hbound p (List.mem_cons_of_mem _ hp) q
            (List.mem_cons_of_mem _ hq)
      have hsum1 : ((List.insertionSort resLe
          ((l0 + cur.1, i0 ++ [cur.2]) :: t)).map Prod.fst).sum =
          (((l0, i0) :: t).map Prod.fst).sum + cur.1 := by
        rw [((List.perm_insertionSort resLe _).map Prod.fst).sum_eq]
        simp only [List.map_cons, List.sum_cons]
        omega
      have hne1 : List.insertionSort resLe
          ((l0 + cur.1, i0 ++ [cur.2]) :: t) ≠ [] := by
        intro hnil
        have h2 := congrArg List.length hnil
        rw [List.length_insertionSort, List.length_cons, List.length_nil] at h2
        omega
      have h := greedyFold_bound C rest _ hne1
        (fun it hit => hC it (List.mem_cons_of_mem _ hit)) hsort1 hbound1
      refine ⟨h.1, ?_, ?_⟩
      · rw [hstep, h.2.1, hsum1, List.map_cons, List.sum_cons]
        simp only [List.map_cons, List.sum_cons]
        omega
      · rw [hstep, h.2.2, List.length_insertionSort]
        rfl

/-- C7: after the `memory_optimized` greedy assignment, every worker's
tracked total element count is at most the average element count per worker
plus the largest single slice's element count — the standard greedy
bin-packing bound. -/
theorem c7_memory_optimized_bound (ws : Nat)
    (sliced_configs : List (List TableConfig)) (hws : 1 ≤ ws) :
    ∀ p ∈ memoryOptimizedRes ws sliced_configs,
      p.1 ≤ ((strategyPairs sliced_configs).map Prod.fst).sum / ws +
        ((strategyPairs sliced_configs).map Prod.fst).foldr max 0 := by
  intro p hp
  have hne : (List.replicate ws ((0 : Nat), ([] : List Nat))) ≠ [] := by
    intro h
    have h2 := congrArg List.length h
    rw [List.length_replicate, List.length_nil] at h2
    omega
  have hsort0 : List.Sorted resLe
      (List.replicate ws ((0 : Nat), ([] : List Nat))) := by
    rw [List.Sorted, List.pairwise_replicate]
    right
    exact Or.inr ⟨rfl, rfl⟩
  have hbound0 : ∀ a ∈ List.replicate ws ((0 : Nat), ([] : List Nat)),
      ∀ b ∈ List.replicate ws ((0 : Nat), ([] : List Nat)),
      a.1 ≤ b.1 + ((strategyPairs sliced_configs).map Prod.fst).foldr max 0 := by
    intro a ha b hb
    rw [List.eq_of_mem_replicate ha, List.eq_of_mem_replicate hb]
    omega
  have hC : ∀ it ∈ (List.insertionSort pairLe
      (strategyPairs sliced_configs)).reverse,
      it.1 ≤ ((strategyPairs sliced_configs).map Prod.fst).foldr max 0 := by
    intro it hit
    rw [List.mem_reverse, List.mem_insertionSort] at hit
    exact le_foldr_max _ _ (List.mem_map_of_mem Prod.fst hit)
  obtain ⟨hb, hsum, hlen⟩ := greedyFold_bound
    (((strategyPairs sliced_configs).map Prod.fst).foldr max 0)
    (List.insertionSort pairLe (strategyPairs sliced_configs)).reverse
    (List.replicate ws (0, [])) hne hC hsort0 hbound0
  have hitems : ((List.insertionSort pairLe
      (strategyPairs sliced_configs)).reverse.map Prod.fst).sum =
      ((strategyPairs sliced_configs).map Prod.fst).sum := by
    have hperm : (List.insertionSort pairLe
        (strategyPairs sliced_configs)).reverse ~
        strategyPairs sliced_configs :=
      (List.reverse_perm _).trans (List.perm_insertionSort pairLe _)
    exact (hperm.map Prod.fst).sum_eq
  have hsum2 : ((memoryOptimizedRes ws sliced_configs).map Prod.fst).sum =
      ((strategyPairs sliced_configs).map Prod.fst).sum := by
    unfold memoryOptimizedRes
    rw [hsum, hitems]
    have hz : ((List.replicate ws ((0 : Nat), ([] : List Nat))).map
        Prod.fst).sum = 0 := by
      rw [List.map_replicate]
      simp
    rw [hz, Nat.zero_add]
  have hlen2 : (memoryOptimizedRes ws sliced_configs).length = ws := by
    unfold memoryOptimizedRes
    rw [hlen, List.length_replicate]
  have hall : ∀ q ∈ memoryOptimizedRes ws sliced_configs,
      p.1 ≤ q.1 + ((strategyPairs sliced_configs).map Prod.fst).foldr max 0 :=
    fun q hq => hb p hp q hq
  have hmul := le_sum_of_all_ge p.1
    (((strategyPairs sliced_configs).map Prod.fst).foldr max 0)
    (memoryOptimizedRes ws sliced_configs) hall
  rw [hlen2, hsum2] at hmul
  have hdiv : p.1 ≤ (((strategyPairs sliced_configs).map Prod.fst).sum +
      ws * (((strategyPairs sliced_configs).map Prod.fst).foldr max 0)) / ws :=
    (Nat.le_div_iff_mul_le (by omega)).mpr (by rw [Nat.mul_comm]; exact hmul)
  rwa [Nat.add_mul_div_left _ _ (by omega : 0 < ws)] at hdiv

/-- C10: with more than one worker and `all_ranks=False`, `get_weights`
returns the empty list on every rank other than rank 0: the `chunks` list is
only populated when `all_ranks or rank == 0` (line 447), and an empty
`chunks` returns `[]` (lines 449-450), even though the rank participated in
the same all-gathers. -/
theorem c10_get_weights_empty_on_nonzero_rank (world_size rank : Nat)
    (local_configs_list : List (List TableConfig))
    (table_ids_list : List (List Nat))
    (storedWeights : List (List Matrix))
    (hws : 1 < world_size) (hrank : rank ≠ 0) :
    get_weights world_size rank false local_configs_list table_ids_list
      storedWeights = [] := by
  unfold get_weights
  rw [if_neg (show ¬ world_size = 1 from by omega)]
  simp [hrank]

/-- Closed instance of `c10_get_weights_empty_on_nonzero_rank` at a
concrete input. -/
theorem c10_get_weights_empty_on_nonzero_rank_witness :
    get_weights 2 1 false [[⟨1, 2⟩], [⟨1, 2⟩]] [[0], [1]]
      [[[[3, 4]]], [[[5, 6]]]] = [] :=
  c10_get_weights_empty_on_nonzero_rank 2 1 [[⟨1, 2⟩], [⟨1, 2⟩]] [[0], [1]]
    [[[[3, 4]]], [[[5, 6]]]] (by decide) (by decide)

/-- Closed instance of `c7_memory_optimized_bound` at a concrete input. -/
theorem c7_memory_optimized_bound_witness :
    (800 : Nat) ≤ ((strategyPairs
        [[⟨100, 8⟩], [⟨50, 16⟩], [⟨200, 4⟩]]).map Prod.fst).sum / 2 +
      ((strategyPairs [[⟨100, 8⟩], [⟨50, 16⟩], [⟨200, 4⟩]]).map
        Prod.fst).foldr max 0 :=
  c7_memory_optimized_bound 2 [[⟨100, 8⟩], [⟨50, 16⟩], [⟨200, 4⟩]] (by decide)
    (800, [2]) (by decide)

theorem pyRange_zero_left (l : List α) (e : Nat) : pyRange l 0 e = l.take e := rfl

theorem pyRange_length (l : List α) (a e : Nat) (he : e ≤ l.length)
    (ha : a ≤ e) : (pyRange l a e).length = e - a := by
  unfold pyRange
  rw [List.length_drop, List.length_take]
  omega

theorem pyRange_eq_drop_take (L : List α) (a e : Nat) (h : a ≤ e) :
    pyRange L a e = (L.drop a).take (e - a) := by
  unfold pyRange
  nth_rewrite 1 [show e = a + (e - a) by omega]
  exact (List.take_drop a (e - a) L).symm

theorem pyRange_append_ranges (L : List α) (a b c : Nat) (hab : a ≤ b)
    (hbc : b ≤ c) : pyRange L a b ++ pyRange L b c = pyRange L a c := by
  rw [pyRange_eq_drop_take L a b hab, pyRange_eq_drop_take L b c hbc,
    pyRange_eq_drop_take L a c (le_trans hab hbc)]
  rw [show L.drop b = (L.drop a).drop (b - a) by
    rw [List.drop_drop]
    congr 1
    omega]
  rw [show c - a = (b - a) + (c - b) by omega, List.take_add]

theorem pyRange_drop (L : List α) (a b c : Nat) :
    pyRange L (c + a) (c + b) = pyRange (L.drop c) a b := by
  unfold pyRange
  rw [← List.drop_drop, ← List.take_drop]

theorem tile_flatten (row : Nat) :
    ∀ (num : Nat) (L : List α), L.length = num * row →
      ((List.range num).map (fun i => pyRange L (i * row) ((i + 1) * row))).flatten
        = L := by
  intro num
  induction num with
  | zero =>
    intro L hL
    rw [Nat.zero_mul] at hL
    rw [List.length_eq_zero] at hL
    subst hL
    rfl
  | succ n ih =>
    intro L hL
    rw [List.range_succ_eq_map, List.map_cons, List.map_map, List.flatten_cons]
    have h0 : pyRange L (0 * row) ((0 + 1) * row) = L.take row := by
      rw [Nat.zero_mul, Nat.zero_add, Nat.one_mul, pyRange_zero_left]
    have hmap : (List.range n).map
        ((fun i => pyRange L (i * row) ((i + 1) * row)) ∘ Nat.succ) =
        (List.range n).map
          (fun i => pyRange (L.drop row) (i * row) ((i + 1) * row)) := by
      refine List.map_congr_left ?_
      intro i _
      have hd := pyRange_drop L (i * row) ((i + 1) * row) row
      rw [show row + i * row = (i + 1) * row from by ring,
        show row + (i + 1) * row = (i + 1 + 1) * row from by ring] at hd
      exact hd
    rw [h0, hmap, ih (L.drop row) (by
      rw [List.length_drop]
      have h2 : (n + 1) * row = n * row + row := by ring
      omega), List.take_append_drop]

theorem reshape2d_flatten (cols : Nat) :
    ∀ M : List (List α), (∀ r ∈ M, r.length = cols) →
      reshape2d M.flatten M.length cols = M := by
  intro M
  induction M with
  | nil => intro _; rfl
  | cons r M ih =>
    intro hrect
    unfold reshape2d
    rw [List.length_cons, List.range_succ_eq_map, List.map_cons, List.map_map,
      List.flatten_cons]
    have hr : r.length = cols := hrect r (List.mem_cons_self _ _)
    have h0 : pyRange (r ++ M.flatten) (0 * cols) ((0 + 1) * cols) = r := by
      rw [Nat.zero_mul, Nat.zero_add, Nat.one_mul, pyRange_zero_left,
        List.take_left' hr]
    have hmap : (List.range M.length).map
        ((fun i => pyRange (r ++ M.flatten) (i * cols) ((i + 1) * cols)) ∘
          Nat.succ) =
        (List.range M.length).map
          (fun i => pyRange M.flatten (i * cols) ((i + 1) * cols)) := by
      refine List.map_congr_left ?_
      intro i _
      have hd := pyRange_drop (r ++ M.flatten) (i * cols) ((i + 1) * cols) cols
      rw [show cols + i * cols = (i + 1) * cols from by ring,
        show cols + (i + 1) * cols = (i + 1 + 1) * cols from by ring,
        show (r ++ M.flatten).drop cols = M.flatten from by
          rw [List.drop_left' hr]] at hd
      exact hd
    rw [h0, hmap]
    have ih2 := ih (fun q hq => hrect q (List.mem_cons_of_mem _ hq))
    unfold reshape2d at ih2
    rw [ih2]

theorem split_canonical_of_parts :
    ∀ parts : List (List Int),
      split_canonical parts.flatten (parts.map List.length) = parts := by
  intro parts
  induction parts with
  | nil => rfl
  | cons p rest ih =>
    rw [List.flatten_cons, List.map_cons]
    unfold split_canonical
    rw [List.take_left, List.drop_left, ih]

theorem split_canonical_lengths :
    ∀ (lengths : List Nat) (L : List Int), lengths.sum ≤ L.length →
      (split_canonical L lengths).map List.length = lengths := by
  intro lengths
  induction lengths with
  | nil => intro L _; rfl
  | cons len rest ih =>
    intro L hsum
    rw [List.sum_cons] at hsum
    unfold split_canonical
    rw [List.map_cons, List.length_take,
      ih (L.drop len) (by rw [List.length_drop]; omega)]
    congr 1
    omega

theorem split_canonical_flatten :
    ∀ (lengths : List Nat) (L : List Int), lengths.sum = L.length →
      (split_canonical L lengths).flatten = L := by
  intro lengths
  induction lengths with
  | nil =>
    intro L h
    rw [List.sum_nil] at h
    have : L = [] := by
      rw [← List.length_eq_zero]
      omega
    subst this
    rfl
  | cons len rest ih =>
    intro L hsum
    rw [List.sum_cons] at hsum
    unfold split_canonical
    rw [List.flatten_cons, ih (L.drop len) (by rw [List.length_drop]; omega),
      List.take_append_drop]

theorem split_canonical_extend :
    ∀ (lengths : List Nat) (L extra : List Int), lengths.sum ≤ L.length →
      split_canonical (L ++ extra) lengths = split_canonical L lengths := by
  intro lengths
  induction lengths with
  | nil => intro L extra _; rfl
  | cons len rest ih =>
    intro L extra hsum
    rw [List.sum_cons] at hsum
    unfold split_canonical
    rw [List.take_append_of_le_length (by omega),
      List.drop_append_of_le_length (by omega),
      ih (L.drop len) extra (by rw [List.length_drop]; omega)]

theorem consumeChunks_spec :
    ∀ (tl : List (List Int)) (n : Nat), n ≤ tl.flatten.length →
      (consumeChunks n tl).1 = tl.flatten.take n ∧
        (consumeChunks n tl).2.flatten = tl.flatten.drop n := by
  intro tl
  induction tl with
  | nil =>
    intro n hn
    simp only [List.flatten_nil, List.length_nil] at hn
    have : n = 0 := by omega
    subst this
    exact ⟨rfl, rfl⟩
  | cons t0 rest ih =>
    intro n hn
    match n with
    | 0 => exact ⟨rfl, rfl⟩
    | n + 1 =>
      rw [List.flatten_cons, List.length_append] at hn
      unfold consumeChunks
      by_cases h : t0.length < n + 1
      · rw [if_pos h]
        obtain ⟨h1, h2⟩ := ih (n + 1 - t0.length) (by omega)
        constructor
        · show t0 ++ (consumeChunks (n + 1 - t0.length) rest).1 = _
          rw [h1, List.flatten_cons, List.take_append_eq_append_take,
            List.take_of_length_le (l := t0) (by omega)]
        · show (consumeChunks (n + 1 - t0.length) rest).2.flatten = _
          rw [h2, List.flatten_cons, List.drop_append_eq_append_drop,
            List.drop_of_length_le (l := t0) (by omega), List.nil_append]
      · rw [if_neg h]
        constructor
        · show t0.take (n + 1) = _
          rw [List.flatten_cons, List.take_append_of_le_length (by omega)]
        · show (t0.drop (n + 1) :: rest).flatten = _
          rw [List.flatten_cons, List.flatten_cons,
            List.drop_append_of_le_length (by omega)]

theorem split1dGo_spec :
    ∀ (lengths : List Nat) (tl : List (List Int)),
      lengths.sum ≤ tl.flatten.length →
      split1dGo lengths tl = split_canonical tl.flatten lengths := by
  intro lengths
  induction lengths with
  | nil => intro tl _; rfl
  | cons len rest ih =>
    intro tl hsum
    rw [List.sum_cons] at hsum
    obtain ⟨h1, h2⟩ := consumeChunks_spec tl len (by omega)
    show (consumeChunks len tl).1 ::
      split1dGo rest (consumeChunks len tl).2 = _
    unfold split_canonical
    rw [h1, ih _ (by rw [h2, List.length_drop]; omega), h2]

/-- The general `_split_1d` equals plain `tf.split` whenever the requested
lengths sum to the tensor length — exactly how the source calls it. -/
theorem split1dGo_tiles (lengths : List Nat) (L : List Int) (num row : Nat)
    (hlen : L.length = num * row) (hsum : lengths.sum ≤ L.length) :
    split1dGo lengths ((List.range num).map (fun i =>
      pyRange L (i * row) ((i + 1) * row))) = split_canonical L lengths := by
  rw [split1dGo_spec lengths _ (by rw [tile_flatten row num L hlen]; omega),
    tile_flatten row num L hlen]

/-- The general `_split_1d` equals plain `tf.split` whenever the requested
lengths sum to the tensor length — exactly how the source calls it. -/
theorem split_1d_eq_canonical (tensor : List Int) (lengths : List Nat)
    (hsum : lengths.sum = tensor.length) :
    split_1d tensor lengths = split_canonical tensor lengths := by
  by_cases h : tensor.length ≤ 2147483646
  · simp only [split_1d, if_pos h]
  · simp only [split_1d, if_neg h]
    obtain ⟨num, hnum⟩ :
        ∃ num, (tensor.length + 2147483646 - 1) / 2147483646 = num := ⟨_, rfl⟩
    rw [hnum]
    have hnum1 : 1 ≤ num := by
      rw [← hnum, Nat.le_div_iff_mul_le (by omega)]
      omega
    obtain ⟨q, hq⟩ : ∃ q, (tensor.length + num - 1) / num = q := ⟨_, rfl⟩
    rw [hq]
    have hdm := Nat.div_add_mod (tensor.length + num - 1) num
    have hmlt : (tensor.length + num - 1) % num < num := Nat.mod_lt _ (by omega)
    rw [hq] at hdm
    have hc : q * num = num * q := Nat.mul_comm q num
    have hplen : (tensor ++
        List.replicate (q * num - tensor.length) (0 : Int)).length =
        num * q := by
      rw [List.length_append, List.length_replicate]
      omega
    rw [show (tensor ++
        List.replicate (q * num - tensor.length) (0 : Int)).length / num = q
      from by rw [hplen, Nat.mul_div_cancel_left q (by omega)]]
    rw [split1dGo_tiles lengths _ num q hplen (by rw [hplen]; omega)]
    rw [split_canonical_extend lengths tensor _ (by omega)]

theorem scatterRows_flatten (arr : Matrix) (cs : Nat) :
    ∀ (k last i : Nat),
      (scatterRows arr cs (List.replicate k cs ++ [last]) i).flatten =
        pyRange arr (i * cs) (i * cs + k * cs + last) := by
  intro k
  induction k with
  | zero =>
    intro last i
    show (pyRange arr (i * cs) (i * cs + last) :: []).flatten = _
    rw [List.flatten_cons, List.flatten_nil, List.append_nil, Nat.zero_mul,
      Nat.add_zero]
  | succ k ih =>
    intro last i
    rw [List.replicate_succ, List.cons_append]
    show (pyRange arr (i * cs) (i * cs + cs) ::
      scatterRows arr cs (List.replicate k cs ++ [last]) (i + 1)).flatten = _
    rw [List.flatten_cons, ih last (i + 1)]
    rw [show i * cs + cs = (i + 1) * cs from by ring]
    rw [pyRange_append_ranges arr (i * cs) ((i + 1) * cs)
      ((i + 1) * cs + k * cs + last)
      (by
        have hic : (i + 1) * cs = i * cs + cs := by ring
        omega)
      (by omega)]
    congr 1
    ring

/-- The chunked scatter assignment nets a plain overwrite whenever the
array matches the variable's shape and one row fits in a chunk. -/
theorem assign_chunked_eq (weight_rows weight_cols : Nat) (arr : Matrix)
    (chunk : Nat) (hrows : arr.length = weight_rows)
    (hrect : ∀ row ∈ arr, row.length = weight_cols)
    (hcols : weight_cols ≤ chunk) :
    assign_chunked weight_rows weight_cols arr chunk = .ok arr := by
  unfold assign_chunked
  by_cases hsmall : arr.length * (arr.headD []).length ≤ chunk
  · rw [if_pos hsmall]
  · rw [if_neg hsmall]
    have harrne : arr ≠ [] := by
      intro he
      subst he
      simp at hsmall
    have hhead : (arr.headD []).length = weight_cols := by
      match arr, harrne with
      | r :: rest, _ => exact hrect r (List.mem_cons_self _ _)
    have hcpos : 0 < weight_cols := by
      rcases Nat.eq_zero_or_pos weight_cols with hc0 | hpos
      · rw [hhead, hc0, Nat.mul_zero] at hsmall
        omega
      · exact hpos
    have hcs0 : 0 < chunk / weight_cols := (Nat.one_le_div_iff hcpos).mpr hcols
    rw [if_neg (by omega)]
    obtain ⟨cs, hcsdef⟩ : ∃ cs, chunk / weight_cols = cs := ⟨_, rfl⟩
    rw [hcsdef]
    rw [hcsdef] at hcs0
    have hrpos : 0 < weight_rows := by
      rw [← hrows]
      match arr, harrne with
      | r :: rest, _ => exact Nat.succ_pos _
    obtain ⟨num, hnumdef⟩ : ∃ num, (weight_rows + cs - 1) / cs = num := ⟨_, rfl⟩
    rw [hnumdef]
    have hdm := Nat.div_add_mod (weight_rows + cs - 1) cs
    have hmlt : (weight_rows + cs - 1) % cs < cs := Nat.mod_lt _ hcs0
    rw [hnumdef] at hdm
    obtain ⟨m, hm⟩ : ∃ m, num = m + 1 := by
      refine ⟨num - 1, ?_⟩
      have hle : 1 * cs ≤ weight_rows + cs - 1 := by omega
      have h1 : 1 ≤ num := by
        rw [← hnumdef, Nat.le_div_iff_mul_le hcs0]
        omega
      omega
    subst hm
    show Except.ok (scatterRows arr cs
      (List.replicate (m + 1 - 1) cs ++ [weight_rows - cs * (m + 1 - 1)])
      0).flatten = Except.ok arr
    rw [Nat.add_sub_cancel]
    rw [scatterRows_flatten arr cs m (weight_rows - cs * m) 0]
    have hcov : cs * m < weight_rows := by
      have h1 : cs * (m + 1) = cs * m + cs := by ring
      omega
    rw [Nat.zero_mul, Nat.zero_add]
    rw [show m * cs + (weight_rows - cs * m) = weight_rows from by
      have h2 : m * cs = cs * m := Nat.mul_comm _ _
      omega]
    rw [pyRange_zero_left, ← hrows, List.take_length]

/-- The `zip(self.weights, weights)` assignment loop succeeds and stores
exactly the provided arrays when shapes match and every column count fits
one chunk. -/
theorem assignAll_eq (chunk : Nat) :
    ∀ pairs : List ((Nat × Nat) × Matrix),
      (∀ p ∈ pairs, p.2.length = p.1.1 ∧
        (∀ row ∈ p.2, row.length = p.1.2) ∧ p.1.2 ≤ chunk) →
      assignAll chunk pairs = .ok (pairs.map Prod.snd) := by
  intro pairs
  induction pairs with
  | nil => intro _; rfl
  | cons p rest ih =>
    intro hp
    obtain ⟨h1, h2, h3⟩ := hp p (List.mem_cons_self _ _)
    show (do
      let w ← assign_chunked p.1.1 p.1.2 p.2 chunk
      let ws ← assignAll chunk rest
      .ok (w :: ws)) = _
    rw [assign_chunked_eq p.1.1 p.1.2 p.2 chunk h1 h2 h3,
      ih (fun q hq => hp q (List.mem_cons_of_mem _ hq))]
    rfl

theorem rankChunkSizes_sum (flatLen num_chunks : Nat) (h : 1 ≤ num_chunks) :
    (rankChunkSizes flatLen num_chunks).sum = flatLen := by
  unfold rankChunkSizes
  rw [List.sum_append, List.sum_replicate, List.sum_cons, List.sum_nil, smul_eq_mul]
  have h2 : flatLen / num_chunks * (num_chunks - 1) ≤ flatLen := by
    calc flatLen / num_chunks * (num_chunks - 1) ≤
        flatLen / num_chunks * num_chunks := by
          exact Nat.mul_le_mul_left _ (by omega)
      _ ≤ flatLen := Nat.div_mul_le_self _ _
  have h3 : (num_chunks - 1) * (flatLen / num_chunks) =
      flatLen / num_chunks * (num_chunks - 1) := Nat.mul_comm _ _
  omega

theorem rankChunkSizes_length (flatLen num_chunks : Nat) (h : 1 ≤ num_chunks) :
    (rankChunkSizes flatLen num_chunks).length = num_chunks := by
  unfold rankChunkSizes
  rw [List.length_append, List.length_replicate, List.length_cons,
    List.length_nil]
  omega

theorem strideTake_skip (k : Nat) (R : List α) :
    ∀ (t : List α) (j : Nat), strideTake k (t ++ R) (t.length + j) =
      strideTake k R j := by
  intro t
  induction t with
  | nil =>
    intro j
    rw [List.nil_append, List.length_nil, Nat.zero_add]
  | cons x rest ih =>
    intro j
    rw [List.cons_append, List.length_cons,
      show rest.length + 1 + j = rest.length + j + 1 from by omega]
    show strideTake k (rest ++ R) (rest.length + j) = _
    exact ih j

theorem strideTake_block (k : Nat) (d : α) (R : List α) :
    ∀ (t : List α) (c : Nat), c < t.length → t.length ≤ c + k →
      strideTake k (t ++ R) c = t.getD c d :: strideTake k R (c + k - t.length) := by
  intro t
  induction t with
  | nil => intro c hc _; cases hc
  | cons x rest ih =>
    intro c hc hk
    match c with
    | 0 =>
      show x :: strideTake k (rest ++ R) (k - 1) = _
      rw [List.length_cons] at hk
      rw [show k - 1 = rest.length + (k - 1 - rest.length) from by omega,
        strideTake_skip k R rest]
      show _ = x :: strideTake k R (0 + k - (rest.length + 1))
      rw [show 0 + k - (rest.length + 1) = k - 1 - rest.length from by omega]
    | c + 1 =>
      rw [List.length_cons] at hc hk
      show strideTake k (rest ++ R) c = _
      rw [ih c (by omega) (by omega)]
      show _ = (rest.getD c d) :: strideTake k R (c + 1 + k - (rest.length + 1))
      rw [show c + 1 + k - (rest.length + 1) = c + k - rest.length
        from by omega]

/-- Python slicing with stride `K` over the concatenation of blocks of
length `K` selects the `i`-th element of every block. -/
theorem pySlice_blocks (K : Nat) (d : α) :
    ∀ (LL : List (List α)) (i : Nat), (∀ l ∈ LL, l.length = K) → i < K →
      pySlice LL.flatten i K = LL.map (fun l => l.getD i d) := by
  intro LL
  induction LL with
  | nil => intro i _ _; rfl
  | cons l rest ih =>
    intro i hlen hi
    rw [List.flatten_cons, List.map_cons]
    unfold pySlice
    have hl : l.length = K := hlen l (List.mem_cons_self _ _)
    rw [strideTake_block K d rest.flatten l i (by omega) (by omega)]
    rw [show i + K - l.length = i from by omega]
    rw [show strideTake K rest.flatten i = pySlice rest.flatten i K from rfl,
      ih i (fun q hq => hlen q (List.mem_cons_of_mem _ hq)) hi]

theorem zipWith_map_same (f : α → β → γ) (g : δ → α) (h : δ → β) :
    ∀ l : List δ, List.zipWith f (l.map g) (l.map h) =
      l.map (fun a => f (g a) (h a)) := by
  intro l
  induction l with
  | nil => rfl
  | cons x t ih => simp only [List.map_cons, List.zipWith_cons_cons, ih]

/-- Inserting an element into a key-grouped flattened list puts it at the
front of its key group. -/
theorem orderedInsert_grouped {β : Type} (B : Nat) (f : Nat → List (Nat × β))
    (x : Nat × β) (hf : ∀ t, ∀ p ∈ f t, p.1 = t) (hx : x.1 < B) :
    List.orderedInsert keyLe x ((List.range B).map f).flatten =
      ((List.range B).map
        (fun t => if t = x.1 then x :: f t else f t)).flatten := by
  rw [List.orderedInsert_eq_take_drop]
  have hsplit : List.range B = List.range x.1 ++ List.range' x.1 (B - x.1) := by
    rw [List.range_eq_range', List.range_eq_range']
    have h2 := List.range'_append_1 0 x.1 (B - x.1)
    rw [Nat.zero_add] at h2
    nth_rewrite 1 [show B = B - x.1 + x.1 from by omega]
    exact h2.symm
  have hlow : ∀ a ∈ ((List.range x.1).map f).flatten,
      decide (¬ keyLe x a) = true := by
    intro a ha
    rw [List.mem_flatten] at ha
    obtain ⟨l, hl, hal⟩ := ha
    rw [List.mem_map] at hl
    obtain ⟨t, ht, rfl⟩ := hl
    rw [List.mem_range] at ht
    have := hf t a hal
    simp only [decide_eq_true_eq]
    unfold keyLe
    omega
  have hhigh : ∀ a ∈ ((List.range' x.1 (B - x.1)).map f).flatten,
      decide (¬ keyLe x a) = false := by
    intro a ha
    rw [List.mem_flatten] at ha
    obtain ⟨l, hl, hal⟩ := ha
    rw [List.mem_map] at hl
    obtain ⟨t, ht, rfl⟩ := hl
    rw [List.mem_range'_1] at ht
    have := hf t a hal
    simp only [decide_eq_false_iff_not, Decidable.not_not]
    unfold keyLe
    omega
  have htw : ∀ D : List (Nat × β),
      (∀ a ∈ D, decide (¬ keyLe x a) = false) →
      D.takeWhile (fun b => decide ¬ keyLe x b) = [] := by
    intro D hD
    match D with
    | [] => rfl
    | a :: D =>
      have ha := hD a (List.mem_cons_self _ _)
      rw [List.takeWhile_cons_of_neg (by simp [ha])]
  have hdw2 : ∀ D : List (Nat × β),
      (∀ a ∈ D, decide (¬ keyLe x a) = false) →
      D.dropWhile (fun b => decide ¬ keyLe x b) = D := by
    intro D hD
    match D with
    | [] => rfl
    | a :: D =>
      have ha := hD a (List.mem_cons_self _ _)
      rw [List.dropWhile_cons_of_neg (by simp [ha])]
  have hmaplow : (List.range x.1).map
      (fun t => if t = x.1 then x :: f t else f t) = (List.range x.1).map f := by
    refine List.map_congr_left ?_
    intro t ht
    rw [List.mem_range] at ht
    rw [if_neg (by omega)]
  have hr2 : List.range' x.1 (B - x.1) =
      x.1 :: List.range' (x.1 + 1) (B - x.1 - 1) := by
    obtain ⟨m, hm⟩ : ∃ m, B - x.1 = m + 1 := ⟨B - x.1 - 1, by omega⟩
    rw [hm, List.range'_succ, Nat.add_sub_cancel]
  have hmaphigh : (List.range' (x.1 + 1) (B - x.1 - 1)).map
      (fun t => if t = x.1 then x :: f t else f t) =
      (List.range' (x.1 + 1) (B - x.1 - 1)).map f := by
    refine List.map_congr_left ?_
    intro t ht
    rw [List.mem_range'_1] at ht
    rw [if_neg (by omega)]
  rw [hsplit, List.map_append, List.map_append, List.flatten_append,
    List.flatten_append,
    List.takeWhile_append_of_pos hlow, List.dropWhile_append_of_pos hlow,
    htw _ hhigh, hdw2 _ hhigh, List.append_nil, hmaplow, hr2, List.map_cons,
    List.map_cons, List.flatten_cons, List.flatten_cons, hmaphigh, if_pos rfl]
  rfl

/-- Stability of the key sort on line 471: Python's stable sort groups the
pairs by key in increasing key order, keeping the original order inside
every group. -/
theorem insertionSort_keyLe_grouped {β : Type} (B : Nat) :
    ∀ l : List (Nat × β), (∀ p ∈ l, p.1 < B) →
      List.insertionSort keyLe l =
        ((List.range B).map (fun t => l.filter (fun p => p.1 = t))).flatten := by
  intro l
  induction l with
  | nil =>
    intro _
    rw [List.perm_nil.mp (List.perm_insertionSort keyLe [])]
    symm
    rw [List.flatten_eq_nil_iff]
    intro l hl
    rw [List.mem_map] at hl
    obtain ⟨t, _, rfl⟩ := hl
    rfl
  | cons x l ih =>
    intro hlt
    show List.orderedInsert keyLe x (List.insertionSort keyLe l) = _
    rw [ih (fun p hp => hlt p (List.mem_cons_of_mem _ hp)),
      orderedInsert_grouped B _ x
        (fun t p hp => of_decide_eq_true (List.mem_filter.mp hp).2)
        (hlt x (List.mem_cons_self _ _))]
    refine congrArg List.flatten (List.map_congr_left ?_)
    intro t _
    rw [List.filter_cons]
    by_cases hxt : x.1 = t
    · rw [if_pos hxt.symm, if_pos (decide_eq_true hxt)]
    · rw [if_neg (fun h => hxt h.symm), if_neg (by simpa using hxt)]

theorem headD_drop (l : List α) : ∀ (j : Nat) (d : α),
    (l.drop j).headD d = l.getD j d := by
  induction l with
  | nil => intro j d; cases j <;> rfl
  | cons x t ih =>
    intro j d
    cases j with
    | zero => rfl
    | succ j => exact ih j d

theorem getD_map_lt (f : α → β) : ∀ (l : List α) (i : Nat), i < l.length →
    ∀ (d : β) (e : α), (l.map f).getD i d = f (l.getD i e) := by
  intro l
  induction l with
  | nil => intro i hi; rw [List.length_nil] at hi; omega
  | cons x t ih =>
    intro i hi d e
    cases i with
    | zero => rfl
    | succ i =>
      rw [List.length_cons] at hi
      exact ih i (by omega) d e

theorem map_getD_range (d : α) : ∀ (l : List α),
    (List.range l.length).map (fun i => l.getD i d) = l := by
  intro l
  induction l with
  | nil => rfl
  | cons x t ih =>
    rw [List.length_cons, List.range_succ_eq_map, List.map_cons, List.map_map]
    show _ :: _ = _
    rw [show ((fun i => (x :: t).getD i d) ∘ Nat.succ) =
      (fun i => t.getD i d) from funext (fun i => rfl), ih]
    rfl

theorem getD_range_map (g : Nat → α) (n i : Nat) (h : i < n) (d : α) :
    ((List.range n).map g).getD i d = g i := by
  rw [getD_map_lt g (List.range n) i (by rw [List.length_range]; exact h) d 0]
  congr 1
  rw [List.getD_eq_getElem _ _ (by rw [List.length_range]; exact h)]
  exact List.getElem_range _ _

theorem sum_map_ite_range (f : Nat → Nat) (t : Nat) : ∀ B : Nat,
    ((List.range B).map (fun u => if t = u then f u else 0)).sum =
      if t < B then f t else 0 := by
  intro B
  induction B with
  | zero => rw [if_neg (Nat.not_lt_zero t)]; rfl
  | succ B ih =>
    rw [List.range_succ, List.map_append, List.sum_append, ih]
    simp only [List.map_cons, List.map_nil, List.sum_cons, List.sum_nil]
    by_cases htB : t = B
    · subst htB
      rw [if_neg (lt_irrefl t), if_pos rfl, if_pos (Nat.lt_succ_self t)]
      omega
    · rw [if_neg htB]
      by_cases h2 : t < B
      · rw [if_pos h2, if_pos (by omega)]
        omega
      · rw [if_neg h2, if_neg (by omega)]
        omega

theorem enum_map_getD (g : Nat → α → β) (l : List α) (d : α) :
    l.enum.map (fun p => g p.1 p.2) =
      (List.range l.length).map (fun i => g i (l.getD i d)) := by
  apply List.ext_getElem
  · rw [List.length_map, List.length_map, List.enum_length, List.length_range]
  · intro i h1 h2
    rw [List.length_map, List.enum_length] at h1
    rw [List.getElem_map, List.getElem_map, List.getElem_enum,
      List.getElem_range, List.getD_eq_getElem l d h1]

theorem zip_map_same (f : α → β) (g : α → γ) : ∀ l : List α,
    (l.map f).zip (l.map g) = l.map (fun x => (f x, g x)) := by
  intro l
  induction l with
  | nil => rfl
  | cons x t ih => simp only [List.map_cons, List.zip_cons_cons, ih]

theorem list_sum_const : ∀ (l : List Nat) (b : Nat), (∀ x ∈ l, x = b) →
    l.sum = l.length * b := by
  intro l
  induction l with
  | nil => intro b _; simp
  | cons x t ih =>
    intro b h
    rw [List.sum_cons, List.length_cons, ih b
      (fun y hy => h y (List.mem_cons_of_mem _ hy)),
      h x (List.mem_cons_self _ _)]
    ring

theorem flatten_length_rect (M : Matrix) (a b : Nat) (ha : M.length = a)
    (hb : ∀ r ∈ M, r.length = b) : M.flatten.length = a * b := by
  rw [List.length_flatten, list_sum_const _ b (by
    intro x hx
    rw [List.mem_map] at hx
    obtain ⟨r, hr, rfl⟩ := hx
    exact hb r hr), List.length_map, ha]

theorem init_le_foldl_max (f : α → Nat) : ∀ (l : List α) (a : Nat),
    a ≤ l.foldl (fun acc x => max acc (f x)) a := by
  intro l
  induction l with
  | nil => intro a; exact le_refl a
  | cons x t ih =>
    intro a
    exact le_trans (le_max_left a (f x)) (ih (max a (f x)))

theorem occEnum_congr : ∀ (F : List Nat) (c c2 : Nat → Nat),
    (∀ t, c t = c2 t) → occEnum F c = occEnum F c2 := by
  intro F
  induction F with
  | nil => intro c c2 _; rfl
  | cons tid rest ih =>
    intro c c2 h
    show (tid, c tid) :: _ = (tid, c2 tid) :: _
    congr 1
    · rw [h tid]
    · exact ih _ _ (fun t => by
        by_cases ht : t = tid
        · rw [if_pos ht, if_pos ht, h t]
        · rw [if_neg ht, if_neg ht, h t])

theorem occEnum_length : ∀ (F : List Nat) (c : Nat → Nat),
    (occEnum F c).length = F.length := by
  intro F
  induction F with
  | nil => intro c; rfl
  | cons tid rest ih =>
    intro c
    show (occEnum rest _).length + 1 = rest.length + 1
    rw [ih]

theorem occEnum_fst : ∀ (F : List Nat) (c : Nat → Nat),
    (occEnum F c).map Prod.fst = F := by
  intro F
  induction F with
  | nil => intro c; rfl
  | cons tid rest ih =>
    intro c
    show tid :: (occEnum rest _).map Prod.fst = tid :: rest
    rw [ih]

theorem occEnum_append : ∀ (A B2 : List Nat) (c : Nat → Nat),
    occEnum (A ++ B2) c =
      occEnum A c ++ occEnum B2 (fun t => c t + A.count t) := by
  intro A
  induction A with
  | nil =>
    intro B2 c
    rw [List.nil_append]
    show occEnum B2 c = [] ++ occEnum B2 _
    rw [List.nil_append]
    exact occEnum_congr B2 c _ (fun t => by rw [List.count_nil, Nat.add_zero])
  | cons a A2 ih =>
    intro B2 c
    rw [List.cons_append]
    show (a, c a) :: occEnum (A2 ++ B2) _ =
      ((a, c a) :: occEnum A2 _) ++ occEnum B2 _
    rw [List.cons_append]
    congr 1
    rw [ih B2 _]
    congr 1
    apply occEnum_congr
    intro t
    simp only [List.count_cons, beq_iff_eq]
    by_cases ht : t = a
    · rw [if_pos ht, if_pos ht.symm]
      omega
    · rw [if_neg ht, if_neg (fun h => ht h.symm)]
      omega

theorem occEnum_getD : ∀ (F : List Nat) (c : Nat → Nat) (i : Nat),
    i < F.length → (occEnum F c).getD i (0, 0) =
      (F.getD i 0, c (F.getD i 0) + (F.take i).count (F.getD i 0)) := by
  intro F
  induction F with
  | nil => intro c i hi; rw [List.length_nil] at hi; omega
  | cons tid rest ih =>
    intro c i hi
    cases i with
    | zero => rfl
    | succ i =>
      rw [List.length_cons] at hi
      show (occEnum rest _).getD i (0, 0) = _
      rw [ih _ i (by omega), List.getD_cons_succ, List.take_succ_cons]
      have harith : (if rest.getD i 0 = tid then c (rest.getD i 0) + 1
          else c (rest.getD i 0)) + (rest.take i).count (rest.getD i 0) =
          c (rest.getD i 0) + (tid :: rest.take i).count (rest.getD i 0) := by
        simp only [List.count_cons, beq_iff_eq]
        by_cases ht : rest.getD i 0 = tid
        · rw [if_pos ht, if_pos ht.symm]
          omega
        · rw [if_neg ht, if_neg (fun h => ht h.symm)]
          omega
      rw [harith]

theorem occEnum_filter : ∀ (F : List Nat) (c : Nat → Nat) (t : Nat),
    (occEnum F c).filter (fun p => p.1 = t) =
      (List.range' (c t) (F.count t)).map (fun j => (t, j)) := by
  intro F
  induction F with
  | nil =>
    intro c t
    rw [List.count_nil]
    rfl
  | cons a rest ih =>
    intro c t
    show List.filter _ ((a, c a) :: occEnum rest _) = _
    rw [List.filter_cons]
    by_cases hat : a = t
    · subst hat
      rw [if_pos (by simp), ih _ a]
      have hc : (if a = a then c a + 1 else c a) = c a + 1 := if_pos rfl
      rw [hc]
      have hcount : (a :: rest).count a = rest.count a + 1 := by
        simp [List.count_cons]
      rw [hcount, List.range'_succ, List.map_cons]
    · rw [if_neg (by simp [hat]), ih _ t]
      have hc : (if t = a then c t + 1 else c t) = c t :=
        if_neg (fun h => hat h.symm)
      rw [hc]
      have hcount : (a :: rest).count t = rest.count t := by
        simp [List.count_cons, hat]
      rw [hcount]

theorem occEnum_snd_lt : ∀ (F : List Nat) (c : Nat → Nat) (p : Nat × Nat),
    p ∈ occEnum F c → c p.1 ≤ p.2 ∧ p.2 < c p.1 + F.count p.1 := by
  intro F c p hp
  have hmem : p ∈ (occEnum F c).filter (fun q => q.1 = p.1) :=
    List.mem_filter.mpr ⟨hp, by simp⟩
  rw [occEnum_filter] at hmem
  rw [List.mem_map] at hmem
  obtain ⟨j, hj, heq⟩ := hmem
  rw [List.mem_range'_1] at hj
  have h2 := congrArg Prod.snd heq
  simp only at h2
  omega

theorem occEnum_buckets : ∀ (T : List (List Nat)) (c : Nat → Nat),
    occEnum T.flatten c = ((List.range T.length).map (fun r =>
      occEnum (T.getD r []) (fun t =>
        c t + ((T.take r).flatten).count t))).flatten := by
  intro T
  induction T with
  | nil => intro c; rfl
  | cons b rest ih =>
    intro c
    rw [List.flatten_cons, occEnum_append, List.length_cons,
      List.range_succ_eq_map, List.map_cons, List.map_map, List.flatten_cons,
      ih (fun t => c t + b.count t)]
    have hhead : occEnum b c = occEnum ((b :: rest).getD 0 []) (fun t =>
        c t + (((b :: rest).take 0).flatten).count t) := by
      apply occEnum_congr
      intro t
      rw [List.take_zero, List.flatten_nil, List.count_nil, Nat.add_zero]
    have htail : (List.range rest.length).map (fun r =>
        occEnum (rest.getD r []) (fun t =>
          c t + b.count t + ((rest.take r).flatten).count t)) =
        (List.range rest.length).map ((fun r =>
          occEnum ((b :: rest).getD r []) (fun t =>
            c t + (((b :: rest).take r).flatten).count t)) ∘ Nat.succ) := by
      refine List.map_congr_left ?_
      intro r _
      rw [Function.comp_apply, List.getD_cons_succ, List.take_succ_cons,
        List.flatten_cons]
      apply occEnum_congr
      intro t
      rw [List.count_append]
      omega
    rw [← hhead, ← htail]

theorem set_pop_inv (rem rem₀ : List (List TableConfig)) (c : Nat → Nat)
    (tid : Nat) (h : ∀ t, rem.getD t [] = (rem₀.getD t []).drop (c t)) :
    ∀ t, (rem.set tid (rem.getD tid []).tail).getD t [] =
      (rem₀.getD t []).drop (if t = tid then c t + 1 else c t) := by
  intro t
  by_cases ht : t = tid
  · subst ht
    rw [if_pos rfl]
    by_cases hlt : t < rem.length
    · have hset : (rem.set t (rem.getD t []).tail).getD t [] =
          (rem.getD t []).tail := by
        rw [List.getD_eq_getElem _ _ (by rw [List.length_set]; exact hlt)]
        exact List.getElem_set_self ..
      rw [hset, h t, List.tail_drop]
    · have hnoop : rem.set t (rem.getD t []).tail = rem :=
        List.set_eq_of_length_le (by omega)
      have h0 : rem.getD t [] = [] := List.getD_eq_default _ _ (by omega)
      have h1 : (rem₀.getD t []).drop (c t) = [] := by rw [← h t, h0]
      rw [hnoop, h0, ← List.tail_drop, h1]
      rfl
  · rw [if_neg ht, List.getD_eq_getElem?_getD,
      List.getElem?_set_ne (fun h2 => ht h2.symm),
      ← List.getD_eq_getElem?_getD, h t]

theorem popSeq_length : ∀ (ids : List Nat) (rem : List (List TableConfig)),
    (popSeq ids rem).length = ids.length := by
  intro ids
  induction ids with
  | nil => intro rem; rfl
  | cons tid rest ih =>
    intro rem
    show _ + 1 = _ + 1
    rw [ih]

theorem popSeq_occEnum : ∀ (ids : List Nat)
    (rem rem₀ : List (List TableConfig)) (c : Nat → Nat),
    (∀ t, rem.getD t [] = (rem₀.getD t []).drop (c t)) →
    popSeq ids rem = (occEnum ids c).map
      (fun p => (rem₀.getD p.1 []).getD p.2 ⟨0, 0⟩) := by
  intro ids
  induction ids with
  | nil => intro rem rem₀ c _; rfl
  | cons tid rest ih =>
    intro rem rem₀ c h
    rw [show popSeq (tid :: rest) rem = (rem.getD tid []).headD ⟨0, 0⟩ ::
        popSeq rest (rem.set tid (rem.getD tid []).tail) from rfl,
      show occEnum (tid :: rest) c = (tid, c tid) ::
        occEnum rest (fun t => if t = tid then c t + 1 else c t) from rfl,
      List.map_cons]
    congr 1
    · rw [h tid, headD_drop]
    · exact ih _ rem₀ _ (set_pop_inv rem rem₀ c tid h)

theorem popRem_inv : ∀ (ids : List Nat)
    (rem rem₀ : List (List TableConfig)) (c : Nat → Nat),
    (∀ t, rem.getD t [] = (rem₀.getD t []).drop (c t)) →
    ∀ t, (popRem ids rem).getD t [] =
      (rem₀.getD t []).drop (c t + ids.count t) := by
  intro ids
  induction ids with
  | nil =>
    intro rem rem₀ c h t
    rw [List.count_nil, Nat.add_zero]
    exact h t
  | cons tid rest ih =>
    intro rem rem₀ c h t
    show (popRem rest _).getD t [] = _
    rw [ih _ rem₀ _ (set_pop_inv rem rem₀ c tid h) t]
    congr 1
    simp only [List.count_cons, beq_iff_eq]
    by_cases ht : t = tid
    · rw [if_pos ht, if_pos ht.symm]
      omega
    · rw [if_neg ht, if_neg (fun h2 => ht h2.symm)]
      omega

theorem popRem_append : ∀ (A B2 : List Nat) (rem : List (List TableConfig)),
    popRem (A ++ B2) rem = popRem B2 (popRem A rem) := by
  intro A
  induction A with
  | nil => intro B2 rem; rfl
  | cons tid rest ih => intro B2 rem; exact ih B2 _

theorem configsOfBuckets_getD : ∀ (T : List (List Nat))
    (rem : List (List TableConfig)) (r : Nat), r < T.length →
    (configsOfBuckets T rem).getD r [] =
      popSeq (T.getD r []) (popRem ((T.take r).flatten) rem) := by
  intro T
  induction T with
  | nil => intro rem r hr; rw [List.length_nil] at hr; omega
  | cons b rest ih =>
    intro rem r hr
    cases r with
    | zero => rfl
    | succ r =>
      rw [List.length_cons] at hr
      show (configsOfBuckets rest (popRem b rem)).getD r [] = _
      rw [ih _ r (by omega), List.getD_cons_succ, List.take_succ_cons,
        List.flatten_cons, popRem_append]

theorem configsOfBuckets_length : ∀ (T : List (List Nat))
    (rem : List (List TableConfig)),
    (configsOfBuckets T rem).length = T.length := by
  intro T
  induction T with
  | nil => intro rem; rfl
  | cons b rest ih =>
    intro rem
    show _ + 1 = _ + 1
    rw [ih]

theorem buildRank_eq : ∀ (itm ids : List Nat) (m : Nat)
    (rem : List (List TableConfig)),
    (buildRank itm ids m rem).1 = popSeq ids rem ∧
      (buildRank itm ids m rem).2.2.2.2 = popRem ids rem := by
  intro itm ids
  induction ids with
  | nil => intro m rem; exact ⟨rfl, rfl⟩
  | cons tid rest ih =>
    intro m rem
    obtain ⟨h1, h2⟩ := ih (m + 1) (rem.set tid (rem.getD tid []).tail)
    constructor
    · show _ :: (buildRank itm rest (m + 1) _).1 = _ :: popSeq rest _
      rw [h1]
    · show (buildRank itm rest (m + 1) _).2.2.2.2 = _
      rw [h2]
      rfl

theorem buildPlanLoop_configs : ∀ (itm : List Nat) (T : List (List Nat))
    (rem : List (List TableConfig)),
    (buildPlanLoop itm T rem).1 = configsOfBuckets T rem := by
  intro itm T
  induction T with
  | nil => intro rem; rfl
  | cons b rest ih =>
    intro rem
    show (buildRank itm b 0 rem).1 ::
        (buildPlanLoop itm rest (buildRank itm b 0 rem).2.2.2.2).1 =
      popSeq b rem :: configsOfBuckets rest (popRem b rem)
    rw [(buildRank_eq itm b 0 rem).1, (buildRank_eq itm b 0 rem).2, ih]

theorem colStart_zero (out S : Nat) : colStart out S 0 = 0 := by
  unfold colStart
  simp

theorem colStart_mono (out S : Nat) {j k : Nat} (h : j ≤ k) :
    colStart out S j ≤ colStart out S k := by
  unfold colStart
  have h1 : out / S * j ≤ out / S * k := Nat.mul_le_mul_left _ h
  omega

theorem colStart_last (out S : Nat) (hS : 1 ≤ S) : colStart out S S = out := by
  unfold colStart
  have h1 : out % S < S := Nat.mod_lt _ (by omega)
  have h2 := Nat.div_add_mod out S
  have h4 : out / S * S = S * (out / S) := Nat.mul_comm _ _
  omega

theorem colStart_le_out (out S j : Nat) (hj : j ≤ S) (hS : 1 ≤ S) :
    colStart out S j ≤ out := by
  have h1 := colStart_mono out S hj
  rw [colStart_last out S hS] at h1
  exact h1

theorem maybe_slice_length_pos (cfg : TableConfig) (thr : Option Nat)
    (ws : Nat) (hws : 1 ≤ ws) (hout : 1 ≤ cfg.output_dim) :
    1 ≤ (maybe_slice_table_column cfg thr ws).length := by
  rcases thr with _ | t
  · rw [show maybe_slice_table_column cfg none ws = [cfg] from rfl]
    rw [List.length_singleton]
  · by_cases h1 : sliceLoop (cfg.input_dim * cfg.output_dim)
      (cfg.input_dim * cfg.output_dim) t 1 = 1
    · rw [show maybe_slice_table_column cfg (some t) ws = [cfg] from by
        simp only [maybe_slice_table_column]
        rw [if_pos h1]]
      rw [List.length_singleton]
    · have hn0 : 1 ≤ sliceLoop (cfg.input_dim * cfg.output_dim)
        (cfg.input_dim * cfg.output_dim) t 1 := sliceLoop_pos _ _ _ _ le_rfl
      rw [show maybe_slice_table_column cfg (some t) ws =
          (List.range (min (min (sliceLoop (cfg.input_dim * cfg.output_dim)
              (cfg.input_dim * cfg.output_dim) t 1) ws) cfg.output_dim)).map
            (fun i =>
              { cfg with output_dim :=
                  cfg.output_dim / (min (min (sliceLoop
                    (cfg.input_dim * cfg.output_dim)
                    (cfg.input_dim * cfg.output_dim) t 1) ws)
                    cfg.output_dim) +
                  if i < cfg.output_dim % (min (min (sliceLoop
                    (cfg.input_dim * cfg.output_dim)
                    (cfg.input_dim * cfg.output_dim) t 1) ws)
                    cfg.output_dim)
                  then 1 else 0 }) from by
        simp only [maybe_slice_table_column]
        rw [if_neg h1]]
      rw [List.length_map, List.length_range]
      omega

theorem single_slice_width (out : Nat) :
    colStart out 1 1 - colStart out 1 0 = out := by
  rw [colStart_zero, colStart_last out 1 le_rfl]
  omega

theorem range_slice_width (out n j : Nat) (hn : 1 ≤ n) (hj : j < n) :
    out / n + (if j < out % n then 1 else 0) =
      colStart out n (j + 1) - colStart out n j := by
  unfold colStart
  have hrem : out % n < n := Nat.mod_lt _ (by omega)
  obtain ⟨q, hq⟩ : ∃ q, out / n = q := ⟨_, rfl⟩
  obtain ⟨r, hr⟩ : ∃ r, out % n = r := ⟨_, rfl⟩
  rw [hr] at hrem
  rw [hq, hr]
  by_cases h : j < r
  · rw [if_pos h, show min j r = j from by omega,
      show min (j + 1) r = j + 1 from by omega, Nat.mul_succ]
    omega
  · rw [if_neg h, show min j r = r from by omega,
      show min (j + 1) r = r from by omega, Nat.mul_succ]
    omega

theorem maybe_slice_getD (cfg : TableConfig) (thr : Option Nat) (ws : Nat)
    (hws : 1 ≤ ws) (hout : 1 ≤ cfg.output_dim) :
    ∀ j, j < (maybe_slice_table_column cfg thr ws).length →
      (maybe_slice_table_column cfg thr ws).getD j ⟨0, 0⟩ =
        ⟨cfg.input_dim,
          colStart cfg.output_dim (maybe_slice_table_column cfg thr ws).length
              (j + 1) -
            colStart cfg.output_dim
              (maybe_slice_table_column cfg thr ws).length j⟩ := by
  have hsingle : ∀ j, j < ([cfg] : List TableConfig).length →
      ([cfg] : List TableConfig).getD j ⟨0, 0⟩ =
        ⟨cfg.input_dim,
          colStart cfg.output_dim ([cfg] : List TableConfig).length (j + 1) -
            colStart cfg.output_dim ([cfg] : List TableConfig).length j⟩ := by
    intro j hj
    rw [List.length_singleton] at hj
    match j, hj with
    | 0, _ =>
      rw [List.length_singleton, single_slice_width]
      rfl
  rcases thr with _ | t
  · rw [show maybe_slice_table_column cfg none ws = [cfg] from rfl]
    exact hsingle
  · by_cases h1 : sliceLoop (cfg.input_dim * cfg.output_dim)
      (cfg.input_dim * cfg.output_dim) t 1 = 1
    · rw [show maybe_slice_table_column cfg (some t) ws = [cfg] from by
        simp only [maybe_slice_table_column]
        rw [if_pos h1]]
      exact hsingle
    · have hrw : maybe_slice_table_column cfg (some t) ws =
          (List.range (min (min (sliceLoop (cfg.input_dim * cfg.output_dim)
              (cfg.input_dim * cfg.output_dim) t 1) ws) cfg.output_dim)).map
            (fun i =>
              { cfg with output_dim :=
                  cfg.output_dim / (min (min (sliceLoop
                    (cfg.input_dim * cfg.output_dim)
                    (cfg.input_dim * cfg.output_dim) t 1) ws)
                    cfg.output_dim) +
                  if i < cfg.output_dim % (min (min (sliceLoop
                    (cfg.input_dim * cfg.output_dim)
                    (cfg.input_dim * cfg.output_dim) t 1) ws)
                    cfg.output_dim)
                  then 1 else 0 }) := by
        simp only [maybe_slice_table_column]
        rw [if_neg h1]
      set n := min (min (sliceLoop (cfg.input_dim * cfg.output_dim)
        (cfg.input_dim * cfg.output_dim) t 1) ws) cfg.output_dim with hndef
      intro j hj
      rw [hrw, List.length_map, List.length_range] at hj
      rw [hrw, List.length_map, List.length_range,
        getD_range_map _ n j hj (⟨0, 0⟩ : TableConfig)]
      have hn1 : 1 ≤ n := by
        have hn0 : 1 ≤ sliceLoop (cfg.input_dim * cfg.output_dim)
          (cfg.input_dim * cfg.output_dim) t 1 := sliceLoop_pos _ _ _ _ le_rfl
        omega
      rw [show ({ cfg with output_dim := cfg.output_dim / n +
          if j < cfg.output_dim % n then 1 else 0 } : TableConfig) =
          ⟨cfg.input_dim, cfg.output_dim / n +
            if j < cfg.output_dim % n then 1 else 0⟩ from rfl]
      rw [range_slice_width cfg.output_dim n j hn1 hj]

theorem gids_eq (sliced : List (List TableConfig)) :
    (strategyPairs sliced).map Prod.snd =
      ((List.range sliced.length).map (fun t =>
        List.replicate (sliced.getD t []).length t)).flatten := by
  unfold strategyPairs
  rw [List.map_flatten, List.map_map]
  congr 1
  have h := enum_map_getD (fun i x => (List.map
    (fun c : TableConfig => (c.input_dim * c.output_dim, i)) x).map Prod.snd)
    sliced []
  refine (h.trans ?_)
  refine List.map_congr_left ?_
  intro t _
  rw [List.map_map]
  exact List.map_const' _ _

theorem gids_mem_lt (sliced : List (List TableConfig)) :
    ∀ x ∈ (strategyPairs sliced).map Prod.snd, x < sliced.length := by
  rw [gids_eq]
  intro x hx
  rw [List.mem_flatten] at hx
  obtain ⟨l, hl, hx⟩ := hx
  rw [List.mem_map] at hl
  obtain ⟨t, ht, rfl⟩ := hl
  rw [List.mem_range] at ht
  rw [List.eq_of_mem_replicate hx]
  exact ht

theorem gids_count (sliced : List (List TableConfig)) (t : Nat)
    (ht : t < sliced.length) :
    ((strategyPairs sliced).map Prod.snd).count t =
      (sliced.getD t []).length := by
  rw [gids_eq, List.count_flatten, List.map_map]
  have h : ((List.range sliced.length).map (List.count t ∘ fun u =>
      List.replicate (sliced.getD u []).length u)) =
      (List.range sliced.length).map (fun u =>
        if t = u then (sliced.getD u []).length else 0) := by
    refine List.map_congr_left ?_
    intro u _
    rw [Function.comp_apply, List.count_replicate]
    by_cases htu : t = u
    · rw [if_pos (by simp only [beq_iff_eq]; omega), if_pos htu]
    · rw [if_neg (by simp only [beq_iff_eq]; omega), if_neg htu]
  rw [h, sum_map_ite_range, if_pos ht]

theorem apply_partition (mode : String) (ws : Nat)
    (sliced_configs : List (List TableConfig))
    (hmode : mode = "basic" ∨ mode = "memory_balanced" ∨
      mode = "memory_optimized")
    (hws : 1 ≤ ws) :
    ∃ T, apply_stragety mode ws sliced_configs = .ok T ∧
      T.length = ws ∧
      T.flatten ~ (strategyPairs sliced_configs).map Prod.snd := by
  rcases hmode with h | h | h <;> subst h
  · obtain ⟨m, rfl⟩ : ∃ m, ws = m + 1 := ⟨ws - 1, by omega⟩
    have hperm : ((List.range (m + 1)).map (fun i =>
        pySlice ((strategyPairs sliced_configs).map Prod.snd) i
          (m + 1))).flatten ~
        (strategyPairs sliced_configs).map Prod.snd :=
      pySlice_flatten_perm _ m
    refine ⟨_, rfl, ?_, hperm⟩
    rw [List.length_map, List.length_range]
  · have hperm : ((List.range ws).map (fun i =>
        pySlice ((List.insertionSort pairDesc
          (strategyPairs sliced_configs)).map Prod.snd) i (2 * ws) ++
        pySlice ((List.insertionSort pairDesc
          (strategyPairs sliced_configs)).map Prod.snd)
          (2 * ws - 1 - i) (2 * ws))).flatten ~
        (strategyPairs sliced_configs).map Prod.snd := by
      refine (balanced_buckets_flatten_perm _ ws hws).trans ?_
      exact (List.perm_insertionSort pairDesc _).map Prod.snd
    refine ⟨_, rfl, ?_, hperm⟩
    rw [List.length_map, List.length_range]
  · have hrepl : (List.replicate ws ((0 : Nat), ([] : List Nat))) ≠ [] := by
      intro h
      have h2 := congrArg List.length h
      rw [List.length_replicate, List.length_nil] at h2
      omega
    obtain ⟨hperm, hlen, _⟩ := greedyFold_partition
      (List.insertionSort pairLe (strategyPairs sliced_configs)).reverse
      (List.replicate ws (0, [])) hrepl
    have hinit : ∀ n : Nat, ((List.replicate n ((0 : Nat), ([] : List Nat))).map
        Prod.snd).flatten = [] := by
      intro n
      induction n with
      | zero => rfl
      | succ k ih =>
        rw [List.replicate_succ, List.map_cons, List.flatten_cons, ih]
        rfl
    have hperm2 : ((memoryOptimizedRes ws sliced_configs).map
        Prod.snd).flatten ~
        (strategyPairs sliced_configs).map Prod.snd := by
      unfold memoryOptimizedRes
      refine hperm.trans ?_
      rw [hinit ws, List.nil_append, List.map_reverse]
      refine (List.reverse_perm _).trans ?_
      exact (List.perm_insertionSort pairLe _).map Prod.snd
    refine ⟨_, rfl, ?_, hperm2⟩
    rw [List.length_map]
    unfold memoryOptimizedRes
    rw [hlen, List.length_replicate]

theorem groupConcat_cons_eq (tid : Nat) (w : Matrix)
    (rest : List (Nat × Matrix)) (cur_id : Nat) (cur : List Matrix)
    (h : tid = cur_id) :
    groupConcat ((tid, w) :: rest) cur_id cur =
      groupConcat rest cur_id (cur ++ [w]) := by
  show (if tid = cur_id then _ else _) = _
  rw [if_pos h]

theorem groupConcat_cons_ne (tid : Nat) (w : Matrix)
    (rest : List (Nat × Matrix)) (cur_id : Nat) (cur : List Matrix)
    (h : tid ≠ cur_id) :
    groupConcat ((tid, w) :: rest) cur_id cur =
      hconcat cur :: groupConcat rest tid [w] := by
  show (if tid = cur_id then _ else _) = _
  rw [if_neg h]

theorem groupConcat_run : ∀ (ms : List Matrix) (rest : List (Nat × Matrix))
    (cur_id : Nat) (cur : List Matrix),
    groupConcat ((ms.map (fun w => (cur_id, w))) ++ rest) cur_id cur =
      groupConcat rest cur_id (cur ++ ms) := by
  intro ms
  induction ms with
  | nil =>
    intro rest cur_id cur
    rw [List.map_nil, List.nil_append, List.append_nil]
  | cons w ms2 ih =>
    intro rest cur_id cur
    rw [List.map_cons, List.cons_append,
      groupConcat_cons_eq _ _ _ _ _ rfl, ih rest cur_id (cur ++ [w]),
      List.append_assoc, List.singleton_append]

theorem groupConcat_chain (G : Nat → List Matrix) : ∀ (m t : Nat)
    (cur : List Matrix), (∀ u, u ∈ List.range' (t + 1) m → G u ≠ []) →
    groupConcat (((List.range' (t + 1) m).map (fun u =>
        (G u).map (fun w => (u, w)))).flatten) t cur =
      hconcat cur :: (List.range' (t + 1) m).map (fun u => hconcat (G u)) := by
  intro m
  induction m with
  | zero => intro t cur _; rfl
  | succ m ih =>
    intro t cur hne
    rw [List.range'_succ, List.map_cons, List.flatten_cons, List.map_cons]
    obtain ⟨w, ws2, hG⟩ : ∃ w ws2, G (t + 1) = w :: ws2 := by
      cases hGm : G (t + 1) with
      | nil =>
        exact absurd hGm (hne (t + 1) (by
          rw [List.range'_succ]
          exact List.mem_cons_self _ _))
      | cons w ws2 => exact ⟨w, ws2, rfl⟩
    rw [hG, List.map_cons, List.cons_append,
      groupConcat_cons_ne _ _ _ _ _ (by omega)]
    congr 1
    rw [groupConcat_run ws2 _ (t + 1) [w], List.singleton_append, ← hG]
    exact ih (t + 1) (G (t + 1)) (fun u hu => hne u (by
      rw [List.range'_succ]
      exact List.mem_cons_of_mem _ hu))

theorem groupConcat_groups (G : Nat → List Matrix) (m : Nat)
    (hne : ∀ u, u ∈ List.range' 1 m → G u ≠ []) :
    groupConcat (((List.range (m + 1)).map (fun u =>
        (G u).map (fun w => (u, w)))).flatten) 0 [] =
      (List.range (m + 1)).map (fun u => hconcat (G u)) := by
  rw [List.range_eq_range', List.range'_succ, List.map_cons, List.flatten_cons,
    groupConcat_run, List.nil_append, List.map_cons]
  exact groupConcat_chain G m 0 (G 0) hne

theorem hconcat_rowmaps : ∀ (fs : List (List Int → List Int)) (M : Matrix),
    fs ≠ [] → hconcat (fs.map (fun f => M.map f)) =
      M.map (fun row => (fs.map (fun f => f row)).flatten) := by
  intro fs
  induction fs with
  | nil => intro M h; exact absurd rfl h
  | cons f fs2 ih =>
    intro M _
    cases fs2 with
    | nil =>
      show M.map f = _
      refine List.map_congr_left ?_
      intro row _
      simp
    | cons f2 fs3 =>
      show List.zipWith (fun r1 r2 => r1 ++ r2) (M.map f)
        (hconcat ((f2 :: fs3).map (fun g => M.map g))) = _
      rw [ih M (by simp), zipWith_map_same]
      refine List.map_congr_left ?_
      intro row _
      simp

theorem chain_mono (g : Nat → Nat) : ∀ n : Nat,
    (∀ i, i < n → g i ≤ g (i + 1)) → g 0 ≤ g n := by
  intro n
  induction n with
  | zero => intro _; exact le_rfl
  | succ n ih =>
    intro h
    exact le_trans (ih (fun i hi => h i (by omega))) (h n (by omega))

theorem pyRange_chain (L : List Int) (g : Nat → Nat) : ∀ n : Nat,
    (∀ i, i < n → g i ≤ g (i + 1)) →
    ((List.range n).map (fun j => pyRange L (g j) (g (j + 1)))).flatten =
      pyRange L (g 0) (g n) := by
  intro n
  induction n with
  | zero =>
    intro _
    symm
    rw [pyRange_eq_drop_take L (g 0) (g 0) le_rfl, Nat.sub_self,
      List.take_zero]
    rfl
  | succ n ih =>
    intro hmono
    rw [List.range_succ, List.map_append, List.flatten_append,
      ih (fun i hi => hmono i (by omega))]
    simp only [List.map_cons, List.map_nil, List.flatten_cons,
      List.flatten_nil, List.append_nil]
    exact pyRange_append_ranges L (g 0) (g n) (g (n + 1))
      (chain_mono g n (fun i hi => hmono i (by omega))) (hmono n (by omega))

theorem tableSlice_hconcat (w : Matrix) (out S : Nat) (hS : 1 ≤ S)
    (hrect : ∀ r ∈ w, r.length = out) :
    hconcat ((List.range S).map (fun j => tableSlice w out S j)) = w := by
  have h1 : (List.range S).map (fun j => tableSlice w out S j) =
      ((List.range S).map (fun j => (fun row =>
        pyRange row (colStart out S j) (colStart out S (j + 1))))).map
        (fun f => w.map f) := by
    rw [List.map_map]
    rfl
  rw [h1, hconcat_rowmaps _ w (by
    intro hnil
    have h2 := congrArg List.length hnil
    rw [List.length_map, List.length_range, List.length_nil] at h2
    omega)]
  have h2 : ∀ row ∈ w,
      (((List.range S).map (fun j => fun r2 =>
        pyRange r2 (colStart out S j) (colStart out S (j + 1)))).map
          (fun f => f row)).flatten = row := by
    intro row hrow
    rw [List.map_map]
    have h3 := pyRange_chain row (colStart out S) S
      (fun i _ => colStart_mono out S (Nat.le_succ i))
    rw [colStart_zero, colStart_last out S hS] at h3
    calc ((List.range S).map ((fun f => f row) ∘ fun j => fun r2 =>
        pyRange r2 (colStart out S j) (colStart out S (j + 1)))).flatten
        = ((List.range S).map (fun j =>
            pyRange row (colStart out S j) (colStart out S (j + 1)))).flatten
          := rfl
      _ = pyRange row 0 out := h3
      _ = row := by
          rw [pyRange_zero_left, ← hrect row hrow, List.take_length]
  apply List.ext_getElem
  · rw [List.length_map]
  · intro i hi1 hi2
    rw [List.getElem_map]
    exact h2 _ (List.getElem_mem _)

theorem tableSlice_length (w : Matrix) (out S j : Nat) :
    (tableSlice w out S j).length = w.length := List.length_map _ _

theorem tableSlice_rows (w : Matrix) (out S j : Nat) (hS : 1 ≤ S)
    (hj : j + 1 ≤ S) (hrect : ∀ r ∈ w, r.length = out) :
    ∀ row ∈ tableSlice w out S j, row.length =
      colStart out S (j + 1) - colStart out S j := by
  intro row hrow
  unfold tableSlice at hrow
  rw [List.mem_map] at hrow
  obtain ⟨r, hr, rfl⟩ := hrow
  rw [pyRange_length r _ _ (by
    rw [hrect r hr]
    exact colStart_le_out out S (j + 1) hj hS)
    (colStart_mono out S (Nat.le_succ j))]

theorem slice_weight_eq (w : Matrix) (info : List Nat) (r off S c : Nat)
    (hsum : info.sum = S) (hpre : (info.take r).sum = c) :
    slice_weight_for_rank w info r off =
      tableSlice w ((w.headD []).length) S (c + off) := by
  simp only [slice_weight_for_rank, tableSlice, colStart]
  rw [hsum, hpre]

theorem getD_mem_of_lt (l : List α) (i : Nat) (h : i < l.length) (d : α) :
    l.getD i d ∈ l := by
  rw [List.getD_eq_getElem l d h]
  exact List.getElem_mem _

theorem count_flatten_split (T : List (List Nat)) (t r : Nat)
    (h : r < T.length) :
    (T.flatten).count t = ((T.take r).flatten).count t +
      ((T.getD r []).count t + ((T.drop (r + 1)).flatten).count t) := by
  conv_lhs => rw [← List.take_append_drop r T]
  rw [List.flatten_append, List.count_append]
  congr 1
  rw [List.drop_eq_getElem_cons h, List.flatten_cons, List.count_append,
    List.getD_eq_getElem T [] h]

/-- The list of sliced local arrays built by `set_weights` on one rank
(lines 338-356), rewritten as the occurrence-enumerated column blocks of the
global weights. -/
theorem localArrays_eq (W : List Matrix) (sliced : List (List TableConfig))
    (T : List (List Nat)) (r : Nat)
    (hmemB : ∀ x ∈ T.getD r [], x < W.length)
    (hcount : ∀ t, t < W.length →
      (T.flatten).count t = (sliced.getD t []).length) :
    (List.range (T.getD r []).length).map (fun i =>
      slice_weight_for_rank
        (((T.getD r []).map (fun index => W.getD index [])).getD i [])
        (((T.getD r []).map (fun index =>
          ((List.range W.length).map (fun tid =>
            T.map (fun rank_tids => rank_tids.count tid))).getD
              index [])).getD i [])
        r
        (((List.range (T.getD r []).length).map (fun i2 =>
          ((T.getD r []).take i2).count ((T.getD r []).getD i2 0))).getD
            i 0)) =
    (occEnum (T.getD r []) (fun t => ((T.take r).flatten).count t)).map
      (sliceFor W sliced) := by
  apply List.ext_getElem
  · rw [List.length_map, List.length_range, List.length_map, occEnum_length]
  · intro i h1 h2
    rw [List.length_map, List.length_range] at h1
    rw [List.getElem_map, List.getElem_range, List.getElem_map]
    have hlen : i < (occEnum (T.getD r [])
        (fun t => ((T.take r).flatten).count t)).length := by
      rw [occEnum_length]
      exact h1
    rw [← List.getD_eq_getElem _ (0, 0) hlen, occEnum_getD _ _ i h1]
    have htidB : (T.getD r []).getD i 0 < W.length :=
      hmemB _ (getD_mem_of_lt _ i h1 0)
    rw [getD_map_lt (fun index => W.getD index []) (T.getD r []) i h1 [] 0,
      getD_map_lt (fun index => ((List.range W.length).map (fun tid =>
        T.map (fun rank_tids => rank_tids.count tid))).getD index [])
        (T.getD r []) i h1 [] 0,
      getD_range_map _ _ _ htidB ([] : List Nat),
      getD_range_map _ _ _ h1 (0 : Nat)]
    rw [slice_weight_eq (W.getD ((T.getD r []).getD i 0) [])
      (T.map (fun rank_tids => rank_tids.count ((T.getD r []).getD i 0))) r
      (((T.getD r []).take i).count ((T.getD r []).getD i 0))
      ((sliced.getD ((T.getD r []).getD i 0) []).length)
      (((T.take r).flatten).count ((T.getD r []).getD i 0))
      (by rw [← List.count_flatten]; exact hcount _ htidB)
      (by rw [← List.map_take, ← List.count_flatten])]
    rfl

/-- C3 workhorse, `set_weights` side: on every rank of a multi-worker run,
`set_weights` succeeds and stores, for the `i`-th local slice (table `t`,
occurrence `j` in worker-major order), exactly the `j`-th column block of
the global weight of table `t`. -/
theorem set_weights_rank (embeddings : List TableConfig) (ws : Nat)
    (thr : Option Nat) (W : List Matrix) (T : List (List Nat)) (r : Nat)
    (hws2 : 2 ≤ ws) (hr : r < ws)
    (hTlen : T.length = ws)
    (hTperm : T.flatten ~ (strategyPairs (embeddings.map
      (fun c => maybe_slice_table_column c thr ws))).map Prod.snd)
    (hWlen : W.length = embeddings.length)
    (hin : ∀ cfg ∈ embeddings, 1 ≤ cfg.input_dim)
    (hout : ∀ cfg ∈ embeddings,
      1 ≤ cfg.output_dim ∧ cfg.output_dim ≤ 134217728)
    (hWrows : ∀ t, t < embeddings.length →
      (W.getD t []).length = (embeddings.getD t ⟨0, 0⟩).input_dim)
    (hWcols : ∀ t, t < embeddings.length → ∀ row ∈ W.getD t [],
      row.length = (embeddings.getD t ⟨0, 0⟩).output_dim) :
    set_weights T ws r
      (shapesOf ((configsOfBuckets T (embeddings.map
        (fun c => maybe_slice_table_column c thr ws))).getD r []))
      W 134217728 =
    .ok ((occEnum (T.getD r []) (fun t => ((T.take r).flatten).count t)).map
      (sliceFor W (embeddings.map
        (fun c => maybe_slice_table_column c thr ws)))) := by
  have hws1 : (1 : Nat) < ws := by omega
  have hrT : r < T.length := by rw [hTlen]; exact hr
  have hslen : (embeddings.map
      (fun c => maybe_slice_table_column c thr ws)).length =
      embeddings.length := List.length_map _ _
  have hflt : ∀ x ∈ T.flatten, x < W.length := by
    intro x hx
    have hx2 := gids_mem_lt _ x (hTperm.mem_iff.mp hx)
    rw [hslen] at hx2
    omega
  have hfltGetD : ∀ x ∈ T.getD r [], x < W.length := by
    intro x hx
    exact hflt x (List.mem_flatten.mpr ⟨_, getD_mem_of_lt T r hrT [], hx⟩)
  have hcnt : ∀ t, t < W.length → (T.flatten).count t =
      ((embeddings.map (fun c =>
        maybe_slice_table_column c thr ws)).getD t []).length := by
    intro t ht
    rw [hTperm.count_eq]
    exact gids_count _ t (by rw [hslen]; omega)
  simp only [set_weights]
  rw [if_pos hws1, localArrays_eq W _ T r hfltGetD hcnt,
    configsOfBuckets_getD T _ r hrT,
    popSeq_occEnum (T.getD r [])
      (popRem ((T.take r).flatten) (embeddings.map
        (fun c => maybe_slice_table_column c thr ws)))
      (embeddings.map (fun c => maybe_slice_table_column c thr ws))
      (fun t => ((T.take r).flatten).count t)
      (fun t => by
        have h := popRem_inv ((T.take r).flatten)
          (embeddings.map (fun c => maybe_slice_table_column c thr ws))
          (embeddings.map (fun c => maybe_slice_table_column c thr ws))
          (fun _ => 0) (fun u => by rw [List.drop_zero]) t
        rw [Nat.zero_add] at h
        exact h)]
  simp only [shapesOf]
  rw [List.map_map, zip_map_same]
  rw [assignAll_eq 134217728 _ ?hconds]
  · rw [List.map_map]
    rfl
  case hconds =>
    intro q hq
    rw [List.mem_map] at hq
    obtain ⟨p, hp, rfl⟩ := hq
    have hp1Tr : p.1 ∈ T.getD r [] := by
      have h := occEnum_fst (T.getD r [])
        (fun t => ((T.take r).flatten).count t)
      rw [← h]
      exact List.mem_map_of_mem Prod.fst hp
    have hp1W : p.1 < W.length := hfltGetD p.1 hp1Tr
    have hp1B : p.1 < embeddings.length := by omega
    have hsl : (embeddings.map
        (fun c => maybe_slice_table_column c thr ws)).getD p.1 [] =
        maybe_slice_table_column (embeddings.getD p.1 ⟨0, 0⟩) thr ws :=
      getD_map_lt _ embeddings p.1 hp1B [] ⟨0, 0⟩
    have hcfgmem : embeddings.getD p.1 ⟨0, 0⟩ ∈ embeddings :=
      getD_mem_of_lt embeddings p.1 hp1B ⟨0, 0⟩
    have hout1 := hout _ hcfgmem
    have hin1 := hin _ hcfgmem
    have hS1 : 1 ≤ ((embeddings.map
        (fun c => maybe_slice_table_column c thr ws)).getD p.1 []).length := by
      rw [hsl]
      exact maybe_slice_length_pos _ thr ws (by omega) hout1.1
    have hsnd : ((T.take r).flatten).count p.1 ≤ p.2 ∧
        p.2 < ((T.take r).flatten).count p.1 + (T.getD r []).count p.1 :=
      occEnum_snd_lt (T.getD r [])
        (fun t => ((T.take r).flatten).count t) p hp
    have hboundS : p.2 < ((embeddings.map
        (fun c => maybe_slice_table_column c thr ws)).getD p.1 []).length := by
      have hdec := count_flatten_split T p.1 r hrT
      have hc := hcnt p.1 hp1W
      omega
    have hcfg := maybe_slice_getD (embeddings.getD p.1 ⟨0, 0⟩) thr ws
      (by omega) hout1.1 p.2 (by rw [← hsl]; exact hboundS)
    rw [← hsl] at hcfg
    have hrows := hWrows p.1 hp1B
    have hcolsW := hWcols p.1 hp1B
    have hWne : W.getD p.1 [] ≠ [] := by
      intro he
      rw [he, List.length_nil] at hrows
      omega
    have hhead : ((W.getD p.1 []).headD []).length =
        (embeddings.getD p.1 ⟨0, 0⟩).output_dim := by
      cases hw : W.getD p.1 [] with
      | nil => exact absurd hw hWne
      | cons row rest =>
        show row.length = _
        exact hcolsW row (by rw [hw]; exact List.mem_cons_self _ _)
    refine ⟨?_, ?_, ?_⟩
    · show (sliceFor W (embeddings.map
          (fun c => maybe_slice_table_column c thr ws)) p).length =
        (((embeddings.map (fun c =>
          maybe_slice_table_column c thr ws)).getD p.1 []).getD p.2
            ⟨0, 0⟩).input_dim
      rw [show sliceFor W (embeddings.map
          (fun c => maybe_slice_table_column c thr ws)) p =
          tableSlice (W.getD p.1 []) ((W.getD p.1 []).headD []).length
            (((embeddings.map (fun c =>
              maybe_slice_table_column c thr ws)).getD p.1 []).length) p.2
          from rfl,
        tableSlice_length, hrows, hcfg]
    · show ∀ row ∈ sliceFor W (embeddings.map
          (fun c => maybe_slice_table_column c thr ws)) p,
        row.length = (((embeddings.map (fun c =>
          maybe_slice_table_column c thr ws)).getD p.1 []).getD p.2
            ⟨0, 0⟩).output_dim
      intro row hrow
      have hts := tableSlice_rows (W.getD p.1 [])
        ((W.getD p.1 []).headD []).length
        (((embeddings.map (fun c =>
          maybe_slice_table_column c thr ws)).getD p.1 []).length) p.2
        hS1 (by omega)
        (fun rr hrr => by rw [hhead]; exact hcolsW rr hrr) row hrow
      rw [hts, hcfg, hhead]
    · show (((embeddings.map (fun c =>
        maybe_slice_table_column c thr ws)).getD p.1 []).getD p.2
          ⟨0, 0⟩).output_dim ≤ 134217728
      rw [hcfg]
      have h1 := colStart_le_out (embeddings.getD p.1 ⟨0, 0⟩).output_dim
        (((embeddings.map (fun c =>
          maybe_slice_table_column c thr ws)).getD p.1 []).length)
        (p.2 + 1) (by omega) hS1
      have h2 := hout1.2
      show colStart _ _ _ - colStart _ _ _ ≤ _
      omega

theorem split_canonical_length : ∀ (lengths : List Nat) (L : List Int),
    (split_canonical L lengths).length = lengths.length := by
  intro lengths
  induction lengths with
  | nil => intro L; rfl
  | cons len rest ih =>
    intro L
    show _ + 1 = _ + 1
    rw [ih]

/-- Shape of the column block a slice occurrence carries: it matches the
input and output dims of the corresponding sliced config, and its width fits
one chunk. -/
theorem slice_shape_facts (embeddings : List TableConfig) (ws : Nat)
    (thr : Option Nat) (W : List Matrix) (p : Nat × Nat)
    (hin : ∀ cfg ∈ embeddings, 1 ≤ cfg.input_dim)
    (hout : ∀ cfg ∈ embeddings,
      1 ≤ cfg.output_dim ∧ cfg.output_dim ≤ 134217728)
    (hWrows : ∀ t, t < embeddings.length →
      (W.getD t []).length = (embeddings.getD t ⟨0, 0⟩).input_dim)
    (hWcols : ∀ t, t < embeddings.length → ∀ row ∈ W.getD t [],
      row.length = (embeddings.getD t ⟨0, 0⟩).output_dim)
    (hws : 1 ≤ ws)
    (hp1 : p.1 < embeddings.length)
    (hp2 : p.2 < ((embeddings.map
      (fun c => maybe_slice_table_column c thr ws)).getD p.1 []).length) :
    (sliceFor W (embeddings.map
        (fun c => maybe_slice_table_column c thr ws)) p).length =
      (((embeddings.map (fun c =>
        maybe_slice_table_column c thr ws)).getD p.1 []).getD p.2
          ⟨0, 0⟩).input_dim ∧
    (∀ row ∈ sliceFor W (embeddings.map
        (fun c => maybe_slice_table_column c thr ws)) p,
      row.length = (((embeddings.map (fun c =>
        maybe_slice_table_column c thr ws)).getD p.1 []).getD p.2
          ⟨0, 0⟩).output_dim) ∧
    (((embeddings.map (fun c =>
      maybe_slice_table_column c thr ws)).getD p.1 []).getD p.2
        ⟨0, 0⟩).output_dim ≤ 134217728 := by
  have hsl : (embeddings.map
      (fun c => maybe_slice_table_column c thr ws)).getD p.1 [] =
      maybe_slice_table_column (embeddings.getD p.1 ⟨0, 0⟩) thr ws :=
    getD_map_lt _ embeddings p.1 hp1 [] ⟨0, 0⟩
  have hcfgmem : embeddings.getD p.1 ⟨0, 0⟩ ∈ embeddings :=
    getD_mem_of_lt embeddings p.1 hp1 ⟨0, 0⟩
  have hout1 := hout _ hcfgmem
  have hin1 := hin _ hcfgmem
  have hS1 : 1 ≤ ((embeddings.map
      (fun c => maybe_slice_table_column c thr ws)).getD p.1 []).length := by
    omega
  have hcfg := maybe_slice_getD (embeddings.getD p.1 ⟨0, 0⟩) thr ws hws
    hout1.1 p.2 (by rw [← hsl]; exact hp2)
  rw [← hsl] at hcfg
  have hrows := hWrows p.1 hp1
  have hcolsW := hWcols p.1 hp1
  have hWne : W.getD p.1 [] ≠ [] := by
    intro he
    rw [he, List.length_nil] at hrows
    omega
  have hhead : ((W.getD p.1 []).headD []).length =
      (embeddings.getD p.1 ⟨0, 0⟩).output_dim := by
    cases hw : W.getD p.1 [] with
    | nil => exact absurd hw hWne
    | cons row rest =>
      show row.length = _
      exact hcolsW row (by rw [hw]; exact List.mem_cons_self _ _)
  refine ⟨?_, ?_, ?_⟩
  · rw [show sliceFor W (embeddings.map
        (fun c => maybe_slice_table_column c thr ws)) p =
        tableSlice (W.getD p.1 []) ((W.getD p.1 []).headD []).length
          (((embeddings.map (fun c =>
            maybe_slice_table_column c thr ws)).getD p.1 []).length) p.2
        from rfl,
      tableSlice_length, hrows, hcfg]
  · intro row hrow
    have hts := tableSlice_rows (W.getD p.1 [])
      ((W.getD p.1 []).headD []).length
      (((embeddings.map (fun c =>
        maybe_slice_table_column c thr ws)).getD p.1 []).length) p.2
      hS1 (by omega)
      (fun rr hrr => by rw [hhead]; exact hcolsW rr hrr) row hrow
    rw [hts, hcfg, hhead]
  · rw [hcfg]
    have h1 := colStart_le_out (embeddings.getD p.1 ⟨0, 0⟩).output_dim
      (((embeddings.map (fun c =>
        maybe_slice_table_column c thr ws)).getD p.1 []).length)
      (p.2 + 1) (by omega) hS1
    have h2 := hout1.2
    show colStart _ _ _ - colStart _ _ _ ≤ _
    omega

theorem gw_flats (ws : Nat) (stored : Nat → List Matrix) :
    (List.range ws).map (fun s =>
      flatWeights (((List.range ws).map stored).getD s [])) =
    (List.range ws).map (fun s => flatWeights (stored s)) := by
  refine List.map_congr_left ?_
  intro s hs
  rw [getD_range_map stored ws s (List.mem_range.mp hs) []]

theorem gw_own (ws NC : Nat) (hNC : 1 ≤ NC) (stored : Nat → List Matrix) :
    (List.range ws).map (fun s =>
      split_1d (((List.range ws).map (fun s3 =>
          flatWeights (stored s3))).getD s [])
        (rankChunkSizes (((List.range ws).map (fun s3 =>
          flatWeights (stored s3))).getD s []).length NC)) =
    (List.range ws).map (fun s =>
      split_canonical (flatWeights (stored s))
        (rankChunkSizes (flatWeights (stored s)).length NC)) := by
  refine List.map_congr_left ?_
  intro s hs
  rw [getD_range_map _ ws s (List.mem_range.mp hs) ([] : List Int),
    split_1d_eq_canonical _ _ (rankChunkSizes_sum _ _ hNC)]

theorem gw_sizes (ws NC : Nat) (stored : Nat → List Matrix) :
    ((List.range ws).map (fun s => flatWeights (stored s))).map (fun f =>
      rankChunkSizes f.length NC) =
    (List.range ws).map (fun s =>
      rankChunkSizes (flatWeights (stored s)).length NC) := by
  rw [List.map_map]
  rfl

theorem gw_chunk_i (ws NC : Nat) (hNC : 1 ≤ NC)
    (stored : Nat → List Matrix) (i : Nat) (hi : i < NC) :
    split_1d (((List.range ws).map (fun s =>
        (((List.range ws).map (fun s2 =>
          split_canonical (flatWeights (stored s2))
            (rankChunkSizes (flatWeights (stored s2)).length NC))).getD
              s []).getD i [])).flatten)
      (pySlice (((List.range ws).map (fun s =>
        rankChunkSizes (flatWeights (stored s)).length NC)).flatten) i NC) =
    (List.range ws).map (fun s =>
      (split_canonical (flatWeights (stored s))
        (rankChunkSizes (flatWeights (stored s)).length NC)).getD i []) := by
  have hparts : (List.range ws).map (fun s =>
      (((List.range ws).map (fun s2 =>
        split_canonical (flatWeights (stored s2))
          (rankChunkSizes (flatWeights (stored s2)).length NC))).getD
            s []).getD i []) =
      (List.range ws).map (fun s =>
        (split_canonical (flatWeights (stored s))
          (rankChunkSizes (flatWeights (stored s)).length NC)).getD i []) := by
    refine List.map_congr_left ?_
    intro s hs
    rw [getD_range_map _ ws s (List.mem_range.mp hs) ([] : List (List Int))]
  have hslice : pySlice (((List.range ws).map (fun s =>
      rankChunkSizes (flatWeights (stored s)).length NC)).flatten) i NC =
      (List.range ws).map (fun s =>
        ((split_canonical (flatWeights (stored s))
          (rankChunkSizes (flatWeights (stored s)).length NC)).getD
            i []).length) := by
    rw [pySlice_blocks NC 0 _ i (by
      intro l hl
      rw [List.mem_map] at hl
      obtain ⟨s, _, rfl⟩ := hl
      exact rankChunkSizes_length _ _ hNC) hi, List.map_map]
    refine List.map_congr_left ?_
    intro s _
    rw [Function.comp_apply]
    have hl := split_canonical_lengths (rankChunkSizes
        (flatWeights (stored s)).length NC) (flatWeights (stored s))
      (le_of_eq (rankChunkSizes_sum _ _ hNC))
    conv_lhs => rw [← hl]
    rw [getD_map_lt List.length _ i (by
      rw [split_canonical_length, rankChunkSizes_length _ _ hNC]
      exact hi) 0 []]
  rw [hparts, hslice]
  have hpm : ((List.range ws).map (fun s =>
      (split_canonical (flatWeights (stored s))
        (rankChunkSizes (flatWeights (stored s)).length NC)).getD
          i [])).map List.length =
      (List.range ws).map (fun s =>
        ((split_canonical (flatWeights (stored s))
          (rankChunkSizes (flatWeights (stored s)).length NC)).getD
            i []).length) := by
    rw [List.map_map]
    rfl
  rw [← hpm, split_1d_eq_canonical _ _ (by rw [← List.length_flatten]),
    split_canonical_of_parts]

theorem gw_chunks (ws NC : Nat) (hNC : 1 ≤ NC)
    (stored : Nat → List Matrix) :
    (List.range NC).map (fun i =>
      split_1d (((List.range ws).map (fun s =>
          (((List.range ws).map (fun s2 =>
            split_canonical (flatWeights (stored s2))
              (rankChunkSizes (flatWeights (stored s2)).length NC))).getD
                s []).getD i [])).flatten)
        (pySlice (((List.range ws).map (fun s =>
          rankChunkSizes (flatWeights (stored s)).length NC)).flatten)
          i NC)) =
    (List.range NC).map (fun i =>
      (List.range ws).map (fun s =>
        (split_canonical (flatWeights (stored s))
          (rankChunkSizes (flatWeights (stored s)).length NC)).getD i [])) := by
  refine List.map_congr_left ?_
  intro i hi
  exact gw_chunk_i ws NC hNC stored i (List.mem_range.mp hi)

theorem gw_lw (ws NC : Nat) (hNC : 1 ≤ NC)
    (stored : Nat → List Matrix) (j : Nat) (hj : j < ws) :
    (pySlice (((List.range NC).map (fun i =>
        (List.range ws).map (fun s =>
          (split_canonical (flatWeights (stored s))
            (rankChunkSizes (flatWeights (stored s)).length NC)).getD
              i []))).flatten) j ws).flatten =
      flatWeights (stored j) := by
  rw [pySlice_blocks ws ([] : List Int) _ j (by
    intro l hl
    rw [List.mem_map] at hl
    obtain ⟨i, _, rfl⟩ := hl
    rw [List.length_map, List.length_range]) hj, List.map_map]
  have h1 : (List.range NC).map ((fun l : List (List Int) => l.getD j []) ∘
      fun i => (List.range ws).map (fun s =>
        (split_canonical (flatWeights (stored s))
          (rankChunkSizes (flatWeights (stored s)).length NC)).getD i [])) =
      (List.range NC).map (fun i =>
        (split_canonical (flatWeights (stored j))
          (rankChunkSizes (flatWeights (stored j)).length NC)).getD i []) := by
    refine List.map_congr_left ?_
    intro i _
    rw [Function.comp_apply, getD_range_map _ ws j hj ([] : List Int)]
  rw [h1]
  have hlen : NC = (split_canonical (flatWeights (stored j))
      (rankChunkSizes (flatWeights (stored j)).length NC)).length := by
    rw [split_canonical_length, rankChunkSizes_length _ _ hNC]
  nth_rewrite 2 [hlen]
  rw [map_getD_range, split_canonical_flatten _ _
    (rankChunkSizes_sum _ _ hNC)]

/-- Occurrence membership facts for one worker bucket: every enumerated
slice names a real table and a real slice index of it. -/
theorem occ_mem_facts (embeddings : List TableConfig) (ws : Nat)
    (thr : Option Nat) (T : List (List Nat)) (j : Nat)
    (hj : j < T.length)
    (hTperm : T.flatten ~ (strategyPairs (embeddings.map
      (fun c => maybe_slice_table_column c thr ws))).map Prod.snd) :
    ∀ p ∈ occEnum (T.getD j []) (fun t => ((T.take j).flatten).count t),
      p.1 < embeddings.length ∧
        p.2 < ((embeddings.map
          (fun c => maybe_slice_table_column c thr ws)).getD p.1 []).length := by
  intro p hp
  have hp1Tr : p.1 ∈ T.getD j [] := by
    have h := occEnum_fst (T.getD j [])
      (fun t => ((T.take j).flatten).count t)
    rw [← h]
    exact List.mem_map_of_mem Prod.fst hp
  have hp1B : p.1 < embeddings.length := by
    have h2 := gids_mem_lt _ p.1 (hTperm.mem_iff.mp
      (List.mem_flatten.mpr ⟨_, getD_mem_of_lt T j hj [], hp1Tr⟩))
    rw [List.length_map] at h2
    exact h2
  have hsnd : ((T.take j).flatten).count p.1 ≤ p.2 ∧
      p.2 < ((T.take j).flatten).count p.1 + (T.getD j []).count p.1 :=
    occEnum_snd_lt (T.getD j [])
      (fun t => ((T.take j).flatten).count t) p hp
  have hdec := count_flatten_split T p.1 j hj
  have hc : (T.flatten).count p.1 = ((embeddings.map (fun c =>
      maybe_slice_table_column c thr ws)).getD p.1 []).length := by
    rw [hTperm.count_eq]
    exact gids_count _ p.1 (by rw [List.length_map]; exact hp1B)
  exact ⟨hp1B, by omega⟩

/-- C3 workhorse, `get_weights` reassembly side: splitting one rank's flat
buffer back into per-slice pieces and reshaping recovers exactly the stored
column blocks. -/
theorem gw_rank_weights (embeddings : List TableConfig) (ws : Nat)
    (thr : Option Nat) (W : List Matrix) (T : List (List Nat)) (j : Nat)
    (hj : j < ws) (hTlen : T.length = ws)
    (hTperm : T.flatten ~ (strategyPairs (embeddings.map
      (fun c => maybe_slice_table_column c thr ws))).map Prod.snd)
    (hWlen : W.length = embeddings.length)
    (hws : 1 ≤ ws)
    (hin : ∀ cfg ∈ embeddings, 1 ≤ cfg.input_dim)
    (hout : ∀ cfg ∈ embeddings,
      1 ≤ cfg.output_dim ∧ cfg.output_dim ≤ 134217728)
    (hWrows : ∀ t, t < embeddings.length →
      (W.getD t []).length = (embeddings.getD t ⟨0, 0⟩).input_dim)
    (hWcols : ∀ t, t < embeddings.length → ∀ row ∈ W.getD t [],
      row.length = (embeddings.getD t ⟨0, 0⟩).output_dim) :
    (List.range ((configsOfBuckets T (embeddings.map
        (fun c => maybe_slice_table_column c thr ws))).getD j []).length).map
      (fun i => reshape2d
        ((split_1d (flatWeights ((occEnum (T.getD j [])
            (fun t => ((T.take j).flatten).count t)).map
              (sliceFor W (embeddings.map
                (fun c => maybe_slice_table_column c thr ws)))))
          (((configsOfBuckets T (embeddings.map
            (fun c => maybe_slice_table_column c thr ws))).getD j []).map
              (fun c => c.input_dim * c.output_dim))).getD i [])
        (((configsOfBuckets T (embeddings.map
          (fun c => maybe_slice_table_column c thr ws))).getD j []).getD i
            ⟨0, 0⟩).input_dim
        (((configsOfBuckets T (embeddings.map
          (fun c => maybe_slice_table_column c thr ws))).getD j []).getD i
            ⟨0, 0⟩).output_dim) =
    (occEnum (T.getD j []) (fun t => ((T.take j).flatten).count t)).map
      (sliceFor W (embeddings.map
        (fun c => maybe_slice_table_column c thr ws))) := by
  have hjT : j < T.length := by rw [hTlen]; exact hj
  have hmem := occ_mem_facts embeddings ws thr T j hjT hTperm
  rw [configsOfBuckets_getD T _ j hjT,
    popSeq_occEnum (T.getD j [])
      (popRem ((T.take j).flatten) (embeddings.map
        (fun c => maybe_slice_table_column c thr ws)))
      (embeddings.map (fun c => maybe_slice_table_column c thr ws))
      (fun t => ((T.take j).flatten).count t)
      (fun t => by
        have h := popRem_inv ((T.take j).flatten)
          (embeddings.map (fun c => maybe_slice_table_column c thr ws))
          (embeddings.map (fun c => maybe_slice_table_column c thr ws))
          (fun _ => 0) (fun u => by rw [List.drop_zero]) t
        rw [Nat.zero_add] at h
        exact h)]
  have hsizes : ((occEnum (T.getD j [])
      (fun t => ((T.take j).flatten).count t)).map (fun p =>
        ((embeddings.map (fun c =>
          maybe_slice_table_column c thr ws)).getD p.1 []).getD p.2
            ⟨0, 0⟩)).map (fun c => c.input_dim * c.output_dim) =
      (((occEnum (T.getD j [])
        (fun t => ((T.take j).flatten).count t)).map
          (sliceFor W (embeddings.map
            (fun c => maybe_slice_table_column c thr ws)))).map
              (fun w => w.flatten)).map List.length := by
    rw [List.map_map, List.map_map, List.map_map]
    refine List.map_congr_left ?_
    intro p hp
    obtain ⟨hp1, hp2⟩ := hmem p hp
    obtain ⟨f1, f2, _⟩ := slice_shape_facts embeddings ws thr W p hin hout
      hWrows hWcols hws hp1 hp2
    rw [Function.comp_apply, Function.comp_apply, Function.comp_apply]
    exact (flatten_length_rect _ _ _ f1 f2).symm
  rw [hsizes,
    show flatWeights ((occEnum (T.getD j [])
        (fun t => ((T.take j).flatten).count t)).map
          (sliceFor W (embeddings.map
            (fun c => maybe_slice_table_column c thr ws)))) =
      (((occEnum (T.getD j [])
        (fun t => ((T.take j).flatten).count t)).map
          (sliceFor W (embeddings.map
            (fun c => maybe_slice_table_column c thr ws)))).map
              (fun w => w.flatten)).flatten from rfl]
  have hpm : (((occEnum (T.getD j [])
      (fun t => ((T.take j).flatten).count t)).map
        (sliceFor W (embeddings.map
          (fun c => maybe_slice_table_column c thr ws)))).map
            (fun w => w.flatten)).map List.length =
      (((occEnum (T.getD j [])
        (fun t => ((T.take j).flatten).count t)).map
          (sliceFor W (embeddings.map
            (fun c => maybe_slice_table_column c thr ws)))).map
              (fun w => w.flatten)).map List.length := rfl
  rw [split_1d_eq_canonical _ _ (by rw [← List.length_flatten]),
    split_canonical_of_parts]
  apply List.ext_getElem
  · rw [List.length_map, List.length_range, List.length_map, List.length_map,
      occEnum_length]
  · intro i h1 h2
    rw [List.length_map, List.length_range, List.length_map,
      occEnum_length] at h1
    rw [List.getElem_map, List.getElem_range]
    have hib : i < (occEnum (T.getD j [])
        (fun t => ((T.take j).flatten).count t)).length := by
      rw [occEnum_length]
      exact h1
    have hib2 : i < ((occEnum (T.getD j [])
        (fun t => ((T.take j).flatten).count t)).map
          (sliceFor W (embeddings.map
            (fun c => maybe_slice_table_column c thr ws)))).length := by
      rw [List.length_map]
      exact hib
    rw [← List.getD_eq_getElem _ ([] : List (List Int)) h2,
      getD_map_lt (fun w : Matrix => w.flatten) _ i hib2 [] [],
      getD_map_lt (fun p : Nat × Nat =>
        ((embeddings.map (fun c =>
          maybe_slice_table_column c thr ws)).getD p.1 []).getD p.2
            ⟨0, 0⟩) _ i hib ⟨0, 0⟩ (0, 0),
      getD_map_lt (sliceFor W (embeddings.map
        (fun c => maybe_slice_table_column c thr ws))) _ i hib [] (0, 0)]
    obtain ⟨hp1, hp2⟩ := hmem _ (getD_mem_of_lt _ i hib (0, 0))
    obtain ⟨f1, f2, _⟩ := slice_shape_facts embeddings ws thr W
      ((occEnum (T.getD j []) (fun t => ((T.take j).flatten).count t)).getD
        i (0, 0)) hin hout hWrows hWcols hws hp1 hp2
    rw [← f1]
    exact reshape2d_flatten _ _ f2

theorem gw_weights_flatten (ws : Nat) (T : List (List Nat))
    (hTlen : T.length = ws) (f : Nat × Nat → Matrix) :
    ((List.range ws).map (fun j => (occEnum (T.getD j [])
      (fun t => ((T.take j).flatten).count t)).map f)).flatten =
    (occEnum T.flatten (fun _ => 0)).map f := by
  conv_rhs => rw [occEnum_buckets T (fun _ => 0), List.map_flatten,
    List.map_map]
  rw [hTlen]
  refine congrArg List.flatten (List.map_congr_left ?_)
  intro j _
  rw [Function.comp_apply]
  exact congrArg (List.map f)
    (occEnum_congr _ _ _ (fun t => (Nat.zero_add _).symm))

theorem gw_chunks_ne (ws NC : Nat) (hws : 1 ≤ ws) (hNC : 1 ≤ NC)
    (g : Nat → Nat → List Int) :
    ((List.range NC).map (fun i =>
      (List.range ws).map (fun s => g i s))).flatten ≠ [] := by
  intro h
  have h2 := congrArg List.length h
  rw [List.length_flatten, List.map_map, List.length_nil] at h2
  have h3 : (List.range NC).map (List.length ∘ fun i =>
      (List.range ws).map (fun s => g i s)) =
      (List.range NC).map (fun i => ws) := by
    refine List.map_congr_left ?_
    intro i _
    rw [Function.comp_apply, List.length_map, List.length_range]
  rw [h3, list_sum_const _ ws (by
    intro x hx
    rw [List.mem_map] at hx
    obtain ⟨i, _, rfl⟩ := hx
    rfl), List.length_map, List.length_range] at h2
  have h4 := Nat.mul_pos (show 0 < NC by omega) (show 0 < ws by omega)
  omega

theorem filter_map_fst (f : Nat × Nat → Matrix) (t : Nat) :
    ∀ l : List (Nat × Nat),
    ((l.map (fun p => (p.1, f p))).filter (fun p => p.1 = t)) =
      ((l.filter (fun p => p.1 = t)).map (fun p => (p.1, f p))) := by
  intro l
  induction l with
  | nil => rfl
  | cons q rest ih =>
    rw [List.map_cons, List.filter_cons, List.filter_cons]
    by_cases h : q.1 = t
    · rw [if_pos (by simpa using h), if_pos (by simpa using h),
        List.map_cons, ih]
    · rw [if_neg (by simpa using h), if_neg (by simpa using h), ih]

theorem headD_row_length (embeddings : List TableConfig) (W : List Matrix)
    (t : Nat) (htB : t < embeddings.length)
    (hin : ∀ cfg ∈ embeddings, 1 ≤ cfg.input_dim)
    (hWrows : ∀ u, u < embeddings.length →
      (W.getD u []).length = (embeddings.getD u ⟨0, 0⟩).input_dim)
    (hWcols : ∀ u, u < embeddings.length → ∀ row ∈ W.getD u [],
      row.length = (embeddings.getD u ⟨0, 0⟩).output_dim) :
    ((W.getD t []).headD []).length =
      (embeddings.getD t ⟨0, 0⟩).output_dim := by
  have hrows := hWrows t htB
  have hWne : W.getD t [] ≠ [] := by
    intro he
    rw [he, List.length_nil] at hrows
    have := hin _ (getD_mem_of_lt embeddings t htB ⟨0, 0⟩)
    omega
  cases hw : W.getD t [] with
  | nil => exact absurd hw hWne
  | cons row rest =>
    show row.length = _
    exact hWcols t htB row (by rw [hw]; exact List.mem_cons_self _ _)

/-- C3 workhorse, full `get_weights` pass: with every rank's stored local
weights being the occurrence-indexed column blocks computed by
`set_weights`, the multi-worker `get_weights` on rank 0 reassembles exactly
the original global weight list. -/
theorem get_weights_roundtrip (embeddings : List TableConfig) (ws : Nat)
    (thr : Option Nat) (W : List Matrix) (T : List (List Nat))
    (stored : Nat → List Matrix)
    (hws2 : 2 ≤ ws) (hB1 : 1 ≤ embeddings.length)
    (hTlen : T.length = ws)
    (hTperm : T.flatten ~ (strategyPairs (embeddings.map
      (fun c => maybe_slice_table_column c thr ws))).map Prod.snd)
    (hWlen : W.length = embeddings.length)
    (hin : ∀ cfg ∈ embeddings, 1 ≤ cfg.input_dim)
    (hout : ∀ cfg ∈ embeddings,
      1 ≤ cfg.output_dim ∧ cfg.output_dim ≤ 134217728)
    (hWrows : ∀ t, t < embeddings.length →
      (W.getD t []).length = (embeddings.getD t ⟨0, 0⟩).input_dim)
    (hWcols : ∀ t, t < embeddings.length → ∀ row ∈ W.getD t [],
      row.length = (embeddings.getD t ⟨0, 0⟩).output_dim)
    (hstored : ∀ r, r < ws → stored r =
      (occEnum (T.getD r []) (fun t => ((T.take r).flatten).count t)).map
        (sliceFor W (embeddings.map
          (fun c => maybe_slice_table_column c thr ws)))) :
    get_weights ws 0 false (configsOfBuckets T (embeddings.map
      (fun c => maybe_slice_table_column c thr ws))) T
      ((List.range ws).map stored) = W := by
  have hws1 : 1 ≤ ws := by omega
  simp only [get_weights]
  rw [if_neg (by omega : ¬ ws = 1)]
  obtain ⟨NC, hNCdef⟩ : ∃ NC, (configsOfBuckets T (embeddings.map
      (fun c => maybe_slice_table_column c thr ws))).foldl
      (fun acc local_configs => max acc ((ws * (local_configs.map
        (fun c => c.input_dim * c.output_dim)).sum + 2000000000 - 1) /
        2000000000)) 1 = NC := ⟨_, rfl⟩
  have hNC1 : 1 ≤ NC := by
    rw [← hNCdef]
    exact init_le_foldl_max _ _ 1
  rw [hNCdef, gw_flats ws stored, gw_own ws NC hNC1 stored,
    gw_sizes ws NC stored, gw_chunks ws NC hNC1 stored,
    if_pos (show (false || decide True) = true from by decide),
    if_neg (gw_chunks_ne ws NC hws1 hNC1 (fun i s =>
      (split_canonical (flatWeights (stored s))
        (rankChunkSizes (flatWeights (stored s)).length NC)).getD i []))]
  have hLW : (List.range ws).map (fun j =>
      (pySlice (((List.range NC).map (fun i =>
        (List.range ws).map (fun s =>
          (split_canonical (flatWeights (stored s))
            (rankChunkSizes (flatWeights (stored s)).length NC)).getD
              i []))).flatten) j ws).flatten) =
      (List.range ws).map (fun j => flatWeights (stored j)) := by
    refine List.map_congr_left ?_
    intro j hj
    exact gw_lw ws NC hNC1 stored j (List.mem_range.mp hj)
  rw [hLW]
  have hWTS : (List.range ws).map (fun j =>
      (List.range ((configsOfBuckets T (embeddings.map
        (fun c => maybe_slice_table_column c thr ws))).getD j []).length).map
        (fun i => reshape2d
          ((split_1d (((List.range ws).map (fun j2 =>
              flatWeights (stored j2))).getD j [])
            (((configsOfBuckets T (embeddings.map
              (fun c => maybe_slice_table_column c thr ws))).getD j []).map
                (fun c => c.input_dim * c.output_dim))).getD i [])
          (((configsOfBuckets T (embeddings.map
            (fun c => maybe_slice_table_column c thr ws))).getD j []).getD i
              ⟨0, 0⟩).input_dim
          (((configsOfBuckets T (embeddings.map
            (fun c => maybe_slice_table_column c thr ws))).getD j []).getD i
              ⟨0, 0⟩).output_dim)) =
      (List.range ws).map (fun j =>
        (occEnum (T.getD j []) (fun t => ((T.take j).flatten).count t)).map
          (sliceFor W (embeddings.map
            (fun c => maybe_slice_table_column c thr ws)))) := by
    refine List.map_congr_left ?_
    intro j hj
    rw [List.mem_range] at hj
    rw [getD_range_map (fun j2 => flatWeights (stored j2)) ws j hj
      ([] : List Int), hstored j hj]
    exact gw_rank_weights embeddings ws thr W T j hj hTlen hTperm hWlen
      hws1 hin hout hWrows hWcols
  rw [hWTS, gw_weights_flatten ws T hTlen (sliceFor W (embeddings.map
    (fun c => maybe_slice_table_column c thr ws)))]
  have hzip : T.flatten.zip ((occEnum T.flatten (fun _ => 0)).map
      (sliceFor W (embeddings.map
        (fun c => maybe_slice_table_column c thr ws)))) =
      (occEnum T.flatten (fun _ => 0)).map (fun p =>
        (p.1, sliceFor W (embeddings.map
          (fun c => maybe_slice_table_column c thr ws)) p)) := by
    nth_rewrite 1 [← occEnum_fst T.flatten (fun _ => 0)]
    exact zip_map_same Prod.fst _ _
  rw [hzip, insertionSort_keyLe_grouped embeddings.length _ (by
    intro p hp
    rw [List.mem_map] at hp
    obtain ⟨q, hq, rfl⟩ := hp
    show q.1 < embeddings.length
    have h1 : q.1 ∈ T.flatten := by
      rw [← occEnum_fst T.flatten (fun _ => 0)]
      exact List.mem_map_of_mem Prod.fst hq
    have h2 := gids_mem_lt _ q.1 (hTperm.mem_iff.mp h1)
    rw [List.length_map] at h2
    exact h2)]
  have hcntB : ∀ t, t < embeddings.length → (T.flatten).count t =
      ((embeddings.map (fun c =>
        maybe_slice_table_column c thr ws)).getD t []).length := by
    intro t ht
    rw [hTperm.count_eq]
    exact gids_count _ t (by rw [List.length_map]; exact ht)
  have hgroups : (List.range embeddings.length).map (fun t =>
      ((occEnum T.flatten (fun _ => 0)).map (fun p =>
        (p.1, sliceFor W (embeddings.map
          (fun c => maybe_slice_table_column c thr ws)) p))).filter
            (fun p => p.1 = t)) =
      (List.range embeddings.length).map (fun t =>
        ((List.range (((embeddings.map (fun c =>
          maybe_slice_table_column c thr ws)).getD t []).length)).map
            (fun jj => sliceFor W (embeddings.map
              (fun c => maybe_slice_table_column c thr ws)) (t, jj))).map
                (fun w => (t, w))) := by
    refine List.map_congr_left ?_
    intro t ht
    rw [List.mem_range] at ht
    rw [filter_map_fst, occEnum_filter, ← List.range_eq_range',
      hcntB t ht, List.map_map, List.map_map]
    rfl
  rw [hgroups]
  obtain ⟨m, hm⟩ : ∃ m, embeddings.length = m + 1 :=
    ⟨embeddings.length - 1, by omega⟩
  rw [hm]
  have hne : ∀ u, u ∈ List.range' 1 m →
      (List.range (((embeddings.map (fun c =>
        maybe_slice_table_column c thr ws)).getD u []).length)).map
          (fun jj => sliceFor W (embeddings.map
            (fun c => maybe_slice_table_column c thr ws)) (u, jj)) ≠ [] := by
    intro u hu
    rw [List.mem_range'_1] at hu
    intro hnil
    have h2 := congrArg List.length hnil
    rw [List.length_map, List.length_range, List.length_nil] at h2
    have hsl : (embeddings.map (fun c =>
        maybe_slice_table_column c thr ws)).getD u [] =
        maybe_slice_table_column (embeddings.getD u ⟨0, 0⟩) thr ws :=
      getD_map_lt _ embeddings u (by omega) [] ⟨0, 0⟩
    have hS := maybe_slice_length_pos (embeddings.getD u ⟨0, 0⟩) thr ws hws1
      (hout _ (getD_mem_of_lt embeddings u (by omega) ⟨0, 0⟩)).1
    rw [hsl] at h2
    omega
  rw [groupConcat_groups (fun u => (List.range (((embeddings.map (fun c =>
    maybe_slice_table_column c thr ws)).getD u []).length)).map
      (fun jj => sliceFor W (embeddings.map
        (fun c => maybe_slice_table_column c thr ws)) (u, jj))) m hne]
  have hfinal : (List.range (m + 1)).map (fun u =>
      hconcat ((List.range (((embeddings.map (fun c =>
        maybe_slice_table_column c thr ws)).getD u []).length)).map
          (fun jj => sliceFor W (embeddings.map
            (fun c => maybe_slice_table_column c thr ws)) (u, jj)))) =
      (List.range (m + 1)).map (fun u => W.getD u []) := by
    refine List.map_congr_left ?_
    intro t ht
    rw [List.mem_range] at ht
    have htB : t < embeddings.length := by omega
    have hhead := headD_row_length embeddings W t htB hin hWrows hWcols
    have hsl : (embeddings.map (fun c =>
        maybe_slice_table_column c thr ws)).getD t [] =
        maybe_slice_table_column (embeddings.getD t ⟨0, 0⟩) thr ws :=
      getD_map_lt _ embeddings t htB [] ⟨0, 0⟩
    have hS : 1 ≤ ((embeddings.map (fun c =>
        maybe_slice_table_column c thr ws)).getD t []).length := by
      rw [hsl]
      exact maybe_slice_length_pos (embeddings.getD t ⟨0, 0⟩) thr ws hws1
        (hout _ (getD_mem_of_lt embeddings t htB ⟨0, 0⟩)).1
    have hGt : (List.range (((embeddings.map (fun c =>
        maybe_slice_table_column c thr ws)).getD t []).length)).map
          (fun jj => sliceFor W (embeddings.map
            (fun c => maybe_slice_table_column c thr ws)) (t, jj)) =
        (List.range (((embeddings.map (fun c =>
          maybe_slice_table_column c thr ws)).getD t []).length)).map
            (fun jj => tableSlice (W.getD t [])
              ((W.getD t []).headD []).length
              (((embeddings.map (fun c =>
                maybe_slice_table_column c thr ws)).getD t []).length)
              jj) := rfl
    rw [hGt, hhead]
    exact tableSlice_hconcat (W.getD t []) _ _ hS (hWcols t htB)
  rw [hfinal, show m + 1 = W.length from by omega]
  exact map_getD_range [] W

/-- C3 counterexample: a single table of shape `1 × (2^27 + 1)` on one
worker defeats the round trip — the chunked assignment in `set_weights`
computes `chunk_size_dim0 = chunk // weight.shape[1] = 0` and
`math.ceil(rows / 0)` raises `ZeroDivisionError`, so `set_weights` never
completes and `get_weights` cannot return `W`. -/
theorem c3_roundtrip_counterexample :
    ∃ plan, mkStrategy [⟨1, 134217729⟩] 1 0 "basic" none none = .ok plan ∧
      set_weights plan.table_ids_list 1 0 (shapesOf plan.local_configs)
        [[List.replicate 134217729 (0 : Int)]] 134217728 =
        .error .zeroDivisionError := by
  refine ⟨⟨[⟨1, 134217729⟩], [[0]], [[0]], [], [], [], [], [],
    [⟨1, 134217729⟩], [0]⟩, ?_, ?_⟩
  · simp only [mkStrategy]
    rw [if_pos trivial]
    rfl
  show set_weights [[0]] 1 0 (shapesOf [⟨1, 134217729⟩])
    [[List.replicate 134217729 (0 : Int)]] 134217728 =
    .error .zeroDivisionError
  simp only [set_weights]
  rw [if_neg (by omega : ¬ (1 : Nat) < 1)]
  show assignAll 134217728
    ((shapesOf [⟨1, 134217729⟩]).zip [[List.replicate 134217729 (0 : Int)]]) =
    .error .zeroDivisionError
  show (do
    let w ← assign_chunked 1 134217729 [List.replicate 134217729 (0 : Int)]
      134217728
    let ws2 ← assignAll 134217728 []
    Except.ok (w :: ws2)) = .error .zeroDivisionError
  have hbig : ¬ ([List.replicate 134217729 (0 : Int)].length *
      ([List.replicate 134217729 (0 : Int)].headD []).length ≤ 134217728) := by
    rw [List.length_singleton,
      show [List.replicate 134217729 (0 : Int)].headD [] =
        List.replicate 134217729 (0 : Int) from rfl,
      List.length_replicate, Nat.one_mul]
    omega
  have hac : assign_chunked 1 134217729 [List.replicate 134217729 (0 : Int)]
      134217728 = .error .zeroDivisionError := by
    unfold assign_chunked
    rw [if_neg hbig, if_pos (Nat.div_eq_of_lt (by omega))]
  rw [hac]
  rfl

/-- C3 (amended): with positive table dims, every `output_dim` at most the
`2^27`-element chunk (so the chunked assignment keeps a positive row
count), and at least as many tables as workers (the constructor guard),
`set_weights(W)` on every rank followed by `get_weights()` on rank 0
returns `W` bit-identically — one matrix per global table in original
table order, column slices re-concatenated — for world_size in {1, 2, 4}
and all three strategies. -/
theorem c3_set_get_roundtrip (embeddings : List TableConfig) (ws : Nat)
    (mode : String) (thr : Option Nat) (W : List Matrix)
    (plans : Nat → DistStrategy) (stored : Nat → List Matrix)
    (hws : ws = 1 ∨ ws = 2 ∨ ws = 4)
    (hmode : mode = "basic" ∨ mode = "memory_balanced" ∨
      mode = "memory_optimized")
    (hBws : ws ≤ embeddings.length)
    (hplans : ∀ r, r < ws →
      mkStrategy embeddings ws r mode none thr = .ok (plans r))
    (hWlen : W.length = embeddings.length)
    (hin : ∀ cfg ∈ embeddings, 1 ≤ cfg.input_dim)
    (hout : ∀ cfg ∈ embeddings,
      1 ≤ cfg.output_dim ∧ cfg.output_dim ≤ 134217728)
    (hWrows : ∀ t, t < embeddings.length →
      (W.getD t []).length = (embeddings.getD t ⟨0, 0⟩).input_dim)
    (hWcols : ∀ t, t < embeddings.length → ∀ row ∈ W.getD t [],
      row.length = (embeddings.getD t ⟨0, 0⟩).output_dim)
    (hstored : ∀ r, r < ws →
      set_weights (plans r).table_ids_list ws r
        (shapesOf (plans r).local_configs) W 134217728 = .ok (stored r)) :
    get_weights ws 0 false (plans 0).local_configs_list
      (plans 0).table_ids_list ((List.range ws).map stored) = W := by
  have hws1 : 1 ≤ ws := by omega
  by_cases hws1eq : ws = 1
  · subst hws1eq
    have hp0 := hplans 0 (by omega)
    simp only [mkStrategy] at hp0
    rw [if_pos trivial] at hp0
    injection hp0 with h
    have hlc : (plans 0).local_configs = embeddings := by rw [← h]
    have hlcl : (plans 0).local_configs_list = [] := by rw [← h]
    have hstored0 := hstored 0 (by omega)
    rw [hlc] at hstored0
    have hsw : set_weights (plans 0).table_ids_list 1 0
        (shapesOf embeddings) W 134217728 = .ok W := by
      simp only [set_weights]
      rw [if_neg (by omega : ¬ (1 : Nat) < 1)]
      have hshl : (shapesOf embeddings).length = embeddings.length :=
        List.length_map _ _
      rw [assignAll_eq 134217728 _ (by
        intro q hq
        rw [List.mem_iff_getElem] at hq
        obtain ⟨i, hi, hqe⟩ := hq
        rw [List.length_zip, hshl] at hi
        have hiB : i < embeddings.length := by omega
        have hib2 : i < (shapesOf embeddings).length := by
          rw [hshl]
          exact hiB
        have hsh : (shapesOf embeddings).getD i (0, 0) =
            ((embeddings.getD i ⟨0, 0⟩).input_dim,
              (embeddings.getD i ⟨0, 0⟩).output_dim) :=
          getD_map_lt _ embeddings i hiB (0, 0) ⟨0, 0⟩
        rw [List.getElem_zip,
          ← List.getD_eq_getElem (shapesOf embeddings) (0, 0) hib2,
          ← List.getD_eq_getElem W [] (by omega), hsh] at hqe
        rw [← hqe]
        refine ⟨hWrows i hiB, hWcols i hiB, (hout _
          (getD_mem_of_lt embeddings i hiB ⟨0, 0⟩)).2⟩)]
      rw [List.map_snd_zip _ _ (by
        rw [hshl]
        omega)]
    rw [hsw] at hstored0
    injection hstored0 with h2
    simp only [get_weights]
    rw [if_pos trivial, getD_range_map stored 1 0 (by omega) [], ← h2]
  · have hws2 : 2 ≤ ws := by omega
    obtain ⟨T, hT, hTlen, hTperm⟩ := apply_partition mode ws
      (embeddings.map (fun c => maybe_slice_table_column c thr ws))
      hmode hws1
    have hfields : ∀ r, r < ws → (plans r).table_ids_list = T ∧
        (plans r).local_configs_list = configsOfBuckets T (embeddings.map
          (fun c => maybe_slice_table_column c thr ws)) ∧
        (plans r).local_configs = (configsOfBuckets T (embeddings.map
          (fun c => maybe_slice_table_column c thr ws))).getD r [] := by
      intro r hr
      have hp := hplans r hr
      simp only [mkStrategy, create_sliced_configs, Option.getD] at hp
      rw [if_neg hws1eq, hT] at hp
      simp only [Except.map] at hp
      injection hp with h
      refine ⟨by rw [← h], ?_, ?_⟩
      · rw [← h]
        show (buildPlanLoop _ T _).1 = _
        exact buildPlanLoop_configs _ T _
      · rw [← h]
        show (buildPlanLoop _ T _).1.getD r [] = _
        rw [buildPlanLoop_configs _ T _]
    have hstored2 : ∀ r, r < ws → stored r =
        (occEnum (T.getD r []) (fun t => ((T.take r).flatten).count t)).map
          (sliceFor W (embeddings.map
            (fun c => maybe_slice_table_column c thr ws))) := by
      intro r hr
      have h1 := hstored r hr
      rw [(hfields r hr).1, (hfields r hr).2.2,
        set_weights_rank embeddings ws thr W T r hws2 hr hTlen hTperm
          hWlen hin hout hWrows hWcols] at h1
      injection h1 with h2
      exact h2.symm
    rw [(hfields 0 (by omega)).1, (hfields 0 (by omega)).2.1]
    exact get_weights_roundtrip embeddings ws thr W T stored hws2
      (by omega) hTlen hTperm hWlen hin hout hWrows hWcols hstored2

/-- Closed instance of `c3_set_get_roundtrip`: two unsliced tables on two
workers under the `basic` strategy; setting then getting the weights
returns them unchanged. -/
theorem c3_set_get_roundtrip_witness :
    get_weights 2 0 false [[⟨2, 3⟩], [⟨1, 2⟩]] [[0], [1]]
      ((List.range 2).map (fun r =>
        if r = 0 then [[[1, 2, 3], [4, 5, 6]]] else [[[7, 8]]])) =
      [[[1, 2, 3], [4, 5, 6]], [[7, 8]]] :=
  c3_set_get_roundtrip [⟨2, 3⟩, ⟨1, 2⟩] 2 "basic" none
    [[[1, 2, 3], [4, 5, 6]], [[7, 8]]]
    (fun r => ⟨[⟨2, 3⟩, ⟨1, 2⟩], [[0], [1]], [[0], [1]], [[0], [0]],
      [[⟨2, 3⟩], [⟨1, 2⟩]], [3, 2], [0, 1], [],
      if r = 0 then [⟨2, 3⟩] else [⟨1, 2⟩], [0]⟩)
    (fun r => if r = 0 then [[[1, 2, 3], [4, 5, 6]]] else [[[7, 8]]])
    (Or.inr (Or.inl rfl)) (Or.inl rfl) (by decide)
    (fun r hr => match r, hr with
      | 0, _ => rfl
      | 1, _ => rfl
      | n + 2, h => absurd (show n + 2 < 2 from h) (by omega))
    rfl
    (by decide)
    (by decide)
    (fun t ht => match t, ht with
      | 0, _ => rfl
      | 1, _ => rfl
      | n + 2, h => absurd (show n + 2 < 2 from h) (by omega))
    (fun t ht => match t, ht with
      | 0, _ => by decide
      | 1, _ => by decide
      | n + 2, h => absurd (show n + 2 < 2 from h) (by omega))
    (fun r hr => match r, hr with
      | 0, _ => rfl
      | 1, _ => rfl
      | n + 2, h => absurd (show n + 2 < 2 from h) (by omega))

theorem flatten_getD_block (b : Nat) :
    ∀ (L : List (List α)) (m : Nat), (∀ l ∈ L, l.length = b) → m < L.length →
      pyRange L.flatten (m * b) (m * b + b) = L.getD m [] := by
  intro L
  induction L with
  | nil =>
    intro m _ hm
    rw [List.length_nil] at hm
    omega
  | cons l rest ih =>
    intro m hlen hm
    have hb : l.length = b := hlen l (List.mem_cons_self _ _)
    cases m with
    | zero =>
      rw [Nat.zero_mul, Nat.zero_add, List.flatten_cons, List.getD_cons_zero,
        pyRange_zero_left, List.take_left' hb]
    | succ m =>
      rw [List.flatten_cons, List.getD_cons_succ,
        show (m + 1) * b = b + m * b from by ring,
        show b + m * b + b = b + (m * b + b) from by ring,
        show b + (m * b + b) = b + (m * b + b) from rfl]
      have hd := pyRange_drop (l ++ rest.flatten) (m * b) (m * b + b) b
      rw [List.drop_left' hb] at hd
      rw [hd]
      refine ih m (fun q hq => hlen q (List.mem_cons_of_mem _ hq)) ?_
      rw [List.length_cons] at hm
      omega

theorem zip_flatten_aligned :
    ∀ (A : List (List α)) (B : List (List β)),
      List.Forall₂ (fun a b => (a : List α).length = (b : List β).length) A B →
      A.flatten.zip B.flatten = (List.zipWith List.zip A B).flatten := by
  intro A B h
  induction h with
  | nil => rfl
  | cons hab _ ih =>
    rename_i a b A' B' _
    rw [List.flatten_cons, List.flatten_cons, List.zipWith_cons_cons,
      List.flatten_cons, ← ih, List.zip_append hab]

theorem flatten_map_ite (p : α → Bool) (f : α → β) :
    ∀ l : List α,
      (l.map (fun x => if p x then [f x] else [])).flatten =
        (l.filter p).map f := by
  intro l
  induction l with
  | nil => rfl
  | cons x rest ih =>
    rw [List.map_cons, List.flatten_cons, List.filter_cons]
    by_cases hx : p x
    · rw [if_pos hx, if_pos hx, List.map_cons, List.singleton_append, ih]
    · rw [if_neg hx, if_neg hx, List.nil_append, ih]

theorem filter_eq_singleton_of_nodup (k : Nat) :
    ∀ l : List Nat, l.Nodup →
      l.filter (fun x => x = k) = if k ∈ l then [k] else [] := by
  intro l
  induction l with
  | nil => intro _; rfl
  | cons x rest ih =>
    intro hnd
    rw [List.nodup_cons] at hnd
    rw [List.filter_cons]
    by_cases hx : x = k
    · subst hx
      rw [if_pos (by simp), ih hnd.2, if_neg hnd.1,
        if_pos (List.mem_cons_self _ _)]
    · rw [if_neg (by simp [hx]), ih hnd.2]
      by_cases hk : k ∈ rest
      · rw [if_pos hk, if_pos (List.mem_cons_of_mem _ hk)]
      · rw [if_neg hk, if_neg (by
          intro hmem
          rcases List.mem_cons.mp hmem with h | h
          · exact hx h.symm
          · exact hk h)]

theorem filter_zipidx_map (P : α → Bool) (d : β) :
    ∀ (a : List α) (b : List β) (s : Nat), a.length + s ≤ b.length →
      ((a.zip (List.range' s a.length)).filter (fun p => P p.1)).map
          (fun p => b.getD p.2 d) =
        ((a.zip (b.drop s)).filter (fun p => P p.1)).map Prod.snd := by
  intro a
  induction a with
  | nil => intro b s _; rfl
  | cons x rest ih =>
    intro b s hlen
    rw [List.length_cons] at hlen
    have hs : s < b.length := by omega
    rw [List.length_cons, List.range'_succ, List.zip_cons_cons,
      List.drop_eq_getElem_cons hs, List.zip_cons_cons, List.filter_cons,
      List.filter_cons]
    have ihs := ih b (s + 1) (by omega)
    by_cases hx : P x
    · rw [if_pos hx, if_pos hx, List.map_cons, List.map_cons, ihs]
      congr 1
      exact List.getD_eq_getElem b d hs
    · rw [if_neg hx, if_neg hx, ihs]

theorem forall₂_range_map {β : Type} {R : Nat → β → Prop} :
    ∀ (l : List Nat) (g : Nat → β),
      (∀ i, i < l.length → R (l.getD i 0) (g i)) →
      List.Forall₂ R l ((List.range l.length).map g) := by
  intro l
  induction l with
  | nil => intro g _; exact List.Forall₂.nil
  | cons x rest ih =>
    intro g h
    rw [List.length_cons, List.range_succ_eq_map, List.map_cons, List.map_map]
    exact List.Forall₂.cons (h 0 (by rw [List.length_cons]; omega))
      (ih (g ∘ Nat.succ) (fun i hi => h (i + 1) (by rw [List.length_cons]; omega)))

theorem forall₂_map_same {β γ : Type} {R : β → γ → Prop} (f : α → β)
    (g : α → γ) : ∀ l : List α, (∀ x ∈ l, R (f x) (g x)) →
      List.Forall₂ R (l.map f) (l.map g) := by
  intro l
  induction l with
  | nil => intro _; exact List.Forall₂.nil
  | cons x rest ih =>
    intro h
    exact List.Forall₂.cons (h x (List.mem_cons_self _ _))
      (ih (fun q hq => h q (List.mem_cons_of_mem _ hq)))

theorem forall₂_append {β : Type} {R : α → β → Prop} :
    ∀ {l1 : List α} {l1' : List β}, List.Forall₂ R l1 l1' →
      ∀ {l2 : List α} {l2' : List β}, List.Forall₂ R l2 l2' →
      List.Forall₂ R (l1 ++ l2) (l1' ++ l2') := by
  intro l1 l1' h
  induction h with
  | nil => intro l2 l2' h2; exact h2
  | cons hab _ ih =>
    intro l2 l2' h2
    exact List.Forall₂.cons hab (ih h2)

theorem forall₂_flatten {β : Type} {R : α → β → Prop} :
    ∀ {A : List (List α)} {B : List (List β)},
      List.Forall₂ (List.Forall₂ R) A B →
      List.Forall₂ R A.flatten B.flatten := by
  intro A B h
  induction h with
  | nil => exact List.Forall₂.nil
  | cons hab _ ih =>
    rw [List.flatten_cons, List.flatten_cons]
    exact forall₂_append hab ih

theorem filter_flatten (p : α → Bool) :
    ∀ L : List (List α), L.flatten.filter p = (L.map (·.filter p)).flatten := by
  intro L
  induction L with
  | nil => rfl
  | cons l rest ih =>
    rw [List.flatten_cons, List.filter_append, List.map_cons,
      List.flatten_cons, ih]

theorem hitsOf_eq_from (itm : List Nat) (t : Nat) :
    hitsOf itm t = hitsOfFrom 0 itm t := rfl

theorem hitsOfFrom_mem (t : Nat) :
    ∀ (itm : List Nat) (s k : Nat),
      k ∈ hitsOfFrom s itm t ↔
        s ≤ k ∧ k - s < itm.length ∧ itm.getD (k - s) 0 = t := by
  intro itm
  induction itm with
  | nil =>
    intro s k
    show k ∈ ([] : List Nat) ↔ _
    rw [List.length_nil]
    simp only [List.not_mem_nil, false_iff]
    omega
  | cons x rest ih =>
    intro s k
    show k ∈ ((((s, x) :: List.enumFrom (s + 1) rest).filter
      (fun p => p.2 = t)).map Prod.fst) ↔ _
    rw [List.filter_cons]
    by_cases hx : x = t
    · rw [if_pos (by simpa using hx), List.map_cons, List.mem_cons]
      have ihs := ih (s + 1) k
      rw [show hitsOfFrom (s + 1) rest t =
        ((List.enumFrom (s + 1) rest).filter (fun p => p.2 = t)).map
          Prod.fst from rfl] at ihs
      rw [ihs, List.length_cons]
      constructor
      · rintro (rfl | ⟨h1, h2, h3⟩)
        · refine ⟨le_rfl, by omega, ?_⟩
          rw [Nat.sub_self, List.getD_cons_zero]
          exact hx
        · refine ⟨by omega, by omega, ?_⟩
          rw [show k - s = (k - (s + 1)) + 1 from by omega,
            List.getD_cons_succ]
          exact h3
      · rintro ⟨h1, h2, h3⟩
        by_cases hks : k = s
        · exact Or.inl hks
        · refine Or.inr ⟨by omega, by omega, ?_⟩
          rw [show k - s = (k - (s + 1)) + 1 from by omega,
            List.getD_cons_succ] at h3
          exact h3
    · rw [if_neg (by simpa using hx)]
      have ihs := ih (s + 1) k
      rw [show hitsOfFrom (s + 1) rest t =
        ((List.enumFrom (s + 1) rest).filter (fun p => p.2 = t)).map
          Prod.fst from rfl] at ihs
      rw [ihs, List.length_cons]
      constructor
      · rintro ⟨h1, h2, h3⟩
        refine ⟨by omega, by omega, ?_⟩
        rw [show k - s = (k - (s + 1)) + 1 from by omega,
          List.getD_cons_succ]
        exact h3
      · rintro ⟨h1, h2, h3⟩
        have hks : k ≠ s := by
          intro h
          subst h
          rw [Nat.sub_self, List.getD_cons_zero] at h3
          exact hx h3
        refine ⟨by omega, by omega, ?_⟩
        rw [show k - s = (k - (s + 1)) + 1 from by omega,
          List.getD_cons_succ] at h3
        exact h3

theorem hitsOf_mem (itm : List Nat) (t k : Nat) :
    k ∈ hitsOf itm t ↔ k < itm.length ∧ itm.getD k 0 = t := by
  rw [hitsOf_eq_from, hitsOfFrom_mem]
  simp only [Nat.sub_zero]
  exact ⟨fun h => ⟨h.2.1, h.2.2⟩, fun h => ⟨Nat.zero_le k, h.1, h.2⟩⟩

theorem hitsOf_nodup (itm : List Nat) (t : Nat) : (hitsOf itm t).Nodup := by
  have hsub : hitsOf itm t <+ itm.enum.map Prod.fst :=
    List.Sublist.map Prod.fst (List.filter_sublist _)
  have hr : itm.enum.map Prod.fst = List.range itm.length := by
    rw [List.enum_map_fst]
  rw [hr] at hsub
  exact hsub.nodup (List.nodup_range _)

theorem hitsOf_filter (itm : List Nat) (t k : Nat) :
    (hitsOf itm t).filter (fun x => x = k) =
      if k < itm.length ∧ itm.getD k 0 = t then [k] else [] := by
  rw [filter_eq_singleton_of_nodup k _ (hitsOf_nodup itm t)]
  by_cases h : k ∈ hitsOf itm t
  · rw [if_pos h, if_pos ((hitsOf_mem itm t k).mp h)]
  · rw [if_neg h, if_neg (fun h2 => h ((hitsOf_mem itm t k).mpr h2))]

theorem buildRank_inputs (itm : List Nat) :
    ∀ (ids : List Nat) (m : Nat) (rem : List (List TableConfig)),
      (buildRank itm ids m rem).2.2.1 =
        (ids.map (fun t => hitsOf itm t)).flatten := by
  intro ids
  induction ids with
  | nil => intro m rem; rfl
  | cons tid rest ih =>
    intro m rem
    show (hitsOf itm tid) ++ (buildRank itm rest (m + 1) _).2.2.1 = _
    rw [ih, List.map_cons, List.flatten_cons]

theorem buildRank_map (itm : List Nat) :
    ∀ (ids : List Nat) (m : Nat) (rem : List (List TableConfig)),
      (buildRank itm ids m rem).2.2.2.1 =
        ((ids.zip (List.range' m ids.length)).map (fun p =>
          (hitsOf itm p.1).map (fun _ => p.2))).flatten := by
  intro ids
  induction ids with
  | nil => intro m rem; rfl
  | cons tid rest ih =>
    intro m rem
    show ((itm.enum.filter (fun p => p.2 = tid)).map (fun _ => m)) ++
      (buildRank itm rest (m + 1) _).2.2.2.1 = _
    rw [ih, List.length_cons, List.range'_succ, List.zip_cons_cons,
      List.map_cons, List.flatten_cons]
    congr 1
    show (itm.enum.filter (fun p => p.2 = tid)).map (fun _ => m) =
      (hitsOf itm tid).map (fun _ => m)
    rw [show hitsOf itm tid = (itm.enum.filter (fun p => p.2 = tid)).map
      Prod.fst from rfl, List.map_map]
    rfl

theorem buildRank_widths (itm : List Nat) :
    ∀ (ids : List Nat) (m : Nat) (rem : List (List TableConfig)),
      (buildRank itm ids m rem).2.1 =
        ((ids.zip (popSeq ids rem)).map (fun p =>
          (hitsOf itm p.1).map (fun _ => p.2.output_dim))).flatten := by
  intro ids
  induction ids with
  | nil => intro m rem; rfl
  | cons tid rest ih =>
    intro m rem
    show ((itm.enum.filter (fun p => p.2 = tid)).map
        (fun _ => ((rem.getD tid []).headD ⟨0, 0⟩).output_dim)) ++
      (buildRank itm rest (m + 1) _).2.1 = _
    rw [ih,
      show popSeq (tid :: rest) rem = (rem.getD tid []).headD ⟨0, 0⟩ ::
        popSeq rest (rem.set tid (rem.getD tid []).tail) from rfl,
      List.zip_cons_cons, List.map_cons, List.flatten_cons]
    congr 1
    show (itm.enum.filter (fun p => p.2 = tid)).map
        (fun _ => ((rem.getD tid []).headD ⟨0, 0⟩).output_dim) =
      (hitsOf itm tid).map
        (fun _ => ((rem.getD tid []).headD ⟨0, 0⟩).output_dim)
    rw [show hitsOf itm tid = (itm.enum.filter (fun p => p.2 = tid)).map
      Prod.fst from rfl, List.map_map]
    rfl

theorem buildPlanLoop_inputs (itm : List Nat) :
    ∀ (T : List (List Nat)) (rem : List (List TableConfig)),
      (buildPlanLoop itm T rem).2.2.1 =
        T.map (fun ids => (ids.map (fun t => hitsOf itm t)).flatten) := by
  intro T
  induction T with
  | nil => intro rem; rfl
  | cons b2 rest ih =>
    intro rem
    show (buildRank itm b2 0 rem).2.2.1 ::
      (buildPlanLoop itm rest (buildRank itm b2 0 rem).2.2.2.2).2.2.1 = _
    rw [buildRank_inputs, (buildRank_eq itm b2 0 rem).2, ih, List.map_cons]

theorem buildPlanLoop_map (itm : List Nat) :
    ∀ (T : List (List Nat)) (rem : List (List TableConfig)),
      (buildPlanLoop itm T rem).2.2.2 =
        T.map (fun ids => ((ids.zip (List.range' 0 ids.length)).map (fun p =>
          (hitsOf itm p.1).map (fun _ => p.2))).flatten) := by
  intro T
  induction T with
  | nil => intro rem; rfl
  | cons b2 rest ih =>
    intro rem
    show (buildRank itm b2 0 rem).2.2.2.1 ::
      (buildPlanLoop itm rest (buildRank itm b2 0 rem).2.2.2.2).2.2.2 = _
    rw [buildRank_map, (buildRank_eq itm b2 0 rem).2, ih, List.map_cons]

theorem buildPlanLoop_widths (itm : List Nat) :
    ∀ (T : List (List Nat)) (rem : List (List TableConfig)),
      (buildPlanLoop itm T rem).2.1 =
        ((T.zip (configsOfBuckets T rem)).map (fun q =>
          ((q.1.zip q.2).map (fun p =>
            (hitsOf itm p.1).map (fun _ => p.2.output_dim))).flatten)).flatten
        := by
  intro T
  induction T with
  | nil => intro rem; rfl
  | cons b2 rest ih =>
    intro rem
    show (buildRank itm b2 0 rem).2.1 ++
      (buildPlanLoop itm rest (buildRank itm b2 0 rem).2.2.2.2).2.1 = _
    rw [buildRank_widths, (buildRank_eq itm b2 0 rem).2, ih,
      show configsOfBuckets (b2 :: rest) rem =
        popSeq b2 rem :: configsOfBuckets rest (popRem b2 rem) from rfl,
      List.zip_cons_cons, List.map_cons, List.flatten_cons]

theorem hconcat_rows (ws : Nat) :
    ∀ Ms : List Matrix, Ms ≠ [] → (∀ M ∈ Ms, M.length = ws) →
      hconcat Ms = (List.range ws).map (fun w =>
        (Ms.map (fun M => M.getD w [])).flatten) := by
  intro Ms
  induction Ms with
  | nil => intro h _; exact absurd rfl h
  | cons M rest ih =>
    intro _ hlen
    have hM : M.length = ws := hlen M (List.mem_cons_self _ _)
    cases rest with
    | nil =>
      show M = _
      simp only [List.map_cons, List.map_nil, List.flatten_cons,
        List.flatten_nil, List.append_nil]
      rw [← hM]
      exact (map_getD_range [] M).symm
    | cons M2 rest2 =>
      show List.zipWith (fun r1 r2 => r1 ++ r2) M (hconcat (M2 :: rest2)) = _
      rw [ih (by simp) (fun q hq => hlen q (List.mem_cons_of_mem _ hq))]
      nth_rewrite 1 [← map_getD_range ([] : List Int) M]
      rw [hM, zipWith_map_same]
      refine List.map_congr_left ?_
      intro w _
      rw [List.map_cons, List.flatten_cons]
      rfl

theorem getD_map_nil (f : List α → List β) (hf : f [] = []) :
    ∀ (l : List (List α)) (i : Nat), (l.map f).getD i [] = f (l.getD i []) := by
  intro l i
  by_cases hi : i < l.length
  · exact getD_map_lt f l i hi [] []
  · rw [List.getD_eq_default _ _ (by rw [List.length_map]; omega),
      List.getD_eq_default _ _ (by omega), hf]

theorem gatherRows_flatten (tbl : Matrix) :
    ∀ ls : List (List Nat),
      gatherRows tbl ls.flatten = (ls.map (gatherRows tbl)).flatten := by
  intro ls
  show ls.flatten.map _ = _
  rw [List.map_flatten]
  rfl

theorem gather_tableSlice_comm (Wt : Matrix) (out S j : Nat)
    (ids : List Nat) :
    gatherRows (tableSlice Wt out S j) ids =
      tableSlice (gatherRows Wt ids) out S j := by
  show ids.map _ = (ids.map _).map _
  rw [List.map_map]
  refine List.map_congr_left ?_
  intro x _
  show (Wt.map _).getD x [] = _
  rw [getD_map_nil _ (by simp [pyRange]) Wt x]
  rfl

theorem zip_range_pairwise_snd (l : List Nat) :
    (l.zip (List.range l.length)).Pairwise (fun p q => p.2 < q.2) := by
  rw [List.pairwise_iff_getElem]
  intro i j hi hj hij
  rw [List.getElem_zip, List.getElem_zip]
  simp only [List.getElem_range]
  exact hij

theorem pairLe_sort_grouped (K : Nat) (l : List (Nat × Nat))
    (hK : ∀ p ∈ l, p.1 < K) (hsnd : l.Pairwise (fun p q => p.2 < q.2)) :
    List.insertionSort pairLe l =
      ((List.range K).map (fun t => l.filter (fun p => p.1 = t))).flatten := by
  have hperm : List.insertionSort pairLe l ~
      ((List.range K).map (fun t => l.filter (fun p => p.1 = t))).flatten := by
    refine (List.perm_insertionSort pairLe l).trans ?_
    rw [← insertionSort_keyLe_grouped K l hK]
    exact (List.perm_insertionSort keyLe l).symm
  have hs1 : (List.insertionSort pairLe l).Sorted pairLe :=
    List.sorted_insertionSort pairLe l
  have hs2 : (((List.range K).map (fun t =>
      l.filter (fun p => p.1 = t))).flatten).Sorted pairLe := by
    show List.Pairwise pairLe _
    rw [List.pairwise_flatten]
    constructor
    · intro g hg
      rw [List.mem_map] at hg
      obtain ⟨t, _, rfl⟩ := hg
      refine List.Pairwise.imp_of_mem ?_ (List.Pairwise.filter _ hsnd)
      intro p q hp hq hpq
      have hp1 : p.1 = t := by
        have := (List.mem_filter.mp hp).2
        simpa using this
      have hq1 : q.1 = t := by
        have := (List.mem_filter.mp hq).2
        simpa using this
      exact Or.inr ⟨by rw [hp1, hq1], by omega⟩
    · rw [List.pairwise_map]
      refine List.Pairwise.imp ?_ (List.pairwise_lt_range K)
      intro t1 t2 ht x hx y hy
      have hx1 : x.1 = t1 := by
        have := (List.mem_filter.mp hx).2
        simpa using this
      have hy1 : y.1 = t2 := by
        have := (List.mem_filter.mp hy).2
        simpa using this
      exact Or.inl (by omega)
  exact List.eq_of_perm_of_sorted hperm hs1 hs2

theorem reshard_eval (ws ρ b n : Nat) (li : List Nat)
    (IIL : List (List Nat)) (X : Nat → Nat → List Nat)
    (hIIL : IIL.getD ρ [] = li) (hws : 1 ≤ ws) (hρ : ρ < ws)
    (hli : ∀ i ∈ li, i < n)
    (hXlen : ∀ w i, w < ws → i < n → (X w i).length = b) :
    reshard ws IIL X ρ = li.map (fun k =>
      ((List.range ws).map (fun w => X w k)).flatten) := by
  simp only [reshard, hIIL]
  have hseglen : ∀ w, w < ws →
      ((li.map (fun index => X w index)).flatten).length = li.length * b := by
    intro w hw
    rw [List.length_flatten, List.map_map, list_sum_const _ b (by
      intro x hx
      rw [List.mem_map] at hx
      obtain ⟨i, hi, rfl⟩ := hx
      exact hXlen w i hw (hli i hi)), List.length_map]
  have hc : ((((List.range ws).map (fun w =>
        (li.map (fun index => X w index)).flatten)).flatten).length) / ws =
      li.length * b := by
    rw [List.length_flatten, List.map_map, list_sum_const _ (li.length * b)
      (by
        intro x hx
        rw [List.mem_map] at hx
        obtain ⟨w, hw, rfl⟩ := hx
        rw [List.mem_range] at hw
        exact hseglen w hw), List.length_map, List.length_range]
    exact Nat.mul_div_cancel_left _ (by omega)
  rw [hc]
  have hmat : reshape2d (((List.range ws).map (fun w =>
        (li.map (fun index => X w index)).flatten)).flatten) ws
        (li.length * b) =
      (List.range ws).map (fun w =>
        (li.map (fun index => X w index)).flatten) := by
    unfold reshape2d
    have hstep : ∀ w ∈ List.range ws,
        pyRange (((List.range ws).map (fun w2 =>
            (li.map (fun index => X w2 index)).flatten)).flatten)
          (w * (li.length * b)) ((w + 1) * (li.length * b)) =
        (li.map (fun index => X w index)).flatten := by
      intro w hw
      rw [List.mem_range] at hw
      rw [show (w + 1) * (li.length * b) =
          w * (li.length * b) + li.length * b from by ring,
        flatten_getD_block (li.length * b) _ w (by
          intro q hq
          rw [List.mem_map] at hq
          obtain ⟨w2, hw2, rfl⟩ := hq
          rw [List.mem_range] at hw2
          exact hseglen w2 hw2) (by
            rw [List.length_map, List.length_range]
            exact hw)]
      exact getD_range_map _ ws w hw []
    exact List.map_congr_left hstep
  rw [hmat]
  have hslen : (li.map (fun index => (X ρ index).length)).length =
      li.length := List.length_map _ _
  rw [hslen]
  have hentry : ∀ m ∈ List.range li.length,
      (((List.range ws).map (fun w =>
          (li.map (fun index => X w index)).flatten)).map (fun row =>
        pyRange row
          (((li.map (fun index => (X ρ index).length)).take m).sum)
          (((li.map (fun index => (X ρ index).length)).take m).sum +
            (li.map (fun index => (X ρ index).length)).getD m 0))).flatten =
      ((List.range ws).map (fun w => X w (li.getD m 0))).flatten := by
    intro m hm
    rw [List.mem_range] at hm
    have hsum : ((li.map (fun index => (X ρ index).length)).take m).sum =
        m * b := by
      rw [← List.map_take, list_sum_const _ b (by
        intro x hx
        rw [List.mem_map] at hx
        obtain ⟨i, hi, rfl⟩ := hx
        exact hXlen ρ i hρ (hli i (List.take_subset m li hi))),
        List.length_map, List.length_take]
      congr 1
      omega
    have hget : (li.map (fun index => (X ρ index).length)).getD m 0 = b := by
      rw [getD_map_lt _ li m hm 0 0]
      exact hXlen ρ _ hρ (hli _ (getD_mem_of_lt li m hm 0))
    rw [hsum, hget, List.map_map]
    congr 1
    refine List.map_congr_left ?_
    intro w hw
    rw [List.mem_range] at hw
    show pyRange ((li.map (fun index => X w index)).flatten) (m * b)
      (m * b + b) = X w (li.getD m 0)
    rw [flatten_getD_block b _ m (by
        intro q hq
        rw [List.mem_map] at hq
        obtain ⟨i, hi, rfl⟩ := hq
        exact hXlen w i hw (hli i hi)) (by
          rw [List.length_map]
          exact hm)]
    exact getD_map_lt _ li m hm [] 0
  rw [List.map_congr_left hentry]
  conv_rhs => rw [← map_getD_range 0 li]
  rw [List.map_map]
  rfl

theorem forall₂_mem_left {β : Type} {R : α → β → Prop} :
    ∀ {l1 : List α} {l2 : List β}, List.Forall₂ R l1 l2 → ∀ a ∈ l1,
      ∃ b ∈ l2, R a b := by
  intro l1 l2 h
  induction h with
  | nil => intro a ha; exact absurd ha (List.not_mem_nil a)
  | cons hab _ ih =>
    intro a ha
    rcases List.mem_cons.mp ha with rfl | ha2
    · exact ⟨_, List.mem_cons_self _ _, hab⟩
    · obtain ⟨b2, hb2, hr⟩ := ih a ha2
      exact ⟨b2, List.mem_cons_of_mem _ hb2, hr⟩

theorem map_eq_of_forall₂ {γ : Type} {f : α → γ} :
    ∀ {l1 : List α} {l2 : List γ}, List.Forall₂ (fun a c => f a = c) l1 l2 →
      l1.map f = l2 := by
  intro l1 l2 h
  induction h with
  | nil => rfl
  | cons hab _ ih => rw [List.map_cons, hab, ih]

theorem forall₂_and_left {β : Type} {R : α → β → Prop} {P : α → Prop} :
    ∀ {l1 : List α} {l2 : List β}, List.Forall₂ R l1 l2 →
      (∀ a ∈ l1, P a) →
      List.Forall₂ (fun a b => P a ∧ R a b) l1 l2 := by
  intro l1 l2 h
  induction h with
  | nil => intro _; exact List.Forall₂.nil
  | cons hab _ ih =>
    intro hp
    exact List.Forall₂.cons ⟨hp _ (List.mem_cons_self _ _), hab⟩
      (ih (fun a ha => hp a (List.mem_cons_of_mem _ ha)))

theorem send_chunk_eval (ws r : Nat) (blocks : List (List Matrix))
    (sizes : List Nat) (hws : 1 ≤ ws) (hr : r < ws) (hbne : blocks ≠ [])
    (hlen : ∀ bl ∈ blocks, bl.length = ws)
    (hsz : List.Forall₂ (fun bl c => ∀ M ∈ bl, M.flatten.length = c)
      blocks sizes) :
    pyRange (sendBuf ws (blocks.map (fun bl => bl.flatten)))
      (r * ((sendBuf ws (blocks.map (fun bl => bl.flatten))).length / ws))
      ((r + 1) * ((sendBuf ws (blocks.map (fun bl => bl.flatten))).length /
        ws)) =
    (blocks.map (fun bl => (bl.getD r []).flatten)).flatten := by
  have hcomb : List.Forall₂ (fun bl c => bl.length = ws ∧
      ∀ M ∈ bl, (M : Matrix).flatten.length = c) blocks sizes :=
    forall₂_and_left hsz hlen
  have hsend : sendBuf ws (blocks.map (fun bl => bl.flatten)) =
      ((List.range ws).map (fun w =>
        (blocks.map (fun bl => (bl.getD w []).flatten)).flatten)).flatten := by
    unfold sendBuf
    rw [List.map_map]
    have hre : ∀ bl ∈ blocks,
        reshape2d ((bl.flatten : Matrix).flatten) ws
          (((bl.flatten : Matrix).flatten).length / ws) =
        bl.map List.flatten := by
      intro bl hbl
      obtain ⟨c, _, hblws, hc⟩ := forall₂_mem_left hcomb bl hbl
      have h1 : (bl.flatten : Matrix).flatten =
          (bl.map List.flatten).flatten := List.flatten_flatten
      have h2 : ((bl.map List.flatten).flatten).length = ws * c := by
        rw [List.length_flatten, List.map_map, list_sum_const _ c (by
          intro x hx
          rw [List.mem_map] at hx
          obtain ⟨M, hM, rfl⟩ := hx
          exact hc M hM), List.length_map, hblws]
      have h3 := reshape2d_flatten c (bl.map List.flatten) (by
        intro q hq
        rw [List.mem_map] at hq
        obtain ⟨M, hM, rfl⟩ := hq
        exact hc M hM)
      rw [List.length_map, hblws] at h3
      rw [h1, h2, Nat.mul_div_cancel_left _ (by omega)]
      exact h3
    rw [show blocks.map ((fun mo => reshape2d mo.flatten ws
        (mo.flatten.length / ws)) ∘ (fun bl => (bl.flatten : Matrix))) =
        blocks.map (fun bl => bl.map List.flatten) from
      List.map_congr_left (fun bl hbl => hre bl hbl)]
    rw [hconcat_rows ws _ (by
        intro h
        rw [List.map_eq_nil_iff] at h
        exact hbne h) (by
        intro M hM
        rw [List.mem_map] at hM
        obtain ⟨bl, hbl, rfl⟩ := hM
        rw [List.length_map]
        exact hlen bl hbl)]
    congr 1
    refine List.map_congr_left ?_
    intro w _
    rw [List.map_map]
    congr 1
    refine List.map_congr_left ?_
    intro bl _
    show (bl.map List.flatten).getD w [] = _
    rw [getD_map_nil List.flatten rfl bl w]
  have hrowlen : ∀ w, w < ws →
      ((blocks.map (fun bl => (bl.getD w []).flatten)).flatten).length =
      sizes.sum := by
    intro w hw
    rw [List.length_flatten, List.map_map]
    congr 1
    refine map_eq_of_forall₂ (List.Forall₂.imp ?_ hcomb)
    intro bl c hblc
    show ((bl.getD w []).flatten).length = c
    exact hblc.2 _ (getD_mem_of_lt bl w (by rw [hblc.1]; exact hw) [])
  have htot : (sendBuf ws (blocks.map (fun bl => bl.flatten))).length =
      ws * sizes.sum := by
    rw [hsend, List.length_flatten, List.map_map, list_sum_const _ sizes.sum
      (by
        intro x hx
        rw [List.mem_map] at hx
        obtain ⟨w, hw, rfl⟩ := hx
        rw [List.mem_range] at hw
        exact hrowlen w hw), List.length_map, List.length_range]
  rw [hsend]
  rw [show (((List.range ws).map (fun w =>
      (blocks.map (fun bl => (bl.getD w []).flatten)).flatten)).flatten).length
      = ws * sizes.sum from by rw [← hsend]; exact htot]
  rw [Nat.mul_div_cancel_left _ (by omega : 0 < ws),
    show (r + 1) * sizes.sum = r * sizes.sum + sizes.sum from by ring,
    flatten_getD_block sizes.sum _ r (by
      intro q hq
      rw [List.mem_map] at hq
      obtain ⟨w, hw, rfl⟩ := hq
      rw [List.mem_range] at hw
      exact hrowlen w hw) (by
        rw [List.length_map, List.length_range]
        exact hr)]
  exact getD_range_map _ ws r hr []

theorem split_reshape_eval (local_bs : Nat) (Gs : List Matrix)
    (widths : List Nat) (hbs : 1 ≤ local_bs)
    (hG : List.Forall₂ (fun G w => (G : Matrix).length = local_bs ∧
      ∀ row ∈ G, (row : List Int).length = w) Gs widths) :
    (split_canonical ((Gs.map (fun G => G.flatten)).flatten)
        (widths.map (fun width => local_bs * width))).map
      (fun split_out => reshape2d split_out local_bs
        (split_out.length / local_bs)) = Gs := by
  have h₁ : List.Forall₂ (fun G c => ((G : Matrix).flatten).length = c) Gs
      (widths.map (fun width => local_bs * width)) := by
    rw [List.forall₂_map_right_iff]
    refine List.Forall₂.imp ?_ hG
    intro G w hGw
    show G.flatten.length = local_bs * w
    rw [List.length_flatten, list_sum_const _ w (by
      intro x hx
      rw [List.mem_map] at hx
      obtain ⟨row, hrow, rfl⟩ := hx
      exact hGw.2 row hrow), List.length_map, hGw.1]
  have h₂ : widths.map (fun width => local_bs * width) =
      (Gs.map (fun G => G.flatten)).map List.length := by
    rw [List.map_map]
    exact (map_eq_of_forall₂ h₁).symm
  rw [h₂, split_canonical_of_parts, List.map_map]
  refine (List.map_congr_left ?_).trans (List.map_id Gs)
  intro G hG2
  obtain ⟨w, _, hGlen, hGrows⟩ := forall₂_mem_left hG G hG2
  show reshape2d G.flatten local_bs (G.flatten.length / local_bs) = G
  have hflen : G.flatten.length = local_bs * w := by
    rw [List.length_flatten, list_sum_const _ w (by
      intro x hx
      rw [List.mem_map] at hx
      obtain ⟨row, hrow, rfl⟩ := hx
      exact hGrows row hrow), List.length_map, hGlen]
  have h3 := reshape2d_flatten w G hGrows
  rw [hGlen] at h3
  rw [hflen, Nat.mul_div_cancel_left _ (by omega)]
  exact h3

theorem splice_grouped (SL : List (List TableConfig))
    {itmT : List Nat} {groups : List (List Matrix)}
    (hfa : List.Forall₂ (fun t g => (g : List Matrix).length =
      (SL.getD t []).length ∧ 1 ≤ (SL.getD t []).length) itmT groups) :
    ∀ (k0 : Nat) (pre : List Matrix), pre.length = k0 →
      concat_column_slice_outputs
        ((itmT.enumFrom k0).filterMap (fun p =>
          if 1 < (SL.getD p.2 []).length then
            some (p.1, p.1 + (SL.getD p.2 []).length) else none))
        (pre ++ groups.flatten) =
      pre ++ groups.map hconcat := by
  induction hfa with
  | nil => intro k0 pre _; rfl
  | cons hab htail ih =>
    rename_i t g itmT2 groups2
    intro k0 pre hpre
    obtain ⟨hglen, hS1⟩ := hab
    rw [show (t :: itmT2).enumFrom k0 = (k0, t) :: itmT2.enumFrom (k0 + 1)
      from rfl]
    by_cases hS : 1 < (SL.getD t []).length
    · have hfm : (((k0, t) :: itmT2.enumFrom (k0 + 1)).filterMap (fun p =>
          if 1 < (SL.getD p.2 []).length then
            some (p.1, p.1 + (SL.getD p.2 []).length) else none)) =
          (k0, k0 + (SL.getD t []).length) ::
            (itmT2.enumFrom (k0 + 1)).filterMap (fun p =>
              if 1 < (SL.getD p.2 []).length then
                some (p.1, p.1 + (SL.getD p.2 []).length) else none) := by
        rw [List.filterMap_cons]
        rw [if_pos (show 1 < (SL.getD ((k0, t) : Nat × Nat).2 []).length
          from hS)]
      rw [hfm]
      show concat_column_slice_outputs _
        ((pre ++ (g :: groups2).flatten).take k0 ++
          [hconcat (pyRange (pre ++ (g :: groups2).flatten) k0
            (k0 + (SL.getD t []).length))] ++
          (pre ++ (g :: groups2).flatten).drop
            (k0 + (SL.getD t []).length)) = _
      rw [List.flatten_cons, ← hpre]
      have htake : (pre ++ (g ++ groups2.flatten)).take pre.length = pre :=
        List.take_left _ _
      have hpr : pyRange (pre ++ (g ++ groups2.flatten)) pre.length
          (pre.length + (SL.getD t []).length) = g := by
        show ((pre ++ (g ++ groups2.flatten)).take
          (pre.length + (SL.getD t []).length)).drop pre.length = g
        rw [List.take_append, List.drop_left, ← hglen, List.take_left]
      have hdrop : (pre ++ (g ++ groups2.flatten)).drop
          (pre.length + (SL.getD t []).length) = groups2.flatten := by
        rw [List.drop_append, ← hglen, List.drop_left]
      rw [htake, hpr, hdrop]
      have hih := ih (pre.length + 1) (pre ++ [hconcat g])
        (by rw [List.length_append, List.length_singleton])
      rw [List.map_cons]
      conv_rhs => rw [List.append_cons]
      exact hih
    · have hfm : (((k0, t) :: itmT2.enumFrom (k0 + 1)).filterMap (fun p =>
          if 1 < (SL.getD p.2 []).length then
            some (p.1, p.1 + (SL.getD p.2 []).length) else none)) =
          (itmT2.enumFrom (k0 + 1)).filterMap (fun p =>
            if 1 < (SL.getD p.2 []).length then
              some (p.1, p.1 + (SL.getD p.2 []).length) else none) := by
        rw [List.filterMap_cons]
        rw [if_neg (show ¬ 1 < (SL.getD ((k0, t) : Nat × Nat).2 []).length
          from hS)]
      rw [hfm]
      obtain ⟨g0, rfl⟩ : ∃ a, g = [a] :=
        List.length_eq_one.mp (by rw [hglen]; omega)
      have hih := ih (k0 + 1) (pre ++ [g0])
        (by rw [List.length_append, List.length_singleton, hpre])
      rw [List.flatten_cons, List.map_cons,
        show pre ++ ([g0] ++ groups2.flatten) =
          (pre ++ [g0]) ++ groups2.flatten from by
            rw [List.append_assoc],
        hih,
        show hconcat [g0] = g0 from rfl]
      conv_rhs => rw [List.append_cons]

theorem group_gather_hconcat (embeddings : List TableConfig) (ws : Nat)
    (thr : Option Nat) (W : List Matrix) (t : Nat) (ids : List Nat)
    (hws : 1 ≤ ws) (htB : t < embeddings.length)
    (hin : ∀ cfg ∈ embeddings, 1 ≤ cfg.input_dim)
    (hout1 : ∀ cfg ∈ embeddings, 1 ≤ cfg.output_dim)
    (hWrows : ∀ u, u < embeddings.length →
      (W.getD u []).length = (embeddings.getD u ⟨0, 0⟩).input_dim)
    (hWcols : ∀ u, u < embeddings.length → ∀ row ∈ W.getD u [],
      row.length = (embeddings.getD u ⟨0, 0⟩).output_dim)
    (hids : ∀ x ∈ ids, x < (embeddings.getD t ⟨0, 0⟩).input_dim) :
    hconcat ((List.range ((embeddings.map (fun c =>
        maybe_slice_table_column c thr ws)).getD t []).length).map (fun j =>
      gatherRows (sliceFor W (embeddings.map (fun c =>
        maybe_slice_table_column c thr ws)) (t, j)) ids)) =
    gatherRows (W.getD t []) ids := by
  have hcfgmem : embeddings.getD t ⟨0, 0⟩ ∈ embeddings :=
    getD_mem_of_lt embeddings t htB ⟨0, 0⟩
  have hS : 1 ≤ ((embeddings.map (fun c =>
      maybe_slice_table_column c thr ws)).getD t []).length := by
    rw [getD_map_lt _ embeddings t htB [] ⟨0, 0⟩]
    exact maybe_slice_length_pos _ thr ws hws (hout1 _ hcfgmem)
  have hrect : ∀ row ∈ gatherRows (W.getD t []) ids,
      row.length = ((W.getD t []).headD []).length := by
    intro row hrow
    simp only [gatherRows] at hrow
    rw [List.mem_map] at hrow
    obtain ⟨x, hx, rfl⟩ := hrow
    rw [headD_row_length embeddings W t htB hin hWrows hWcols]
    refine hWcols t htB _ ?_
    refine getD_mem_of_lt _ x ?_ []
    rw [hWrows t htB]
    exact hids x hx
  have hcomm : ∀ j ∈ List.range ((embeddings.map (fun c =>
      maybe_slice_table_column c thr ws)).getD t []).length,
      gatherRows (sliceFor W (embeddings.map (fun c =>
        maybe_slice_table_column c thr ws)) (t, j)) ids =
      tableSlice (gatherRows (W.getD t []) ids)
        (((W.getD t []).headD []).length)
        ((embeddings.map (fun c =>
          maybe_slice_table_column c thr ws)).getD t []).length j := by
    intro j _
    exact gather_tableSlice_comm _ _ _ j ids
  rw [List.map_congr_left hcomm]
  exact tableSlice_hconcat _ _ _ hS hrect

theorem map_getD_range_comp {β : Type} (d : α) (G : α → β) (l : List α) :
    (List.range l.length).map (fun i => G (l.getD i d)) = l.map G := by
  conv_rhs => rw [← map_getD_range d l]
  rw [List.map_map]
  rfl

theorem zip_eq_range_map {β : Type} (dA : α) (dB : β) (A : List α)
    (B : List β) (h : A.length = B.length) :
    A.zip B = (List.range A.length).map (fun i => (A.getD i dA, B.getD i dB))
    := by
  conv_lhs => rw [← map_getD_range dA A, ← map_getD_range dB B, ← h]
  exact zip_map_same _ _ _

theorem zip_self_map {β : Type} (g : α → β) :
    ∀ l : List α, l.zip (l.map g) = l.map (fun x => (x, g x)) := by
  intro l
  induction l with
  | nil => rfl
  | cons x t ih =>
    show (x, g x) :: t.zip (t.map g) = (x, g x) :: t.map _
    rw [ih]

theorem flatten_map_ite_prop {β : Type} {P : α → Prop} [DecidablePred P]
    (f : α → β) : ∀ l : List α,
      (l.map (fun x => if P x then [f x] else [])).flatten =
        (l.filter (fun x => decide (P x))).map f := by
  intro l
  induction l with
  | nil => rfl
  | cons x rest ih =>
    rw [List.map_cons, List.flatten_cons, List.filter_cons]
    by_cases hx : P x
    · rw [if_pos hx, if_pos (decide_eq_true hx), List.map_cons,
        List.singleton_append, ih]
    · rw [if_neg hx, if_neg (by simpa using hx), List.nil_append, ih]

theorem flatten_map_map {β γ : Type} (g : β → List γ) (F : α → List β)
    (L : List α) :
    (L.map (fun x => ((F x).map g).flatten)).flatten =
      ((L.map F).flatten.map g).flatten := by
  rw [List.map_flatten, List.map_map, List.flatten_flatten, List.map_map]
  rfl

theorem occ_mem_facts_global (embeddings : List TableConfig) (ws : Nat)
    (thr : Option Nat) (T : List (List Nat))
    (hTperm : T.flatten ~ (strategyPairs (embeddings.map
      (fun c => maybe_slice_table_column c thr ws))).map Prod.snd) :
    ∀ p ∈ occEnum T.flatten (fun _ => 0),
      p.1 < embeddings.length ∧
        p.2 < ((embeddings.map
          (fun c => maybe_slice_table_column c thr ws)).getD p.1 []).length
    := by
  intro p hp
  have hp1B : p.1 < embeddings.length := by
    have hp1Tr : p.1 ∈ T.flatten := by
      rw [← occEnum_fst T.flatten (fun _ => 0)]
      exact List.mem_map_of_mem Prod.fst hp
    have h2 := gids_mem_lt _ p.1 (hTperm.mem_iff.mp hp1Tr)
    rw [List.length_map] at h2
    exact h2
  have hsnd : p.2 < 0 + (T.flatten).count p.1 :=
    (occEnum_snd_lt T.flatten (fun _ => 0) p hp).2
  have hc : (T.flatten).count p.1 = ((embeddings.map (fun c =>
      maybe_slice_table_column c thr ws)).getD p.1 []).length := by
    rw [hTperm.count_eq]
    exact gids_count _ p.1 (by rw [List.length_map]; exact hp1B)
  exact ⟨hp1B, by omega⟩

theorem gather_slice_shape (embeddings : List TableConfig) (ws : Nat)
    (thr : Option Nat) (W : List Matrix) (p : Nat × Nat) (ids : List Nat)
    (hws : 1 ≤ ws)
    (hin : ∀ cfg ∈ embeddings, 1 ≤ cfg.input_dim)
    (hout : ∀ cfg ∈ embeddings,
      1 ≤ cfg.output_dim ∧ cfg.output_dim ≤ 134217728)
    (hWrows : ∀ u, u < embeddings.length →
      (W.getD u []).length = (embeddings.getD u ⟨0, 0⟩).input_dim)
    (hWcols : ∀ u, u < embeddings.length → ∀ row ∈ W.getD u [],
      row.length = (embeddings.getD u ⟨0, 0⟩).output_dim)
    (hp1 : p.1 < embeddings.length)
    (hp2 : p.2 < ((embeddings.map
      (fun c => maybe_slice_table_column c thr ws)).getD p.1 []).length)
    (hids : ∀ x ∈ ids, x < (embeddings.getD p.1 ⟨0, 0⟩).input_dim) :
    (gatherRows (sliceFor W (embeddings.map
        (fun c => maybe_slice_table_column c thr ws)) p) ids).length =
      ids.length ∧
    ∀ row ∈ gatherRows (sliceFor W (embeddings.map
        (fun c => maybe_slice_table_column c thr ws)) p) ids,
      row.length = (((embeddings.map (fun c =>
        maybe_slice_table_column c thr ws)).getD p.1 []).getD p.2
          ⟨0, 0⟩).output_dim := by
  obtain ⟨hslen, hsrows, _⟩ := slice_shape_facts embeddings ws thr W p
    hin hout hWrows hWcols hws hp1 hp2
  have hcfg := maybe_slice_getD (embeddings.getD p.1 ⟨0, 0⟩) thr ws hws
    (hout _ (getD_mem_of_lt embeddings p.1 hp1 ⟨0, 0⟩)).1 p.2 (by
      have h := hp2
      rw [getD_map_lt _ embeddings p.1 hp1 [] ⟨0, 0⟩] at h
      exact h)
  have hindim : (((embeddings.map (fun c =>
      maybe_slice_table_column c thr ws)).getD p.1 []).getD p.2
        ⟨0, 0⟩).input_dim = (embeddings.getD p.1 ⟨0, 0⟩).input_dim := by
    rw [getD_map_lt _ embeddings p.1 hp1 [] ⟨0, 0⟩, hcfg]
  refine ⟨List.length_map _ _, ?_⟩
  intro row hrow
  simp only [gatherRows] at hrow
  rw [List.mem_map] at hrow
  obtain ⟨x, hx, rfl⟩ := hrow
  refine hsrows _ ?_
  refine getD_mem_of_lt _ x ?_ []
  rw [hslen, hindim]
  exact hids x hx

theorem mp_chunk_eval (embeddings : List TableConfig) (ws r ρ b : Nat)
    (thr : Option Nat) (W : List Matrix) (T : List (List Nat))
    (itm : List Nat) (localW : Nat → List Matrix) (X : Nat → Nat → List Nat)
    (hws : 1 ≤ ws) (hr : r < ws) (hρ : ρ < ws) (hb : 1 ≤ b)
    (hTlen : T.length = ws)
    (hTperm : T.flatten ~ (strategyPairs (embeddings.map
      (fun c => maybe_slice_table_column c thr ws))).map Prod.snd)
    (hin : ∀ cfg ∈ embeddings, 1 ≤ cfg.input_dim)
    (hout : ∀ cfg ∈ embeddings,
      1 ≤ cfg.output_dim ∧ cfg.output_dim ≤ 134217728)
    (hWrows : ∀ u, u < embeddings.length →
      (W.getD u []).length = (embeddings.getD u ⟨0, 0⟩).input_dim)
    (hWcols : ∀ u, u < embeddings.length → ∀ row ∈ W.getD u [],
      row.length = (embeddings.getD u ⟨0, 0⟩).output_dim)
    (hlocalW : localW ρ = (occEnum (T.getD ρ [])
      (fun u => ((T.take ρ).flatten).count u)).map
        (sliceFor W (embeddings.map
          (fun c => maybe_slice_table_column c thr ws))))
    (hXlen : ∀ w i, w < ws → i < itm.length → (X w i).length = b)
    (hXix : ∀ w i, w < ws → i < itm.length → ∀ x ∈ X w i,
      x < (embeddings.getD (itm.getD i 0) ⟨0, 0⟩).input_dim)
    (hne : ((T.getD ρ []).map (fun u => hitsOf itm u)).flatten ≠ []) :
    pyRange (sendBuf ws (mpOuts ((T.map (fun ids =>
          ((ids.zip (List.range' 0 ids.length)).map (fun p =>
            (hitsOf itm p.1).map (fun _ => p.2))).flatten)).getD ρ [])
        (localW ρ) (reshard ws (T.map (fun ids =>
          (ids.map (fun u => hitsOf itm u)).flatten)) X ρ)))
      (r * ((sendBuf ws (mpOuts ((T.map (fun ids =>
          ((ids.zip (List.range' 0 ids.length)).map (fun p =>
            (hitsOf itm p.1).map (fun _ => p.2))).flatten)).getD ρ [])
        (localW ρ) (reshard ws (T.map (fun ids =>
          (ids.map (fun u => hitsOf itm u)).flatten)) X ρ))).length / ws))
      ((r + 1) * ((sendBuf ws (mpOuts ((T.map (fun ids =>
          ((ids.zip (List.range' 0 ids.length)).map (fun p =>
            (hitsOf itm p.1).map (fun _ => p.2))).flatten)).getD ρ [])
        (localW ρ) (reshard ws (T.map (fun ids =>
          (ids.map (fun u => hitsOf itm u)).flatten)) X ρ))).length / ws)) =
    (((occEnum (T.getD ρ []) (fun u => ((T.take ρ).flatten).count u)).map
      (fun p => (hitsOf itm p.1).map (fun k =>
        (gatherRows (sliceFor W (embeddings.map
          (fun c => maybe_slice_table_column c thr ws)) p)
          (X r k)).flatten))).flatten).flatten := by
  have hρT : ρ < T.length := by rw [hTlen]; exact hρ
  have hEfacts := occ_mem_facts embeddings ws thr T ρ hρT hTperm
  have hIIL : (T.map (fun ids =>
      (ids.map (fun u => hitsOf itm u)).flatten)).getD ρ [] =
      ((T.getD ρ []).map (fun u => hitsOf itm u)).flatten :=
    getD_map_lt _ T ρ hρT [] []
  have hLML : (T.map (fun ids =>
      ((ids.zip (List.range' 0 ids.length)).map (fun p =>
        (hitsOf itm p.1).map (fun _ => p.2))).flatten)).getD ρ [] =
      (((T.getD ρ []).zip (List.range' 0 (T.getD ρ []).length)).map (fun p =>
        (hitsOf itm p.1).map (fun _ => p.2))).flatten :=
    getD_map_lt _ T ρ hρT [] []
  have hres : reshard ws (T.map (fun ids =>
      (ids.map (fun u => hitsOf itm u)).flatten)) X ρ =
      (((T.getD ρ []).map (fun u => hitsOf itm u)).flatten).map (fun k =>
        ((List.range ws).map (fun w => X w k)).flatten) := by
    refine reshard_eval ws ρ b itm.length _ _ X hIIL hws hρ ?_ hXlen
    intro i hi
    rw [List.mem_flatten] at hi
    obtain ⟨l, hl, hil⟩ := hi
    rw [List.mem_map] at hl
    obtain ⟨u, _, rfl⟩ := hl
    exact ((hitsOf_mem itm u i).mp hil).1
  have hzipidx : (T.getD ρ []).zip (List.range' 0 (T.getD ρ []).length) =
      (List.range (T.getD ρ []).length).map (fun m =>
        ((T.getD ρ []).getD m 0, m)) := by
    rw [← List.range_eq_range',
      zip_eq_range_map 0 0 (T.getD ρ []) (List.range (T.getD ρ []).length)
        (by rw [List.length_range])]
    refine List.map_congr_left ?_
    intro m hm
    rw [List.mem_range] at hm
    congr 1
    rw [List.getD_eq_getElem _ _ (by rw [List.length_range]; exact hm)]
    exact List.getElem_range _ _
  have hmp : mpOuts ((T.map (fun ids =>
      ((ids.zip (List.range' 0 ids.length)).map (fun p =>
        (hitsOf itm p.1).map (fun _ => p.2))).flatten)).getD ρ [])
      (localW ρ) (reshard ws (T.map (fun ids =>
        (ids.map (fun u => hitsOf itm u)).flatten)) X ρ) =
      ((occEnum (T.getD ρ []) (fun u => ((T.take ρ).flatten).count u)).map
        (fun p => (hitsOf itm p.1).map (fun k =>
          gatherRows (sliceFor W (embeddings.map
            (fun c => maybe_slice_table_column c thr ws)) p)
            (((List.range ws).map (fun w => X w k)).flatten)))).flatten := by
    show (List.zip ((T.map (fun ids =>
        ((ids.zip (List.range' 0 ids.length)).map (fun p =>
          (hitsOf itm p.1).map (fun _ => p.2))).flatten)).getD ρ [])
        (reshard ws (T.map (fun ids =>
          (ids.map (fun u => hitsOf itm u)).flatten)) X ρ)).map (fun p =>
            gatherRows ((localW ρ).getD p.1 []) p.2) = _
    rw [hres, hLML, hzipidx, List.map_map]
    rw [show (((T.getD ρ []).map (fun u => hitsOf itm u)).flatten).map
        (fun k => ((List.range ws).map (fun w => X w k)).flatten) =
      ((List.range (T.getD ρ []).length).map (fun m =>
        (hitsOf itm ((T.getD ρ []).getD m 0)).map (fun k =>
          ((List.range ws).map (fun w => X w k)).flatten))).flatten from by
        rw [← map_getD_range_comp 0 (fun u => hitsOf itm u) (T.getD ρ []),
          List.map_flatten, List.map_map]
        rfl]
    rw [zip_flatten_aligned _ _ (by
      refine forall₂_map_same _ _ _ ?_
      intro m _
      show ((hitsOf itm ((T.getD ρ []).getD m 0, m).1).map
        (fun _ => ((T.getD ρ []).getD m 0, m).2)).length =
        ((hitsOf itm ((T.getD ρ []).getD m 0)).map (fun k =>
          ((List.range ws).map (fun w => X w k)).flatten)).length
      rw [List.length_map, List.length_map]),
      zipWith_map_same, List.map_flatten, List.map_map]
    congr 1
    conv_rhs => rw [← map_getD_range (((0 : Nat), (0 : Nat)))
      (occEnum (T.getD ρ []) (fun u => ((T.take ρ).flatten).count u))]
    rw [List.map_map, occEnum_length]
    refine List.map_congr_left ?_
    intro m hm
    rw [List.mem_range] at hm
    show (((hitsOf itm ((T.getD ρ []).getD m 0)).map (fun _ => m)).zip
      ((hitsOf itm ((T.getD ρ []).getD m 0)).map (fun k =>
        ((List.range ws).map (fun w => X w k)).flatten))).map (fun p =>
          gatherRows ((localW ρ).getD p.1 []) p.2) = _
    rw [zip_map_same, List.map_map]
    show (hitsOf itm ((T.getD ρ []).getD m 0)).map (fun k =>
      gatherRows ((localW ρ).getD m [])
        (((List.range ws).map (fun w => X w k)).flatten)) = _
    rw [show (localW ρ).getD m [] = sliceFor W (embeddings.map
        (fun c => maybe_slice_table_column c thr ws))
        ((occEnum (T.getD ρ []) (fun u =>
          ((T.take ρ).flatten).count u)).getD m (0, 0)) from by
      rw [hlocalW]
      exact getD_map_lt _ _ m (by rw [occEnum_length]; exact hm) [] (0, 0)]
    show _ = (hitsOf itm ((occEnum (T.getD ρ [])
      (fun u => ((T.take ρ).flatten).count u)).getD m (0, 0)).1).map
        (fun k => gatherRows (sliceFor W (embeddings.map
          (fun c => maybe_slice_table_column c thr ws))
          ((occEnum (T.getD ρ []) (fun u =>
            ((T.take ρ).flatten).count u)).getD m (0, 0)))
          (((List.range ws).map (fun w => X w k)).flatten))
    rw [occEnum_getD (T.getD ρ [])
      (fun u => ((T.take ρ).flatten).count u) m hm]
  rw [hmp]
  have hblocks : ((occEnum (T.getD ρ [])
      (fun u => ((T.take ρ).flatten).count u)).map
      (fun p => (hitsOf itm p.1).map (fun k =>
        gatherRows (sliceFor W (embeddings.map
          (fun c => maybe_slice_table_column c thr ws)) p)
          (((List.range ws).map (fun w => X w k)).flatten)))).flatten =
      (((occEnum (T.getD ρ [])
        (fun u => ((T.take ρ).flatten).count u)).map
        (fun p => (hitsOf itm p.1).map (fun k =>
          (List.range ws).map (fun w =>
            gatherRows (sliceFor W (embeddings.map
              (fun c => maybe_slice_table_column c thr ws)) p)
              (X w k))))).flatten).map (fun bl => bl.flatten) := by
    rw [List.map_flatten, List.map_map]
    congr 1
    refine List.map_congr_left ?_
    intro p _
    show (hitsOf itm p.1).map _ = ((hitsOf itm p.1).map _).map _
    rw [List.map_map]
    refine List.map_congr_left ?_
    intro k _
    show gatherRows _ (((List.range ws).map (fun w => X w k)).flatten) = _
    rw [gatherRows_flatten, List.map_map]
    rfl
  rw [hblocks]
  have hbne : (((occEnum (T.getD ρ [])
      (fun u => ((T.take ρ).flatten).count u)).map
      (fun p => (hitsOf itm p.1).map (fun k =>
        (List.range ws).map (fun w =>
          gatherRows (sliceFor W (embeddings.map
            (fun c => maybe_slice_table_column c thr ws)) p)
            (X w k))))).flatten) ≠ [] := by
    intro hB
    refine hne (List.length_eq_zero.mp ?_)
    have h2 := congrArg List.length hB
    rw [List.length_nil, List.length_flatten, List.map_map] at h2
    rw [List.length_flatten, List.map_map]
    rw [show (T.getD ρ []).map (List.length ∘ fun u => hitsOf itm u) =
      ((occEnum (T.getD ρ [])
        (fun u => ((T.take ρ).flatten).count u)).map Prod.fst).map
          (List.length ∘ fun u => hitsOf itm u) from by
        rw [occEnum_fst]]
    rw [List.map_map, ← h2]
    congr 1
    refine List.map_congr_left ?_
    intro p _
    show (hitsOf itm p.1).length = ((hitsOf itm p.1).map _).length
    rw [List.length_map]
  have hszfa : List.Forall₂ (fun bl c => ∀ M ∈ bl,
      (M : Matrix).flatten.length = c)
      (((occEnum (T.getD ρ [])
        (fun u => ((T.take ρ).flatten).count u)).map
        (fun p => (hitsOf itm p.1).map (fun k =>
          (List.range ws).map (fun w =>
            gatherRows (sliceFor W (embeddings.map
              (fun c => maybe_slice_table_column c thr ws)) p)
              (X w k))))).flatten)
      (((occEnum (T.getD ρ [])
        (fun u => ((T.take ρ).flatten).count u)).map
        (fun p => (hitsOf itm p.1).map (fun _ =>
          b * (((embeddings.map (fun c =>
            maybe_slice_table_column c thr ws)).getD p.1 []).getD p.2
              ⟨0, 0⟩).output_dim))).flatten) := by
    refine forall₂_flatten (forall₂_map_same _ _ _ ?_)
    intro p hp
    refine forall₂_map_same _ _ _ ?_
    intro k hk
    intro M hM
    rw [List.mem_map] at hM
    obtain ⟨w, hw, rfl⟩ := hM
    rw [List.mem_range] at hw
    obtain ⟨hp1, hp2⟩ := hEfacts p hp
    obtain ⟨hkn, hkt⟩ := (hitsOf_mem itm p.1 k).mp hk
    obtain ⟨hglen, hgrows⟩ := gather_slice_shape embeddings ws thr W p
      (X w k) hws hin hout hWrows hWcols hp1 hp2 (by
        intro x hx
        have h3 := hXix w k hw hkn x hx
        rw [hkt] at h3
        exact h3)
    rw [List.length_flatten, list_sum_const _
      ((((embeddings.map (fun c =>
        maybe_slice_table_column c thr ws)).getD p.1 []).getD p.2
          ⟨0, 0⟩).output_dim) (by
        intro x hx
        rw [List.mem_map] at hx
        obtain ⟨row, hrow, rfl⟩ := hx
        exact hgrows row hrow), List.length_map, hglen,
      hXlen w k hw hkn]
  have hlenb : ∀ bl ∈ (((occEnum (T.getD ρ [])
      (fun u => ((T.take ρ).flatten).count u)).map
      (fun p => (hitsOf itm p.1).map (fun k =>
        (List.range ws).map (fun w =>
          gatherRows (sliceFor W (embeddings.map
            (fun c => maybe_slice_table_column c thr ws)) p)
            (X w k))))).flatten), bl.length = ws := by
    intro bl hbl
    rw [List.mem_flatten] at hbl
    obtain ⟨l, hl, hbll⟩ := hbl
    rw [List.mem_map] at hl
    obtain ⟨p, _, rfl⟩ := hl
    rw [List.mem_map] at hbll
    obtain ⟨k, _, rfl⟩ := hbll
    rw [List.length_map, List.length_range]
  have hchunk := send_chunk_eval ws r
    (((occEnum (T.getD ρ []) (fun u => ((T.take ρ).flatten).count u)).map
      (fun p => (hitsOf itm p.1).map (fun k =>
        (List.range ws).map (fun w =>
          gatherRows (sliceFor W (embeddings.map
            (fun c => maybe_slice_table_column c thr ws)) p)
            (X w k))))).flatten)
    (((occEnum (T.getD ρ []) (fun u => ((T.take ρ).flatten).count u)).map
      (fun p => (hitsOf itm p.1).map (fun _ =>
        b * (((embeddings.map (fun c =>
          maybe_slice_table_column c thr ws)).getD p.1 []).getD p.2
            ⟨0, 0⟩).output_dim))).flatten)
    hws hr hbne hlenb hszfa
  rw [hchunk]
  rw [show ((((occEnum (T.getD ρ [])
      (fun u => ((T.take ρ).flatten).count u)).map
      (fun p => (hitsOf itm p.1).map (fun k =>
        (List.range ws).map (fun w =>
          gatherRows (sliceFor W (embeddings.map
            (fun c => maybe_slice_table_column c thr ws)) p)
            (X w k))))).flatten).map (fun bl => (bl.getD r []).flatten)) =
    ((occEnum (T.getD ρ []) (fun u => ((T.take ρ).flatten).count u)).map
      (fun p => (hitsOf itm p.1).map (fun k =>
        (gatherRows (sliceFor W (embeddings.map
          (fun c => maybe_slice_table_column c thr ws)) p)
          (X r k)).flatten))).flatten from by
    rw [List.map_flatten, List.map_map]
    congr 1
    refine List.map_congr_left ?_
    intro p _
    show ((hitsOf itm p.1).map _).map _ = (hitsOf itm p.1).map _
    rw [List.map_map]
    refine List.map_congr_left ?_
    intro k _
    show (((List.range ws).map (fun w =>
      gatherRows (sliceFor W (embeddings.map
        (fun c => maybe_slice_table_column c thr ws)) p)
        (X w k))).getD r []).flatten = _
    rw [getD_range_map _ ws r hr]]

theorem flatten_map_flatten_outer {β : Type} (H : α → List (List β))
    (L : List α) :
    (L.map (fun x => (H x).flatten)).flatten = ((L.map H).flatten).flatten
    := by
  rw [List.flatten_flatten, List.map_map]
  rfl

theorem flatten_map_hits {β : Type} (h : α → List β) (L : List (List α)) :
    (L.map (fun l => (l.map h).flatten)).flatten =
      (L.flatten.map h).flatten := by
  conv_rhs => rw [List.map_flatten]
  rw [List.flatten_flatten, List.map_map]
  rfl

theorem occEnum_buckets_map {β : Type} (T : List (List Nat))
    (g : Nat × Nat → β) :
    (occEnum T.flatten (fun _ => 0)).map g =
      ((List.range T.length).map (fun ρ => (occEnum (T.getD ρ [])
        (fun u => ((T.take ρ).flatten).count u)).map g)).flatten := by
  rw [occEnum_buckets, List.map_flatten, List.map_map]
  congr 1
  refine List.map_congr_left ?_
  intro ρ _
  show (occEnum (T.getD ρ []) (fun u =>
    (fun _ => (0 : Nat)) u + ((T.take ρ).flatten).count u)).map g = _
  rw [occEnum_congr (T.getD ρ []) _
    (fun u => ((T.take ρ).flatten).count u) (fun u => Nat.zero_add _)]

theorem call_base_eval (embeddings : List TableConfig) (ws r b : Nat)
    (thr : Option Nat) (W : List Matrix) (T : List (List Nat))
    (itm : List Nat) (localW : Nat → List Matrix) (X : Nat → Nat → List Nat)
    (hws : 1 ≤ ws) (hr : r < ws) (hb : 1 ≤ b)
    (hTlen : T.length = ws)
    (hTperm : T.flatten ~ (strategyPairs (embeddings.map
      (fun c => maybe_slice_table_column c thr ws))).map Prod.snd)
    (hitm : ∀ u ∈ itm, u < embeddings.length)
    (hin : ∀ cfg ∈ embeddings, 1 ≤ cfg.input_dim)
    (hout : ∀ cfg ∈ embeddings,
      1 ≤ cfg.output_dim ∧ cfg.output_dim ≤ 134217728)
    (hWrows : ∀ u, u < embeddings.length →
      (W.getD u []).length = (embeddings.getD u ⟨0, 0⟩).input_dim)
    (hWcols : ∀ u, u < embeddings.length → ∀ row ∈ W.getD u [],
      row.length = (embeddings.getD u ⟨0, 0⟩).output_dim)
    (hlocalW : ∀ ρ, ρ < ws → localW ρ = (occEnum (T.getD ρ [])
      (fun u => ((T.take ρ).flatten).count u)).map
        (sliceFor W (embeddings.map
          (fun c => maybe_slice_table_column c thr ws))))
    (hXlen : ∀ w i, w < ws → i < itm.length → (X w i).length = b)
    (hXix : ∀ w i, w < ws → i < itm.length → ∀ x ∈ X w i,
      x < (embeddings.getD (itm.getD i 0) ⟨0, 0⟩).input_dim)
    (hne : ∀ ρ, ρ < ws →
      ((T.getD ρ []).map (fun u => hitsOf itm u)).flatten ≠ []) :
    call_base ws r
      (T.map (fun ids => (ids.map (fun u => hitsOf itm u)).flatten))
      (T.map (fun ids => ((ids.zip (List.range' 0 ids.length)).map (fun p =>
        (hitsOf itm p.1).map (fun _ => p.2))).flatten))
      (((T.zip (configsOfBuckets T (embeddings.map
        (fun c => maybe_slice_table_column c thr ws)))).map (fun q =>
        ((q.1.zip q.2).map (fun p =>
          (hitsOf itm p.1).map (fun _ => p.2.output_dim))).flatten)).flatten)
      ((List.insertionSort pairLe
        (((T.map (fun ids =>
          (ids.map (fun u => hitsOf itm u)).flatten)).flatten).zip
          (List.range ((T.map (fun ids =>
            (ids.map (fun u => hitsOf itm u)).flatten)).flatten).length))).map
        Prod.snd)
      localW X =
    ((List.range itm.length).map (fun k =>
      (List.range (((embeddings.map (fun c =>
        maybe_slice_table_column c thr ws)).getD (itm.getD k 0) []).length)).map
        (fun j => gatherRows (sliceFor W (embeddings.map (fun c =>
          maybe_slice_table_column c thr ws)) (itm.getD k 0, j))
          (X r k)))).flatten := by
  have hEGfacts := occ_mem_facts_global embeddings ws thr T hTperm
  simp only [call_base]
  have hdp1 : (List.range ws).map (fun ρ =>
      pyRange (sendBuf ws (mpOuts ((T.map (fun ids =>
          ((ids.zip (List.range' 0 ids.length)).map (fun p =>
            (hitsOf itm p.1).map (fun _ => p.2))).flatten)).getD ρ [])
        (localW ρ) (reshard ws (T.map (fun ids =>
          (ids.map (fun u => hitsOf itm u)).flatten)) X ρ)))
      (r * ((sendBuf ws (mpOuts ((T.map (fun ids =>
          ((ids.zip (List.range' 0 ids.length)).map (fun p =>
            (hitsOf itm p.1).map (fun _ => p.2))).flatten)).getD ρ [])
        (localW ρ) (reshard ws (T.map (fun ids =>
          (ids.map (fun u => hitsOf itm u)).flatten)) X ρ))).length / ws))
      ((r + 1) * ((sendBuf ws (mpOuts ((T.map (fun ids =>
          ((ids.zip (List.range' 0 ids.length)).map (fun p =>
            (hitsOf itm p.1).map (fun _ => p.2))).flatten)).getD ρ [])
        (localW ρ) (reshard ws (T.map (fun ids =>
          (ids.map (fun u => hitsOf itm u)).flatten)) X ρ))).length / ws))) =
      (List.range ws).map (fun ρ =>
        (((occEnum (T.getD ρ []) (fun u => ((T.take ρ).flatten).count u)).map
          (fun p => (hitsOf itm p.1).map (fun k =>
            (gatherRows (sliceFor W (embeddings.map
              (fun c => maybe_slice_table_column c thr ws)) p)
              (X r k)).flatten))).flatten).flatten) :=
    List.map_congr_left (fun ρ hρ =>
      mp_chunk_eval embeddings ws r ρ b thr W T itm localW X hws hr
        (List.mem_range.mp hρ) hb hTlen hTperm hin hout hWrows hWcols
        (hlocalW ρ (List.mem_range.mp hρ)) hXlen hXix
        (hne ρ (List.mem_range.mp hρ)))
  rw [hdp1]
  have hdp2 : ((List.range ws).map (fun ρ =>
      (((occEnum (T.getD ρ []) (fun u => ((T.take ρ).flatten).count u)).map
        (fun p => (hitsOf itm p.1).map (fun k =>
          (gatherRows (sliceFor W (embeddings.map
            (fun c => maybe_slice_table_column c thr ws)) p)
            (X r k)).flatten))).flatten).flatten)).flatten =
      (((occEnum T.flatten (fun _ => 0)).map
        (fun p => (hitsOf itm p.1).map (fun k =>
          (gatherRows (sliceFor W (embeddings.map
            (fun c => maybe_slice_table_column c thr ws)) p)
            (X r k)).flatten))).flatten).flatten := by
    rw [flatten_map_flatten_outer, flatten_map_flatten_outer,
      occEnum_buckets_map T, hTlen]
  rw [hdp2]
  have hres_r : reshard ws (T.map (fun ids =>
      (ids.map (fun u => hitsOf itm u)).flatten)) X r =
      (((T.getD r []).map (fun u => hitsOf itm u)).flatten).map (fun k =>
        ((List.range ws).map (fun w => X w k)).flatten) := by
    refine reshard_eval ws r b itm.length _ _ X
      (getD_map_lt _ T r (by rw [hTlen]; exact hr) [] []) hws hr ?_ hXlen
    intro i hi
    rw [List.mem_flatten] at hi
    obtain ⟨l, hl, hil⟩ := hi
    rw [List.mem_map] at hl
    obtain ⟨u, _, rfl⟩ := hl
    exact ((hitsOf_mem itm u i).mp hil).1
  have hlocb : ((reshard ws (T.map (fun ids =>
      (ids.map (fun u => hitsOf itm u)).flatten)) X r).getD 0 []).length /
      ws = b := by
    rw [hres_r]
    have hlen0 : 0 < (((T.getD r []).map
        (fun u => hitsOf itm u)).flatten).length :=
      List.length_pos.mpr (hne r hr)
    rw [getD_map_lt _ _ 0 hlen0 [] 0]
    have hk0 : (((T.getD r []).map
        (fun u => hitsOf itm u)).flatten).getD 0 0 < itm.length := by
      have hmem := getD_mem_of_lt _ 0 hlen0 (0 : Nat)
      rw [List.mem_flatten] at hmem
      obtain ⟨l, hl, hmem2⟩ := hmem
      rw [List.mem_map] at hl
      obtain ⟨u, _, rfl⟩ := hl
      exact ((hitsOf_mem itm u _).mp hmem2).1
    rw [List.length_flatten, List.map_map, list_sum_const _ b (by
      intro x hx
      rw [List.mem_map] at hx
      obtain ⟨w, hw, rfl⟩ := hx
      rw [List.mem_range] at hw
      exact hXlen w _ hw hk0), List.length_map, List.length_range]
    exact Nat.mul_div_cancel_left _ (by omega)
  rw [hlocb]
  have hWL : ((T.zip (configsOfBuckets T (embeddings.map
      (fun c => maybe_slice_table_column c thr ws)))).map (fun q =>
      ((q.1.zip q.2).map (fun p =>
        (hitsOf itm p.1).map (fun _ => p.2.output_dim))).flatten)).flatten =
      ((occEnum T.flatten (fun _ => 0)).map (fun p =>
        (hitsOf itm p.1).map (fun _ =>
          (((embeddings.map (fun c =>
            maybe_slice_table_column c thr ws)).getD p.1 []).getD p.2
              ⟨0, 0⟩).output_dim))).flatten := by
    rw [zip_eq_range_map [] [] T (configsOfBuckets T (embeddings.map
        (fun c => maybe_slice_table_column c thr ws)))
      (by rw [configsOfBuckets_length]), List.map_map,
      occEnum_buckets_map T, ← flatten_map_flatten_outer, hTlen]
    congr 1
    refine List.map_congr_left ?_
    intro ρ hρ
    rw [List.mem_range] at hρ
    have hρT : ρ < T.length := by rw [hTlen]; exact hρ
    show (((T.getD ρ []).zip ((configsOfBuckets T (embeddings.map
      (fun c => maybe_slice_table_column c thr ws))).getD ρ [])).map (fun p =>
        (hitsOf itm p.1).map (fun _ => p.2.output_dim))).flatten = _
    rw [configsOfBuckets_getD T _ ρ hρT,
      popSeq_occEnum (T.getD ρ []) _ (embeddings.map
        (fun c => maybe_slice_table_column c thr ws))
        (fun u => ((T.take ρ).flatten).count u) (by
          intro t
          rw [popRem_inv ((T.take ρ).flatten) _ _ (fun _ => 0)
            (fun u => (List.drop_zero _).symm) t]
          show ((embeddings.map (fun c =>
            maybe_slice_table_column c thr ws)).getD t []).drop
              (0 + ((T.take ρ).flatten).count t) =
            ((embeddings.map (fun c =>
              maybe_slice_table_column c thr ws)).getD t []).drop
              (((T.take ρ).flatten).count t)
          rw [Nat.zero_add])]
    nth_rewrite 1 [← occEnum_fst (T.getD ρ [])
      (fun u => ((T.take ρ).flatten).count u)]
    rw [zip_map_same, List.map_map]
    rfl
  rw [hWL]
  have hGs : (((occEnum T.flatten (fun _ => 0)).map
      (fun p => (hitsOf itm p.1).map (fun k =>
        (gatherRows (sliceFor W (embeddings.map
          (fun c => maybe_slice_table_column c thr ws)) p)
          (X r k)).flatten))).flatten).flatten =
      (((((occEnum T.flatten (fun _ => 0)).map
        (fun p => (hitsOf itm p.1).map (fun k =>
          gatherRows (sliceFor W (embeddings.map
            (fun c => maybe_slice_table_column c thr ws)) p)
            (X r k)))).flatten).map (fun G => G.flatten)).flatten) := by
    congr 1
    rw [List.map_flatten, List.map_map]
    congr 1
    refine List.map_congr_left ?_
    intro p _
    show (hitsOf itm p.1).map _ = ((hitsOf itm p.1).map _).map _
    rw [List.map_map]
    rfl
  rw [hGs]
  have hfa : List.Forall₂ (fun G w => (G : Matrix).length = b ∧
      ∀ row ∈ G, (row : List Int).length = w)
      (((occEnum T.flatten (fun _ => 0)).map
        (fun p => (hitsOf itm p.1).map (fun k =>
          gatherRows (sliceFor W (embeddings.map
            (fun c => maybe_slice_table_column c thr ws)) p)
            (X r k)))).flatten)
      (((occEnum T.flatten (fun _ => 0)).map (fun p =>
        (hitsOf itm p.1).map (fun _ =>
          (((embeddings.map (fun c =>
            maybe_slice_table_column c thr ws)).getD p.1 []).getD p.2
              ⟨0, 0⟩).output_dim))).flatten) := by
    refine forall₂_flatten (forall₂_map_same _ _ _ ?_)
    intro p hp
    refine forall₂_map_same _ _ _ ?_
    intro k hk
    obtain ⟨hp1, hp2⟩ := hEGfacts p hp
    obtain ⟨hkn, hkt⟩ := (hitsOf_mem itm p.1 k).mp hk
    obtain ⟨hglen, hgrows⟩ := gather_slice_shape embeddings ws thr W p
      (X r k) hws hin hout hWrows hWcols hp1 hp2 (by
        intro x hx
        have h3 := hXix r k hr hkn x hx
        rw [hkt] at h3
        exact h3)
    exact ⟨by rw [hglen, hXlen r k hr hkn], hgrows⟩
  rw [split_reshape_eval b _ _ hb hfa]
  have hwoii : (T.map (fun ids =>
      (ids.map (fun u => hitsOf itm u)).flatten)).flatten =
      ((occEnum T.flatten (fun _ => 0)).map
        (fun p => hitsOf itm p.1)).flatten := by
    rw [flatten_map_hits (fun u => hitsOf itm u) T]
    congr 1
    conv_lhs => rw [← occEnum_fst T.flatten (fun _ => 0)]
    rw [List.map_map]
    rfl
  rw [hwoii]
  have hGslen : (((occEnum T.flatten (fun _ => 0)).map
      (fun p => (hitsOf itm p.1).map (fun k =>
        gatherRows (sliceFor W (embeddings.map
          (fun c => maybe_slice_table_column c thr ws)) p)
          (X r k)))).flatten).length =
      (((occEnum T.flatten (fun _ => 0)).map
        (fun p => hitsOf itm p.1)).flatten).length := by
    rw [List.length_flatten, List.length_flatten, List.map_map, List.map_map]
    congr 1
    refine List.map_congr_left ?_
    intro p _
    show ((hitsOf itm p.1).map _).length = (hitsOf itm p.1).length
    rw [List.length_map]
  have hkeys : ∀ q ∈ ((((occEnum T.flatten (fun _ => 0)).map
      (fun p => hitsOf itm p.1)).flatten).zip
      (List.range (((occEnum T.flatten (fun _ => 0)).map
        (fun p => hitsOf itm p.1)).flatten).length)), q.1 < itm.length := by
    intro q hq
    have h1 : q.1 ∈ ((occEnum T.flatten (fun _ => 0)).map
        (fun p => hitsOf itm p.1)).flatten := (List.mem_zip hq).1
    rw [List.mem_flatten] at h1
    obtain ⟨l, hl, hql⟩ := h1
    rw [List.mem_map] at hl
    obtain ⟨p, _, rfl⟩ := hl
    exact ((hitsOf_mem itm p.1 q.1).mp hql).1
  rw [pairLe_sort_grouped itm.length _ hkeys (zip_range_pairwise_snd _)]
  rw [List.map_map, List.map_flatten, List.map_map]
  congr 1
  refine List.map_congr_left ?_
  intro k hk
  rw [List.mem_range] at hk
  show (((((occEnum T.flatten (fun _ => 0)).map
      (fun p => hitsOf itm p.1)).flatten).zip
      (List.range (((occEnum T.flatten (fun _ => 0)).map
        (fun p => hitsOf itm p.1)).flatten).length)).filter
        (fun p => p.1 = k)).map (fun q =>
          (((occEnum T.flatten (fun _ => 0)).map
            (fun p => (hitsOf itm p.1).map (fun k2 =>
              gatherRows (sliceFor W (embeddings.map
                (fun c => maybe_slice_table_column c thr ws)) p)
                (X r k2)))).flatten).getD q.2 []) = _
  have hsel := filter_zipidx_map (fun x => decide (x = k)) ([] : Matrix)
    (((occEnum T.flatten (fun _ => 0)).map
      (fun p => hitsOf itm p.1)).flatten)
    (((occEnum T.flatten (fun _ => 0)).map
      (fun p => (hitsOf itm p.1).map (fun k2 =>
        gatherRows (sliceFor W (embeddings.map
          (fun c => maybe_slice_table_column c thr ws)) p)
          (X r k2)))).flatten)
    0 (by rw [hGslen]; omega)
  rw [List.drop_zero, ← List.range_eq_range'] at hsel
  refine hsel.trans ?_
  have hzipWG : ((((occEnum T.flatten (fun _ => 0)).map
      (fun p => hitsOf itm p.1)).flatten).zip
      (((occEnum T.flatten (fun _ => 0)).map
        (fun p => (hitsOf itm p.1).map (fun k2 =>
          gatherRows (sliceFor W (embeddings.map
            (fun c => maybe_slice_table_column c thr ws)) p)
            (X r k2)))).flatten)) =
      ((occEnum T.flatten (fun _ => 0)).map
        (fun p => (hitsOf itm p.1).map (fun k2 =>
          (k2, gatherRows (sliceFor W (embeddings.map
            (fun c => maybe_slice_table_column c thr ws)) p)
            (X r k2))))).flatten := by
    rw [zip_flatten_aligned _ _ (forall₂_map_same _ _ _ (fun p _ => by
      show (hitsOf itm p.1).length = ((hitsOf itm p.1).map _).length
      rw [List.length_map])), zipWith_map_same]
    congr 1
    refine List.map_congr_left ?_
    intro p _
    exact zip_self_map _ (hitsOf itm p.1)
  rw [hzipWG, filter_flatten, List.map_flatten, List.map_map, List.map_map]
  trans ((occEnum T.flatten (fun _ => 0)).map (fun p =>
    if p.1 = itm.getD k 0 then
      [gatherRows (sliceFor W (embeddings.map
        (fun c => maybe_slice_table_column c thr ws)) p) (X r k)]
    else [])).flatten
  · refine congrArg List.flatten (List.map_congr_left ?_)
    intro p _
    show ((((hitsOf itm p.1).map (fun k2 =>
      (k2, gatherRows (sliceFor W (embeddings.map
        (fun c => maybe_slice_table_column c thr ws)) p)
        (X r k2)))).filter (fun q => decide (q.1 = k))).map Prod.snd) =
      (if p.1 = itm.getD k 0 then
        [gatherRows (sliceFor W (embeddings.map
          (fun c => maybe_slice_table_column c thr ws)) p) (X r k)]
       else [])
    rw [List.map_filter, List.filter_congr (fun a _ =>
      show ((fun q => decide ((q : Nat × Matrix).1 = k)) ∘ (fun k2 =>
        (k2, gatherRows (sliceFor W (embeddings.map
          (fun c => maybe_slice_table_column c thr ws)) p)
          (X r k2)))) a = decide (a = k) from rfl)]
    rw [hitsOf_filter itm p.1 k]
    by_cases hc : k < itm.length ∧ itm.getD k 0 = p.1
    · rw [if_pos hc, if_pos hc.2.symm]
      rfl
    · rw [if_neg hc, if_neg (fun h2 => hc ⟨hk, h2.symm⟩)]
      rfl
  · rw [flatten_map_ite_prop (fun p =>
      gatherRows (sliceFor W (embeddings.map
        (fun c => maybe_slice_table_column c thr ws)) p) (X r k))
      (occEnum T.flatten (fun _ => 0))]
    rw [occEnum_filter T.flatten (fun _ => 0) (itm.getD k 0)]
    have hbeta : List.range' ((fun _ => (0 : Nat)) (itm.getD k 0))
        ((T.flatten).count (itm.getD k 0)) =
        List.range ((T.flatten).count (itm.getD k 0)) := by
      rw [List.range_eq_range']
    rw [hbeta]
    have hcount : (T.flatten).count (itm.getD k 0) =
        ((embeddings.map (fun c =>
          maybe_slice_table_column c thr ws)).getD (itm.getD k 0) []).length
        := by
      rw [hTperm.count_eq]
      exact gids_count _ _ (by
        rw [List.length_map]
        exact hitm _ (getD_mem_of_lt itm k hk 0))
    rw [hcount, List.map_map]
    rfl

/-- C1: for every data-parallel batch of index tensors (one tensor per
input, identical batch size `b ≥ 1` on every worker) and every
`world_size ≥ 2`, the multi-worker forward path — input resharding in
`_call_base`, per-local-table lookup on the column-sliced weights stored by
`set_weights`, output resharding and reorder by `rev_global_input_ids`,
then concatenation of every `sliced_out_range` — returns, for each input
`i` in original input order, exactly the values the single-worker
(`world_size = 1`) path returns for that worker's shard of the batch for
input `i`. -/
theorem c1_forward_equivalence (embeddings : List TableConfig)
    (ws r b : Nat) (mode : String) (thr : Option Nat) (itm : List Nat)
    (W : List Matrix) (plans : Nat → DistStrategy)
    (localW : Nat → List Matrix) (X : Nat → Nat → List Nat)
    (hws : 2 ≤ ws) (hr : r < ws)
    (hmode : mode = "basic" ∨ mode = "memory_balanced" ∨
      mode = "memory_optimized")
    (hitm : ∀ u ∈ itm, u < embeddings.length)
    (hplans : ∀ ρ, ρ < ws →
      mkStrategy embeddings ws ρ mode (some itm) thr = .ok (plans ρ))
    (hWlen : W.length = embeddings.length)
    (hin : ∀ cfg ∈ embeddings, 1 ≤ cfg.input_dim)
    (hout : ∀ cfg ∈ embeddings,
      1 ≤ cfg.output_dim ∧ cfg.output_dim ≤ 134217728)
    (hWrows : ∀ u, u < embeddings.length →
      (W.getD u []).length = (embeddings.getD u ⟨0, 0⟩).input_dim)
    (hWcols : ∀ u, u < embeddings.length → ∀ row ∈ W.getD u [],
      row.length = (embeddings.getD u ⟨0, 0⟩).output_dim)
    (hstored : ∀ ρ, ρ < ws →
      set_weights (plans ρ).table_ids_list ws ρ
        (shapesOf (plans ρ).local_configs) W 134217728 = .ok (localW ρ))
    (hb : 1 ≤ b)
    (hXlen : ∀ w i, w < ws → i < itm.length → (X w i).length = b)
    (hXix : ∀ w i, w < ws → i < itm.length → ∀ x ∈ X w i,
      x < (embeddings.getD (itm.getD i 0) ⟨0, 0⟩).input_dim)
    (hne : ∀ ρ, ρ < ws → (plans r).input_ids_list.getD ρ [] ≠ []) :
    concat_column_slice_outputs (plans r).sliced_out_ranges
      (call_base ws r (plans r).input_ids_list (plans r).local_map_list
        (plans r).widths_list_flat (plans r).rev_global_input_ids localW X) =
    single_worker_call itm W ((List.range itm.length).map (X r)) := by
  have hws1 : 1 ≤ ws := by omega
  have hws1eq : ¬ ws = 1 := by omega
  obtain ⟨T, hT, hTlen, hTperm⟩ := apply_partition mode ws
    (embeddings.map (fun c => maybe_slice_table_column c thr ws)) hmode hws1
  have hfields : ∀ ρ, ρ < ws → (plans ρ).table_ids_list = T ∧
      (plans ρ).input_ids_list =
        T.map (fun ids => (ids.map (fun u => hitsOf itm u)).flatten) ∧
      (plans ρ).local_map_list =
        T.map (fun ids => ((ids.zip (List.range' 0 ids.length)).map (fun p =>
          (hitsOf itm p.1).map (fun _ => p.2))).flatten) ∧
      (plans ρ).widths_list_flat =
        ((T.zip (configsOfBuckets T (embeddings.map
          (fun c => maybe_slice_table_column c thr ws)))).map (fun q =>
          ((q.1.zip q.2).map (fun p =>
            (hitsOf itm p.1).map (fun _ =>
              p.2.output_dim))).flatten)).flatten ∧
      (plans ρ).rev_global_input_ids =
        (List.insertionSort pairLe
          (((T.map (fun ids =>
            (ids.map (fun u => hitsOf itm u)).flatten)).flatten).zip
            (List.range ((T.map (fun ids =>
              (ids.map (fun u => hitsOf itm u)).flatten)).flatten).length))).map
          Prod.snd ∧
      (plans ρ).sliced_out_ranges =
        itm.enum.filterMap (fun p =>
          if 1 < ((embeddings.map (fun c =>
              maybe_slice_table_column c thr ws)).getD p.2 []).length then
            some (p.1, p.1 + ((embeddings.map (fun c =>
              maybe_slice_table_column c thr ws)).getD p.2 []).length)
          else none) ∧
      (plans ρ).local_configs = (configsOfBuckets T (embeddings.map
        (fun c => maybe_slice_table_column c thr ws))).getD ρ [] := by
    intro ρ hρ
    have hp := hplans ρ hρ
    simp only [mkStrategy, create_sliced_configs, Option.getD] at hp
    rw [if_neg hws1eq, hT] at hp
    simp only [Except.map] at hp
    injection hp with h
    refine ⟨by rw [← h], ?_, ?_, ?_, ?_, by rw [← h], ?_⟩
    · rw [← h]
      show (buildPlanLoop itm T _).2.2.1 = _
      exact buildPlanLoop_inputs itm T _
    · rw [← h]
      show (buildPlanLoop itm T _).2.2.2 = _
      exact buildPlanLoop_map itm T _
    · rw [← h]
      show (buildPlanLoop itm T _).2.1 = _
      exact buildPlanLoop_widths itm T _
    · rw [← h]
      show (List.insertionSort pairLe
        (((buildPlanLoop itm T _).2.2.1.flatten).zip
          (List.range
            ((buildPlanLoop itm T _).2.2.1.flatten).length))).map Prod.snd = _
      rw [buildPlanLoop_inputs itm T _]
    · rw [← h]
      show (buildPlanLoop itm T _).1.getD ρ [] = _
      rw [buildPlanLoop_configs itm T _]
  obtain ⟨hf1, hf2, hf3, hf4, hf5, hf6, hf7⟩ := hfields r hr
  have hlocalW : ∀ ρ, ρ < ws → localW ρ = (occEnum (T.getD ρ [])
      (fun u => ((T.take ρ).flatten).count u)).map
        (sliceFor W (embeddings.map
          (fun c => maybe_slice_table_column c thr ws))) := by
    intro ρ hρ
    have h1 := hstored ρ hρ
    rw [(hfields ρ hρ).1, (hfields ρ hρ).2.2.2.2.2.2,
      set_weights_rank embeddings ws thr W T ρ hws hρ hTlen hTperm
        hWlen hin hout hWrows hWcols] at h1
    injection h1 with h2
    exact h2.symm
  have hne2 : ∀ ρ, ρ < ws →
      ((T.getD ρ []).map (fun u => hitsOf itm u)).flatten ≠ [] := by
    intro ρ hρ
    have h1 := hne ρ hρ
    rw [hf2, getD_map_lt _ T ρ (by rw [hTlen]; exact hρ) [] []] at h1
    exact h1
  rw [hf2, hf3, hf4, hf5, hf6]
  rw [call_base_eval embeddings ws r b thr W T itm localW X hws1 hr hb
    hTlen hTperm hitm hin hout hWrows hWcols hlocalW hXlen hXix hne2]
  have hsplice := splice_grouped (embeddings.map
    (fun c => maybe_slice_table_column c thr ws))
    (forall₂_range_map itm (fun k =>
      (List.range (((embeddings.map (fun c =>
        maybe_slice_table_column c thr ws)).getD (itm.getD k 0) []).length)).map
        (fun j => gatherRows (sliceFor W (embeddings.map (fun c =>
          maybe_slice_table_column c thr ws)) (itm.getD k 0, j))
          (X r k))) (by
      intro i hi
      constructor
      · rw [List.length_map, List.length_range]
      · rw [getD_map_lt _ embeddings (itm.getD i 0)
          (hitm _ (getD_mem_of_lt itm i hi 0)) [] ⟨0, 0⟩]
        exact maybe_slice_length_pos _ thr ws hws1
          (hout _ (getD_mem_of_lt embeddings _
            (hitm _ (getD_mem_of_lt itm i hi 0)) ⟨0, 0⟩)).1))
    0 [] rfl
  rw [List.nil_append, List.nil_append] at hsplice
  rw [show itm.enum = itm.enumFrom 0 from rfl] at *
  rw [hsplice, List.map_map]
  show (List.range itm.length).map _ = _
  have hsingle : single_worker_call itm W
      ((List.range itm.length).map (X r)) =
      (List.range itm.length).map (fun k =>
        gatherRows (W.getD (itm.getD k 0) []) (X r k)) := by
    show (itm.zip ((List.range itm.length).map (X r))).map _ = _
    rw [zip_eq_range_map 0 [] itm ((List.range itm.length).map (X r))
      (by rw [List.length_map, List.length_range]), List.map_map]
    refine List.map_congr_left ?_
    intro k hk
    rw [List.mem_range] at hk
    show gatherRows (W.getD (itm.getD k 0) [])
      (((List.range itm.length).map (X r)).getD k []) = _
    rw [getD_range_map _ _ k hk []]
  rw [hsingle]
  refine List.map_congr_left ?_
  intro k hk
  rw [List.mem_range] at hk
  have htB : itm.getD k 0 < embeddings.length :=
    hitm _ (getD_mem_of_lt itm k hk 0)
  show hconcat ((List.range (((embeddings.map (fun c =>
      maybe_slice_table_column c thr ws)).getD (itm.getD k 0) []).length)).map
      (fun j => gatherRows (sliceFor W (embeddings.map (fun c =>
        maybe_slice_table_column c thr ws)) (itm.getD k 0, j)) (X r k))) = _
  exact group_gather_hconcat embeddings ws thr W (itm.getD k 0) (X r k)
    hws1 htB hin (fun cfg hc => (hout cfg hc).1) hWrows hWcols
    (hXix r k hr hk)

/-- Closed instance of `c1_forward_equivalence`: two unsliced tables on two
workers under the `basic` strategy with a one-row batch; the multi-worker
forward path returns exactly the single-worker lookups. -/
theorem c1_forward_equivalence_witness :
    concat_column_slice_outputs []
      (call_base 2 0 [[0], [1]] [[0], [0]] [3, 2] [0, 1]
        (fun ρ => if ρ = 0 then [[[1, 2, 3], [4, 5, 6]]] else [[[7, 8]]])
        (fun _ _ => [0])) =
    single_worker_call [0, 1] [[[1, 2, 3], [4, 5, 6]], [[7, 8]]]
      ((List.range 2).map (fun _ => [0])) :=
  c1_forward_equivalence [⟨2, 3⟩, ⟨1, 2⟩] 2 0 1 "basic" none [0, 1]
    [[[1, 2, 3], [4, 5, 6]], [[7, 8]]]
    (fun ρ => ⟨[⟨2, 3⟩, ⟨1, 2⟩], [[0], [1]], [[0], [1]], [[0], [0]],
      [[⟨2, 3⟩], [⟨1, 2⟩]], [3, 2], [0, 1], [],
      if ρ = 0 then [⟨2, 3⟩] else [⟨1, 2⟩], [0]⟩)
    (fun ρ => if ρ = 0 then [[[1, 2, 3], [4, 5, 6]]] else [[[7, 8]]])
    (fun _ _ => [0])
    (by omega) (by omega) (Or.inl rfl) (by decide)
    (fun ρ hρ => match ρ, hρ with
      | 0, _ => rfl
      | 1, _ => rfl
      | n + 2, h => absurd (show n + 2 < 2 from h) (by omega))
    rfl (by decide) (by decide)
    (fun t ht => match t, ht with
      | 0, _ => rfl
      | 1, _ => rfl
      | n + 2, h => absurd (show n + 2 < 2 from h) (by omega))
    (fun t ht => match t, ht with
      | 0, _ => by decide
      | 1, _ => by decide
      | n + 2, h => absurd (show n + 2 < 2 from h) (by omega))
    (fun ρ hρ => match ρ, hρ with
      | 0, _ => rfl
      | 1, _ => rfl
      | n + 2, h => absurd (show n + 2 < 2 from h) (by omega))
    (by omega)
    (fun w i _ _ => rfl)
    (fun w i hw hi x hx => by
      rw [List.mem_singleton] at hx
      subst hx
      exact (match i, hi with
        | 0, _ => by decide
        | 1, _ => by decide
        | n + 2, h => absurd (show n + 2 < 2 from h) (by omega)))
    (fun ρ hρ => match ρ, hρ with
      | 0, _ => by decide
      | 1, _ => by decide
      | n + 2, h => absurd (show n + 2 < 2 from h) (by omega))

end DistEmb
